import Mathlib

/-!
# qlbridge: runtime resolver and SQL AST rewrites

A shallow embedding of `exec/config.go`, `expr/sql.go` and the join operator of
`exec/source.go`.

Modelling conventions

* A Go `string` is a `List Char` (`Str`).  The needles searched for in the
  source (`"://"`, `"."`) are ASCII, so searching by code point and searching
  by byte agree on well-formed UTF-8 text.
* `strings.ToLower` maps `unicode.ToLower` over the runes of its argument.  The
  rune table is not part of the repository; it is the parameter `lc`.
* A non-nil Go interface value (a data source, an opened connection) is an
  element of a type parameter `V`; a nil interface value is `none`.
* A Go map is an association list with pairwise different keys; assigning to a
  key that is present replaces its value in place, assigning to a new key
  appends an entry.
* The elements of `[]*Column` and `[]*SqlSource` are taken to be distinct
  objects, so a slice of pointers is a list of values.
-/

namespace QLBridge

/-- Go strings, as sequences of code points. -/
abbrev Str := List Char

/-! ## The part of Go's `strings` package the sources call -/

namespace strings

/-- `strings.HasPrefix(s, pre)`. -/
def HasPrefix (s pre : Str) : Bool := pre.isPrefixOf s

/-- Position of the first occurrence of `sep` in `s`, if there is one. -/
def indexOpt (sep : Str) : Str → Option Nat
  | [] => if sep.isEmpty then some 0 else none
  | c :: cs =>
    if sep.isPrefixOf (c :: cs) then some 0
    else (indexOpt sep cs).map (· + 1)

/-- `strings.Index(s, sep)`: first position of `sep` in `s`, or `-1`. -/
def Index (s sep : Str) : Int :=
  match indexOpt sep s with
  | some i => (i : Int)
  | none => -1

/-- `strings.Contains(s, sep)`, which Go defines as `Index(s, sep) >= 0`. -/
def Contains (s sep : Str) : Bool := decide (0 ≤ Index s sep)

/-- Loop of Go's `genSplit`: cut at the first separator while one is found. -/
def genSplit (sep : Str) : Nat → Str → List Str
  | 0, s => [s]
  | n + 1, s =>
    match indexOpt sep s with
    | none => [s]
    | some i => s.take i :: genSplit sep n (s.drop (i + sep.length))

/-- `strings.Split(s, sep)` for a non-empty separator. -/
def Split (s sep : Str) : List Str := genSplit sep s.length s

/-- `strings.ToLower(s)`: the rune map `lc` applied to every rune. -/
def ToLower (lc : Char → Char) (s : Str) : Str := s.map lc

end strings

/-- The literal `"://"`. -/
def schemeSep : Str := [':', '/', '/']

/-- The literal `"csv://"`. -/
def csvScheme : Str := ['c', 's', 'v', ':', '/', '/']

/-! ## `exec/config.go` -/

/-- Severity of a line written through the `gou` logger. -/
inductive LogLevel where
  | Debug
  | Info
  | Warn
  | Error
  deriving DecidableEq, Repr

/-- How a Go call ends: it returns a value, or the runtime panics (a method
call on a nil interface value, an index outside a slice). -/
inductive Outcome (α : Type) where
  | ret (a : α)
  | nilDereference
  | indexOutOfRange
  deriving DecidableEq, Repr

/-- The fields of `RuntimeConfig`.  `Sources` is the registry handle, seen
through its `Get` method. -/
structure RuntimeConfig (V : Type) where
  Sources : Str → Option V
  singleConn : Str
  db : Str
  DisableRecover : Bool

/-- Lines 61-78 of `RuntimeConfig.DataSource`: the scheme that will be looked up
and the configuration after the assignment to `m.db`. -/
def RuntimeConfig.sourceType {V : Type} (lc : Char → Char) (m : RuntimeConfig V)
    (connInfo : Str) : Str × RuntimeConfig V :=
  let r : Str × RuntimeConfig V :=
    if 0 < connInfo.length then
      if strings.HasPrefix connInfo csvScheme then
        (['c', 's', 'v'], { m with db := connInfo.drop csvScheme.length })
      else if strings.Contains connInfo schemeSep then
        let strIdx := (strings.Index connInfo schemeSep).toNat
        (connInfo.take strIdx, { m with db := connInfo.drop (strIdx + 3) })
      else
        (connInfo, m)
    else
      ([], m)
  (strings.ToLower lc r.1, r.2)

/-- `RuntimeConfig.DataSource(connInfo)`: the data source found (or nil), the
configuration afterwards and the lines logged. -/
def RuntimeConfig.DataSource {V : Type} (lc : Char → Char) (m : RuntimeConfig V)
    (connInfo : Str) : Option V × RuntimeConfig V × List LogLevel :=
  let st := m.sourceType lc connInfo
  match st.2.Sources st.1 with
  | some source => (some source, st.2, [LogLevel.Debug])
  | none => (none, st.2, [LogLevel.Error])

/-- `RuntimeConfig.Conn(db)`.  `dsOpen` is the `Open` method of the data source
values: it hands back a connection (possibly nil) and an error (possibly nil).
Calling `Open` on the nil interface value is a nil dereference. -/
def RuntimeConfig.Conn {V : Type} (lc : Char → Char)
    (dsOpen : V → Str → Option V × Option Str) (m : RuntimeConfig V) (db : Str) :
    Outcome (Option V) × RuntimeConfig V × List LogLevel :=
  if m.singleConn = [] then
    match m.Sources (strings.ToLower lc db) with
    | some source => (Outcome.ret (some source), m, [LogLevel.Debug])
    | none => (Outcome.ret none, m, [LogLevel.Error])
  else
    let r := m.DataSource lc m.singleConn
    match r.1 with
    | none => (Outcome.nilDereference, r.2.1, r.2.2 ++ [LogLevel.Info])
    | some source =>
      match dsOpen source db with
      | (_, some _) => (Outcome.ret none, r.2.1, r.2.2 ++ [LogLevel.Info, LogLevel.Error])
      | (conn, none) => (Outcome.ret conn, r.2.1, r.2.2 ++ [LogLevel.Info])

/-! ### Sample configurations -/

/-- A registry that knows the schemes `csv`, `mysql` and `mockcsv`. -/
def sampleSources : Str → Option Nat := fun s =>
  if s = "csv".toList then some 1
  else if s = "mysql".toList then some 2
  else if s = "mockcsv".toList then some 3
  else none

/-- A configuration without single-connection override. -/
def sampleConf : RuntimeConfig Nat :=
  { Sources := sampleSources, singleConn := [], db := "old".toList, DisableRecover := false }

/-- A configuration whose override names a scheme the registry does not know. -/
def unknownOverrideConf : RuntimeConfig Nat :=
  { Sources := sampleSources, singleConn := "nosuch://x".toList, db := [],
    DisableRecover := false }

/-- An `Open` method that hands the data source itself back as the connection. -/
def sampleOpen : Nat → Str → Option Nat × Option Str := fun v _ => (some v, none)

/-! ## `expr/sql.go`

The lexer and the expression nodes live in packages that are not part of these
sources; the declarations below give the shapes `sql.go` relies on.  Log lines
written by `sql.go` are not recorded. -/

/-- The token types `sql.go` names, and any other one. -/
inductive TokenType where
  | TokenNil
  | TokenAnd
  | TokenLogicOr
  | TokenEqual
  | TokenEqualEqual
  | TokenOther (code : Nat)
  deriving DecidableEq, Repr

/-- A lexer token: its type `T` and its text `V`. -/
structure Token where
  T : TokenType
  V : Str
  deriving DecidableEq, Repr

/-- Expression nodes: the three shapes `sql.go` inspects, and any other kind.
`NilNode` is the nil interface value in an operand position (`rewriteNode`
builds binary nodes with nil operands); a field that holds nil is `none`. -/
inductive Node where
  | IdentityNode (Text : Str)
  | BinaryNode (Operator : Token) (Arg0 Arg1 : Node)
  | FuncNode (Name : Str) (Args : List Node)
  | OtherNode (kind : Nat)
  | NilNode

/-- A Go map with string keys. -/
abbrev StrMap (β : Type) := List (Str × β)

/-- The assignment `m[k] = v`. -/
def mapSet {β : Type} : StrMap β → Str → β → StrMap β
  | [], k, v => [(k, v)]
  | (k1, v1) :: t, k, v => if k1 = k then (k, v) :: t else (k1, v1) :: mapSet t k v

/-- The lookup `v, ok := m[k]`. -/
def mapGet {β : Type} : StrMap β → Str → Option β
  | [], _ => none
  | (k1, v1) :: t, k => if k1 = k then some v1 else mapGet t k

/-- The keys of a map. -/
def mapKeys {β : Type} (m : StrMap β) : List Str := m.map Prod.fst

/-- The struct `Column`. -/
structure Column where
  sourceQuoteByte : Nat
  asQuoteByte : Nat
  originalAs : Str
  left : Str
  right : Str
  SourceField : Str
  As : Str
  Comment : Str
  Order : Str
  Star : Bool
  Expr : Option Node
  Guard : Option Node

/-- The method `Column.LeftRight`: the triple returned and the column afterwards
(the method stores the split in `left` and `right`). -/
def Column.LeftRight (m : Column) : (Str × Str × Bool) × Column :=
  if m.left = [] then
    match strings.Split m.As ['.'] with
    | [_] =>
      let m1 := { m with right := m.As }
      ((m1.left, m1.right, decide (m1.left ≠ [])), m1)
    | [v0, v1] =>
      let m1 := { m with left := v0, right := v1 }
      ((m1.left, m1.right, decide (m1.left ≠ [])), m1)
    | _ => (([], m.As, false), m)
  else
    ((m.left, m.right, decide (m.left ≠ [])), m)

/-- The struct `SqlSource`, without the sub-select `Source` and the `Where`
clause, which no function embedded here reads or writes.  The unexported field
`alias` is `alias_` (the bare word is reserved). -/
structure SqlSource where
  alias_ : Str
  Raw : Str
  Name : Str
  Alias : Str
  Op : TokenType
  LeftOrRight : TokenType
  JoinType : TokenType
  JoinExpr : Option Node
  cols : StrMap Column
  Into : Str
  Star : Bool
  Columns : List Column

/-- The struct `SqlSelect`, without `Into`, `Where`, `Having`, `GroupBy` and
`OrderBy`, which no function embedded here reads or writes. -/
structure SqlSelect where
  Db : Str
  Raw : Str
  Star : Bool
  Columns : List Column
  From : List SqlSource
  Limit : Int
  Offset : Int

/-- The loop of `SqlSelect.UnAliasedColumns` over the remaining columns: the map
built and the columns after their `LeftRight` calls. -/
def unAliasedLoop : List Column → StrMap Column → StrMap Column × List Column
  | [], cols => (cols, [])
  | col :: rest, cols =>
    let r := col.LeftRight
    let cols1 := if r.1.2.2 then mapSet cols r.1.2.1 r.2 else mapSet cols r.1.1 r.2
    let out := unAliasedLoop rest cols1
    (out.1, r.2 :: out.2)

/-- The method `SqlSelect.UnAliasedColumns`: the map returned and the statement
afterwards. -/
def SqlSelect.UnAliasedColumns (m : SqlSelect) : StrMap Column × SqlSelect :=
  let out := unAliasedLoop m.Columns []
  (out.1, { m with Columns := out.2 })

/-- The method `SqlSource.Finalize`: the error returned (always nil) and the
source afterwards. -/
def SqlSource.Finalize (lc : Char → Char) (m : SqlSource) : Option Str × SqlSource :=
  let m1 := { m with alias_ := strings.ToLower lc m.Alias }
  if m1.alias_ = [] then
    (none, { m1 with alias_ := strings.ToLower lc m1.Name })
  else
    (none, m1)

/-- The left qualifier an operand of a join predicate contributes in
`findFromAliases`, if it is an identity with one.  `identLR` is the method
`IdentityNode.LeftRight`, which is not part of these sources. -/
def operandAlias (identLR : Str → Str × Str × Bool) : Node → Option Str
  | Node.IdentityNode t => if (identLR t).2.2 then some (identLR t).1 else none
  | _ => none

/-- The method `SqlSource.findFromAliases`. -/
def SqlSource.findFromAliases (identLR : Str → Str × Str × Bool) (m : SqlSource) :
    Str × Str :=
  match m.JoinExpr with
  | some (Node.BinaryNode _ a0 a1) =>
    let from1 := match operandAlias identLR a0 with
      | some l => l
      | none => m.alias_
    let from2 := match operandAlias identLR a1 with
      | some l => l
      | none => []
    (from1, from2)
  | _ => (m.alias_, [])

/-- Body of the first loop of `SqlSelect.Finalize`, lines 367-368: the source is
finalized and given the column map. -/
def SqlSource.prepare (lc : Char → Char) (cols : StrMap Column) (src : SqlSource) :
    SqlSource :=
  { (src.Finalize lc).2 with cols := cols }

/-- Body of the first loop of `SqlSelect.Finalize`, lines 370-375: a join
expression is recorded under the two aliases it refers to. -/
def recordJoin (identLR : Str → Str × Str × Bool) (exprs : StrMap Node)
    (src : SqlSource) : StrMap Node :=
  match src.JoinExpr with
  | some e =>
    let lr := src.findFromAliases identLR
    mapSet (mapSet exprs lr.1 e) lr.2 e
  | none => exprs

/-- First loop of `SqlSelect.Finalize`: the map of recorded join expressions and
the sources afterwards. -/
def finalizeRecord (lc : Char → Char) (identLR : Str → Str × Str × Bool)
    (cols : StrMap Column) : List SqlSource → StrMap Node → StrMap Node × List SqlSource
  | [], exprs => (exprs, [])
  | src :: rest, exprs =>
    let src1 := src.prepare lc cols
    let out := finalizeRecord lc identLR cols rest (recordJoin identLR exprs src1)
    (out.1, src1 :: out.2)

/-- Body of the second loop of `SqlSelect.Finalize`: a source without join
expression takes the one recorded under its alias, if there is one. -/
def shareJoin (exprs : StrMap Node) (src : SqlSource) : SqlSource :=
  match src.JoinExpr with
  | none =>
    match mapGet exprs src.alias_ with
    | some e => { src with JoinExpr := some e }
    | none => src
  | some _ => src

/-- Second loop of `SqlSelect.Finalize`. -/
def finalizeShare (exprs : StrMap Node) : List SqlSource → List SqlSource
  | [] => []
  | src :: rest => shareJoin exprs src :: finalizeShare exprs rest

/-- The method `SqlSelect.Finalize`: the error returned (always nil) and the
statement afterwards. -/
def SqlSelect.Finalize (lc : Char → Char) (identLR : Str → Str × Str × Bool)
    (m : SqlSelect) : Option Str × SqlSelect :=
  if m.From.length = 0 then
    (none, m)
  else
    let u := m.UnAliasedColumns
    let rec1 := finalizeRecord lc identLR u.1 u.2.From []
    (none, { u.2 with From := finalizeShare rec1.1 rec1.2 })

/-! ### Sample statements -/

/-- A column as `NewColumn` builds it from a token with text `name`, with the
identity expression of that name. -/
def mkColumn (name : Str) : Column :=
  { sourceQuoteByte := 0, asQuoteByte := 0, originalAs := [], left := [], right := [],
    SourceField := name, As := name, Comment := [], Order := [], Star := false,
    Expr := some (Node.IdentityNode name), Guard := none }

/-- A FROM entry as the parser leaves it: name, alias and join predicate. -/
def mkSource (name aliasName : Str) (joinExpr : Option Node) : SqlSource :=
  { alias_ := [], Raw := [], Name := name, Alias := aliasName, Op := TokenType.TokenNil,
    LeftOrRight := TokenType.TokenNil, JoinType := TokenType.TokenNil, JoinExpr := joinExpr,
    cols := [], Into := [], Star := false, Columns := [] }

/-- A SELECT with the given projection and FROM list. -/
def mkSelect (columns : List Column) (sources : List SqlSource) : SqlSelect :=
  { Db := [], Raw := [], Star := false, Columns := columns, From := sources,
    Limit := 0, Offset := 0 }

/-- Modelled from the spec: the method `IdentityNode.LeftRight` of the parser
package, which is not in these sources.  A text of the shape `left.right` is
split at its first `.`; any other text has no qualifier. -/
def identLeftRight (text : Str) : Str × Str × Bool :=
  match strings.indexOpt ['.'] text with
  | some i => (text.take i, text.drop (i + 1), true)
  | none => ([], text, false)

/-- The statement `SELECT name FROM users`. -/
def selectName : SqlSelect :=
  mkSelect [mkColumn "name".toList] [mkSource "users".toList [] none]

/-- The statement `SELECT u.name, age FROM users AS u`. -/
def selectNameAge : SqlSelect :=
  mkSelect [mkColumn "u.name".toList, mkColumn "age".toList]
    [mkSource "users".toList "u".toList none]

/-- A SELECT whose only FROM entry has neither name nor alias, as a sub-select
without alias has. -/
def selectAnonymous : SqlSelect :=
  mkSelect [mkColumn "x".toList] [mkSource [] [] none]

/-- The predicate `u.user_id = o.user_id`. -/
def joinOnUserId : Node :=
  Node.BinaryNode { T := TokenType.TokenEqual, V := "=".toList }
    (Node.IdentityNode "u.user_id".toList) (Node.IdentityNode "o.user_id".toList)

/-- The statement
`SELECT u.name, o.item FROM users AS u INNER JOIN orders AS o ON u.user_id = o.user_id`. -/
def selectJoin : SqlSelect :=
  mkSelect [mkColumn "u.name".toList, mkColumn "o.item".toList]
    [mkSource "users".toList "u".toList none,
     mkSource "orders".toList "o".toList (some joinOnUserId)]

/-! ### Join keys and per-source rewrites -/

/-- The nil interface value and `none` are the same thing: a field read as an
operand. -/
def Node.ofOption : Option Node → Node
  | some n => n
  | none => Node.NilNode

/-- The test `n != nil` on a node that came back from a call. -/
def Node.toOption : Node → Option Node
  | Node.NilNode => none
  | n => some n

/-- The body of the loop of `JoinValueExpr` for one operand: the identity
without its qualifier, when the operand is an identity qualified by this
source's alias and has a right part. -/
def joinOperand (identLR : Str → Str × Str × Bool) (m : SqlSource) : Node → Option Node
  | Node.IdentityNode t =>
    if (identLR t).2.2 then
      if (identLR t).1 = m.alias_ ∧ (identLR t).2.1 ≠ [] then
        some (Node.IdentityNode (identLR t).2.1)
      else none
    else none
  | _ => none

/-- The text `"Could not evaluate node "`. -/
def couldNotEvaluate : Str := "Could not evaluate node ".toList

/-- The method `SqlSource.JoinValueExpr`: the pair of node and error returned,
or the panic of calling `String` on a nil `JoinExpr`.  `isSimple` is the method
`BinaryNode.IsSimple` and `nodeString` the method `Node.String`, both of the
parser package and not part of these sources. -/
def SqlSource.JoinValueExpr (identLR : Str → Str × Str × Bool)
    (isSimple : Token → Node → Node → Bool) (nodeString : Node → Str) (m : SqlSource) :
    Outcome (Option Node × Option Str) :=
  match m.JoinExpr with
  | none => Outcome.nilDereference
  | some (Node.BinaryNode op a0 a1) =>
    if isSimple op a0 a1 then
      match joinOperand identLR m a0 with
      | some n => Outcome.ret (some n, none)
      | none =>
        match joinOperand identLR m a1 with
        | some n => Outcome.ret (some n, none)
        | none => Outcome.ret (some (Node.BinaryNode op a0 a1), none)
    else
      Outcome.ret (some (Node.BinaryNode op a0 a1), none)
  | some e => Outcome.ret (none, some (couldNotEvaluate ++ nodeString e))

/-- The method `Column.RewriteFor`: a new column that keeps the quote bytes and
the source field and is named by the right part of the receiver. -/
def Column.RewriteFor (m : Column) (_aliasName : Str) : Column :=
  { sourceQuoteByte := m.sourceQuoteByte, asQuoteByte := m.asQuoteByte, originalAs := [],
    left := [], right := [], SourceField := m.SourceField, As := m.right, Comment := [],
    Order := [], Star := false, Expr := none, Guard := none }

/-- The function `rewriteNode`; the result `NilNode` is the nil it returns. -/
def rewriteNode (identLR : Str → Str × Str × Bool) (src : SqlSource) : Node → Node
  | Node.IdentityNode t =>
    if (identLR t).2.2 then
      if (identLR t).1 = src.alias_ then Node.IdentityNode (identLR t).2.1
      else Node.NilNode
    else Node.NilNode
  | Node.BinaryNode op a0 a1 =>
    match op.T with
    | TokenType.TokenAnd => Node.BinaryNode op (rewriteNode identLR src a0) (rewriteNode identLR src a1)
    | TokenType.TokenLogicOr =>
      Node.BinaryNode op (rewriteNode identLR src a0) (rewriteNode identLR src a1)
    | TokenType.TokenEqual =>
      match (rewriteNode identLR src a0).toOption with
      | some n => n
      | none => rewriteNode identLR src a1
    | TokenType.TokenEqualEqual =>
      match (rewriteNode identLR src a0).toOption with
      | some n => n
      | none => rewriteNode identLR src a1
    | _ => Node.NilNode
  | _ => Node.NilNode

/-- The inner loop of `columnsFromNode`: whether some column is qualified by
`left`, and the columns after their `LeftRight` calls. -/
def qualifiedLoop (left : Str) : List Column → Bool → Bool × List Column
  | [], found => (found, [])
  | col :: rest, found =>
    let r := col.LeftRight
    let found1 := if r.1.2.2 then (if left = r.1.1 then true else found) else found
    let out := qualifiedLoop left rest found1
    (out.1, r.2 :: out.2)

/-- The column `columnsFromNode` appends for a field of the join predicate. -/
def joinColumn (right : Str) : Column :=
  { sourceQuoteByte := 0, asQuoteByte := 0, originalAs := [], left := [], right := [],
    SourceField := [], As := right, Comment := [], Order := [], Star := false,
    Expr := some (Node.IdentityNode right), Guard := none }

/-- The function `columnsFromNode`. -/
def columnsFromNode (identLR : Str → Str × Str × Bool) (src : SqlSource) :
    Node → List Column → List Column
  | Node.IdentityNode t, cols =>
    if (identLR t).2.2 then
      if (identLR t).1 = src.alias_ then
        let out := qualifiedLoop (identLR t).1 cols false
        if out.1 then out.2 else out.2 ++ [joinColumn (identLR t).2.1]
      else cols
    else cols
  | Node.BinaryNode op a0 a1, cols =>
    match op.T with
    | TokenType.TokenAnd =>
      columnsFromNode identLR src a1 (columnsFromNode identLR src a0 cols)
    | TokenType.TokenLogicOr =>
      columnsFromNode identLR src a1 (columnsFromNode identLR src a0 cols)
    | TokenType.TokenEqual =>
      columnsFromNode identLR src a1 (columnsFromNode identLR src a0 cols)
    | TokenType.TokenEqualEqual =>
      columnsFromNode identLR src a1 (columnsFromNode identLR src a0 cols)
    | _ => cols
  | _, cols => cols

/-- The body of the loop of `SqlSource.Rewrite` for one parent column: the
column appended for the source, if any, and the parent column after its
`LeftRight` call. -/
def rewriteColumn (identLR : Str → Str × Str × Bool) (m : SqlSource) (col : Column) :
    Option Column × Column :=
  let r := col.LeftRight
  if r.1.2.2 = false then
    (some r.2, r.2)
  else if r.1.1 = m.Alias then
    let newCol := r.2.RewriteFor m.Alias
    match (rewriteNode identLR m (Node.ofOption r.2.Expr)).toOption with
    | some n => (some { newCol with Expr := some n }, r.2)
    | none => (some newCol, r.2)
  else
    (none, r.2)

/-- The loop of `SqlSource.Rewrite` over the parent columns: the columns chosen
for the source and the parent columns after their `LeftRight` calls. -/
def rewriteLoop (identLR : Str → Str × Str × Bool) (m : SqlSource) :
    List Column → List Column → List Column × List Column
  | [], acc => (acc, [])
  | col :: rest, acc =>
    let c := rewriteColumn identLR m col
    let acc1 := match c.1 with
      | some newCol => acc ++ [newCol]
      | none => acc
    let out := rewriteLoop identLR m rest acc1
    (out.1, c.2 :: out.2)

/-- The method `SqlSource.Rewrite`: the statement returned, the source
afterwards and the parent statement afterwards. -/
def SqlSource.Rewrite (identLR : Str → Str × Str × Bool) (m : SqlSource)
    (stmt : SqlSelect) : SqlSelect × SqlSource × SqlSelect :=
  let st : SqlSource × SqlSelect :=
    if stmt.Star then
      ({ m with Star := true }, stmt)
    else
      let out := rewriteLoop identLR m stmt.Columns []
      ({ m with Columns := out.1 }, { stmt with Columns := out.2 })
  let m1 := st.1
  let cols := columnsFromNode identLR m1 (Node.ofOption m1.JoinExpr) m1.Columns
  let sql2 : SqlSelect :=
    { Db := [], Raw := [], Star := m1.Star, Columns := cols,
      From := [mkSource m1.Name [] none], Limit := 0, Offset := 0 }
  (sql2, { m1 with Columns := cols.take m1.Columns.length }, st.2)

/-- The canonical alias in the words of the specification: the lowercased
`Alias`, or the lowercased `Name` when `Alias` is empty. -/
def SqlSource.canonicalAlias (lc : Char → Char) (s : SqlSource) : Str :=
  if s.Alias = [] then strings.ToLower lc s.Name else strings.ToLower lc s.Alias

/-- Whether a source records its join expression under the alias `k`. -/
def SqlSource.recordsFor (identLR : Str → Str × Str × Bool) (s : SqlSource) (k : Str) :
    Bool :=
  s.JoinExpr.isSome && (decide (k = (s.findFromAliases identLR).1)
    || decide (k = (s.findFromAliases identLR).2))

/-- The join expression recorded for the alias `k` by the sources of a FROM
list, in the words of the specification: that of the last source, in FROM
order, that records one under `k`. -/
def lastRecorded (identLR : Str → Str × Str × Bool) (k : Str) :
    List SqlSource → Option Node
  | [] => none
  | s :: rest =>
    match lastRecorded identLR k rest with
    | some e => some e
    | none => if s.recordsFor identLR k then s.JoinExpr else none

/-- Modelled from the spec: the method `BinaryNode.IsSimple` of the parser
package, which is not in these sources.  The specification calls a binary node
simple when its operator is an equality. -/
def isSimpleEquality (op : Token) (_a0 _a1 : Node) : Bool :=
  decide (op.T = TokenType.TokenEqual) || decide (op.T = TokenType.TokenEqualEqual)

/-- A stand-in for the method `Node.String` of the parser package: the text of
an identity, and nothing for any other node. -/
def sampleNodeString : Node → Str
  | Node.IdentityNode t => t
  | _ => []

/-- The predicate `LOWER(u.email) < LOWER(o.email)`: a binary node that is not
a simple equality. -/
def joinOnLowerEmail : Node :=
  Node.BinaryNode { T := TokenType.TokenOther 0, V := "<".toList }
    (Node.FuncNode "LOWER".toList [Node.IdentityNode "u.email".toList])
    (Node.FuncNode "LOWER".toList [Node.IdentityNode "o.email".toList])

/-- The FROM entry `orders AS o`, finalized, with the predicate
`LOWER(u.email) < LOWER(o.email)`. -/
def ordersOnLowerEmail : SqlSource :=
  { mkSource "orders".toList "o".toList (some joinOnLowerEmail) with alias_ := "o".toList }

/-- The FROM entry `orders AS o`, finalized, with the function node
`LOWER(o.email)` as its join expression. -/
def ordersOnFunc : SqlSource :=
  { mkSource "orders".toList "o".toList
      (some (Node.FuncNode "LOWER".toList [Node.IdentityNode "o.email".toList])) with
    alias_ := "o".toList }

/-- The first FROM entry of a statement after `Finalize`, and the statement
after `Finalize`. -/
def finalizedFirst (sel : SqlSelect) : Option SqlSource × SqlSelect :=
  ((sel.Finalize Char.toLower identLeftRight).2.From.head?,
   (sel.Finalize Char.toLower identLeftRight).2)

/-- The statement `SELECT name, u.age FROM users AS u`. -/
def selectNameUAge : SqlSelect :=
  mkSelect [mkColumn "name".toList, mkColumn "u.age".toList]
    [mkSource "users".toList "u".toList none]

/-- The statement `SELECT users.name FROM users`. -/
def selectUsersName : SqlSelect :=
  mkSelect [mkColumn "users.name".toList] [mkSource "users".toList [] none]

/-- The statement `SELECT U.name FROM users AS U`. -/
def selectUpperAlias : SqlSelect :=
  mkSelect [mkColumn "U.name".toList] [mkSource "users".toList "U".toList none]

/-- The statement
`SELECT u.user_id, o.item FROM users AS u INNER JOIN orders AS o ON u.user_id = o.user_id`. -/
def selectJoinKey : SqlSelect :=
  mkSelect [mkColumn "u.user_id".toList, mkColumn "o.item".toList]
    [mkSource "users".toList "u".toList none,
     mkSource "orders".toList "o".toList (some joinOnUserId)]

/-- The predicate `U.user_id = O.user_id`, qualified by aliases written in
upper case. -/
def joinOnUpperUserId : Node :=
  Node.BinaryNode { T := TokenType.TokenEqual, V := "=".toList }
    (Node.IdentityNode "U.user_id".toList) (Node.IdentityNode "O.user_id".toList)

/-- The statement
`SELECT U.name, O.item FROM users AS U INNER JOIN orders AS O ON U.user_id = O.user_id`. -/
def selectUpperJoin : SqlSelect :=
  mkSelect [mkColumn "U.name".toList, mkColumn "O.item".toList]
    [mkSource "users".toList "U".toList none,
     mkSource "orders".toList "O".toList (some joinOnUpperUserId)]

/-- The statement the first FROM entry of `sel` is rewritten to, `Finalize`
first: the names of its columns and whether each has an expression. -/
def rewrittenFirst (sel : SqlSelect) : List (Str × Bool) :=
  match (finalizedFirst sel).1 with
  | some src =>
    ((src.Rewrite identLeftRight (finalizedFirst sel).2).1.Columns).map
      (fun c => (c.As, c.Expr.isSome))
  | none => []

/-- A join predicate built from identities combined by `=`, `==`, AND and OR. -/
inductive JoinShape : Node → Prop where
  | identity (t : Str) : JoinShape (Node.IdentityNode t)
  | binary (op : Token) (a0 a1 : Node)
      (hop : op.T = TokenType.TokenAnd ∨ op.T = TokenType.TokenLogicOr ∨
        op.T = TokenType.TokenEqual ∨ op.T = TokenType.TokenEqualEqual)
      (h0 : JoinShape a0) (h1 : JoinShape a1) : JoinShape (Node.BinaryNode op a0 a1)

/-- The texts of the identities that are operands of a predicate. -/
def joinIdentities : Node → List Str
  | Node.IdentityNode t => [t]
  | Node.BinaryNode _ a0 a1 => joinIdentities a0 ++ joinIdentities a1
  | _ => []

/-- The FROM entry `users AS u`, finalized, with the shared predicate
`u.user_id = o.user_id`. -/
def usersJoined : SqlSource :=
  { mkSource "users".toList "u".toList (some joinOnUserId) with alias_ := "u".toList }

/-! ## `exec/source.go`

The join operator, for an execution that is not cancelled: the two input
channels are the lists of the messages they deliver before they are closed
(nil messages are not sent), and the outbox is the list of the messages sent on
it.  A Go `range` over a map visits the entries in an unspecified order; here
it visits them in the order of the association list.  Log lines are not
recorded. -/

/-- The type `url.Values`: field names with their lists of values. -/
abbrev UrlValues := StrMap (List Str)

/-- The values of the `value` package: strings, integers and any other kind. -/
inductive Value where
  | StringValue (v : Str)
  | IntValue (v : Int)
  | OtherValue (kind : Nat)
  deriving DecidableEq, Repr

/-- What `Message.Body()` returns: a `*datasource.ContextUrlValues`, a value of
another type that implements `expr.ContextReader` (seen through the fields its
`Get` answers), or a value that is no context reader. -/
inductive MsgBody where
  | ContextUrlValues (Data : UrlValues)
  | OtherReader (fields : StrMap Value)
  | NotReader (kind : Nat)
  deriving DecidableEq, Repr

/-- A non-nil `datasource.Message`: its id and its body. -/
structure Message where
  Id : Nat
  Body : MsgBody
  deriving DecidableEq, Repr

/-- The type assertion `msg.Body().(expr.ContextReader)`. -/
def MsgBody.isContextReader : MsgBody → Bool
  | MsgBody.ContextUrlValues _ => true
  | MsgBody.OtherReader _ => true
  | MsgBody.NotReader _ => false

/-- The function `joinValue`.  `vmEval` is `vm.Eval` of the expression VM, which
is not part of these sources; `none` is its answer "not ok".  A nil message is
`none`: `joinValue` logs and then calls `Body` on it. -/
def joinValue (vmEval : MsgBody → Node → Option Value) (node : Node)
    (msg : Option Message) : Outcome (Str × Bool) :=
  match msg with
  | none => Outcome.nilDereference
  | some m =>
    if m.Body.isContextReader then
      match vmEval m.Body node with
      | none => Outcome.ret ([], false)
      | some (Value.StringValue v) => Outcome.ret (v, true)
      | some _ => Outcome.ret ([], false)
    else
      Outcome.ret ([], false)

/-- The method `SqlSource.UnAliasedColumns`, which returns the map `Finalize`
stored. -/
def SqlSource.UnAliasedColumns (m : SqlSource) : StrMap Column := m.cols

/-- The body of the drain loops of `SourceJoin.Run` for one message: the
message is appended to the entry of its join value, if it has one. -/
def drainStep (vmEval : MsgBody → Node → Option Value) (expr : Node)
    (h : StrMap (List Message)) (msg : Message) : StrMap (List Message) :=
  match joinValue vmEval expr (some msg) with
  | Outcome.ret (jv, true) => mapSet h jv ((mapGet h jv).getD [] ++ [msg])
  | _ => h

/-- The function `reAlias`. -/
def reAlias (m : UrlValues) (vals : UrlValues) (cols : StrMap Column) : UrlValues :=
  vals.foldl (fun acc kv =>
    match mapGet cols kv.1 with
    | none => acc
    | some col => mapSet acc col.As kv.2) m

/-- The function `mergeUvMsgs`: the data of the rows built, one for each pair of
a left and a right message whose bodies are `ContextUrlValues`. -/
def mergeUvMsgs (lmsgs rmsgs : List Message) (cols : StrMap Column) : List UrlValues :=
  lmsgs.flatMap (fun lm =>
    match lm.Body with
    | MsgBody.ContextUrlValues ldata =>
      rmsgs.filterMap (fun rm =>
        match rm.Body with
        | MsgBody.ContextUrlValues rdata => some (reAlias (reAlias [] ldata cols) rdata cols)
        | _ => none)
    | _ => [])

/-- Lines 281-290 of `SourceJoin.Run`: the messages sent on the outbox.  The
counter `i` is never incremented, so every message is built with the id 0. -/
def joinMatches (cols : StrMap Column) (lh rh : StrMap (List Message)) : List Message :=
  lh.flatMap (fun kv =>
    match mapGet rh kv.1 with
    | some valRight =>
      (mergeUvMsgs kv.2 valRight cols).map (fun d => Message.mk 0 (MsgBody.ContextUrlValues d))
    | none => [])

/-- The method `SourceJoin.Run` for the statements and input messages of the
operator: the error returned (a panic is recovered by the context) and the
messages sent on the outbox. -/
def SourceJoin.Run (identLR : Str → Str × Str × Bool)
    (isSimple : Token → Node → Node → Bool) (nodeString : Node → Str)
    (vmEval : MsgBody → Node → Option Value) (leftStmt rightStmt : SqlSource)
    (leftIn rightIn : List Message) : Outcome (Option Str) × List Message :=
  match leftStmt.JoinValueExpr identLR isSimple nodeString with
  | Outcome.nilDereference => (Outcome.nilDereference, [])
  | Outcome.indexOutOfRange => (Outcome.indexOutOfRange, [])
  | Outcome.ret (_, some err) => (Outcome.ret (some err), [])
  | Outcome.ret (lhExpr, none) =>
    match rightStmt.JoinValueExpr identLR isSimple nodeString with
    | Outcome.nilDereference => (Outcome.nilDereference, [])
    | Outcome.indexOutOfRange => (Outcome.indexOutOfRange, [])
    | Outcome.ret (_, some err) => (Outcome.ret (some err), [])
    | Outcome.ret (rhExpr, none) =>
      let cols := leftStmt.UnAliasedColumns
      let lh := leftIn.foldl (drainStep vmEval (Node.ofOption lhExpr)) []
      let rh := rightIn.foldl (drainStep vmEval (Node.ofOption rhExpr)) []
      (Outcome.ret none, joinMatches cols lh rh)

/-! ### The join in the words of the specification -/

/-- The join key of a row: the string its join expression evaluates to. -/
def joinKey (vmEval : MsgBody → Node → Option Value) (expr : Node) (msg : Message) :
    Option Str :=
  match joinValue vmEval expr (some msg) with
  | Outcome.ret (jv, true) => some jv
  | _ => none

/-- The rows of a side that have the join key `k`. -/
def rowsWithKey (vmEval : MsgBody → Node → Option Value) (expr : Node) (k : Str)
    (msgs : List Message) : List Message :=
  msgs.filter (fun m => decide (joinKey vmEval expr m = some k))

/-- Whether the body of a message is a `ContextUrlValues`. -/
def Message.isUrlValues (m : Message) : Bool :=
  match m.Body with
  | MsgBody.ContextUrlValues _ => true
  | _ => false

/-- The data of a message whose body is a `ContextUrlValues`: the case
`*datasource.ContextUrlValues` of the type switches of `mergeUvMsgs`. -/
def Message.urlValues (m : Message) : Option UrlValues :=
  match m.Body with
  | MsgBody.ContextUrlValues d => some d
  | _ => none

/-! ### Sample rows -/

/-- A stand-in for the expression VM: an identity evaluates to the field of its
name, which `ContextUrlValues` answers with the first value as a string. -/
def sampleEval (body : MsgBody) (node : Node) : Option Value :=
  match node, body with
  | Node.IdentityNode t, MsgBody.ContextUrlValues d =>
    match mapGet d t with
    | some (v :: _) => some (Value.StringValue v)
    | _ => none
  | Node.IdentityNode t, MsgBody.OtherReader d => mapGet d t
  | _, _ => none

/-- A row of `ContextUrlValues` with one value for each field. -/
def uvRow (fields : List (String × String)) : Message :=
  { Id := 0,
    Body := MsgBody.ContextUrlValues (fields.map (fun f => (f.1.toList, [f.2.toList]))) }

/-- The table `users` of Scenario A. -/
def usersRows : List Message :=
  [uvRow [("user_id", "1"), ("name", "alice")], uvRow [("user_id", "2"), ("name", "bob")]]

/-- The table `orders` of Scenario A. -/
def ordersRows : List Message :=
  [uvRow [("user_id", "1"), ("item", "book")], uvRow [("user_id", "1"), ("item", "pen")],
   uvRow [("user_id", "3"), ("item", "mug")]]

/-- The table `users` of Scenario A with a second user under the id 1. -/
def usersRowsShared : List Message :=
  usersRows ++ [uvRow [("user_id", "1"), ("name", "carol")]]

/-- The two FROM entries of Scenario A after `Finalize`. -/
def scenarioSources : List SqlSource :=
  (selectJoin.Finalize Char.toLower identLeftRight).2.From

/-- Scenario A, run: the error and the rows sent on the outbox. -/
def scenarioA : Outcome (Option Str) × List Message :=
  match scenarioSources with
  | [l, r] => SourceJoin.Run identLeftRight isSimpleEquality sampleNodeString sampleEval l r
      usersRows ordersRows
  | _ => (Outcome.ret none, [])

/-- The number of rows of the join in the words of the specification: the sum,
over the join keys present on both sides, of the number of left rows with the
key times the number of right rows with the key. -/
def claimedRowCount (vmEval : MsgBody → Node → Option Value) (lhExpr rhExpr : Node)
    (leftIn rightIn : List Message) : Nat :=
  ∑ k ∈ (leftIn.filterMap (joinKey vmEval lhExpr)).toFinset ∩
      (rightIn.filterMap (joinKey vmEval rhExpr)).toFinset,
    (rowsWithKey vmEval lhExpr k leftIn).length * (rowsWithKey vmEval rhExpr k rightIn).length

/-- The user `alice` as a row whose body is a context reader of another type
than `ContextUrlValues`. -/
def readerRow : Message :=
  { Id := 0,
    Body := MsgBody.OtherReader
      [("user_id".toList, Value.StringValue "1".toList),
       ("name".toList, Value.StringValue "alice".toList)] }

/-- The join of Scenario A with `readerRow` as the only left row: the error and
the rows sent on the outbox. -/
def scenarioReader : Outcome (Option Str) × List Message :=
  match scenarioSources with
  | [l, r] => SourceJoin.Run identLeftRight isSimpleEquality sampleNodeString sampleEval l r
      [readerRow] ordersRows
  | _ => (Outcome.ret none, [])

/-- The left FROM entry of Scenario A after `Finalize`. -/
def scenarioLeft : SqlSource :=
  match scenarioSources with
  | [l, _] => l
  | _ => usersJoined

/-- The right FROM entry of Scenario A after `Finalize`. -/
def scenarioRight : SqlSource :=
  match scenarioSources with
  | [_, r] => r
  | _ => usersJoined

/-- The values of the last field of a row that the column map re-aliases to the
name `n`, if there is such a field. -/
def lastAliased (cols : StrMap Column) (n : Str) : UrlValues → Option (List Str)
  | [] => none
  | kv :: rest =>
    match lastAliased cols n rest with
    | some w => some w
    | none =>
      match mapGet cols kv.1 with
      | some col => if col.As = n then some kv.2 else none
      | none => none

/-- The statement `SELECT u.name, o.name FROM users AS u INNER JOIN orders AS o ON
u.user_id = o.user_id`. -/
def selectTwoNames : SqlSelect :=
  mkSelect [mkColumn "u.name".toList, mkColumn "o.name".toList]
    [mkSource "users".toList "u".toList none,
     mkSource "orders".toList "o".toList (some joinOnUserId)]

/-! ### The `count(*)` tests of `sql.go` -/

/-- The text `"count"`. -/
def countName : Str := "count".toList

/-- The text `"*"`. -/
def starText : Str := "*".toList

/-- The method `Column.CountStar`: the boolean returned, or the panic of
indexing `fn.Args[0]` in an empty argument list.  A node has the type
`FuncNodeType` exactly when it is a `*FuncNode`. -/
def Column.CountStar (lc : Char → Char) (nodeString : Node → Str) (m : Column) :
    Outcome Bool :=
  match m.Expr with
  | none => Outcome.ret false
  | some (Node.FuncNode name args) =>
    if strings.ToLower lc name = countName then
      match args with
      | [] => Outcome.indexOutOfRange
      | a :: _ => Outcome.ret (decide (nodeString a = starText))
    else Outcome.ret false
  | some _ => Outcome.ret false

/-- The method `SqlSelect.CountStar`. -/
def SqlSelect.CountStar (lc : Char → Char) (nodeString : Node → Str) (m : SqlSelect) :
    Bool :=
  match m.Columns with
  | [col] =>
    match col.Expr with
    | none => false
    | some (Node.FuncNode name args) =>
      if strings.ToLower lc name ≠ countName then false
      else
        match args with
        | [a] => if nodeString a = starText then true else false
        | _ => false
    | some _ => false
  | _ => false

/-- A column with the given alias and expression. -/
def mkExprColumn (name : Str) (e : Node) : Column :=
  { mkColumn name with Expr := some e }

/-- The statement `SELECT count() FROM users`. -/
def selectCountNoArgs : SqlSelect :=
  mkSelect [mkExprColumn "count()".toList (Node.FuncNode "count".toList [])]
    [mkSource "users".toList [] none]

/-- The statement `SELECT count(*, name) FROM users`. -/
def selectCountTwoArgs : SqlSelect :=
  mkSelect
    [mkExprColumn "count(*, name)".toList
      (Node.FuncNode "count".toList
        [Node.IdentityNode "*".toList, Node.IdentityNode "name".toList])]
    [mkSource "users".toList [] none]

/-- The statement `SELECT count(*) FROM users`. -/
def selectCountStar : SqlSelect :=
  mkSelect
    [mkExprColumn "count(*)".toList (Node.FuncNode "count".toList [Node.IdentityNode "*".toList])]
    [mkSource "users".toList [] none]

/-! ### Overwriting of duplicate keys -/

/-- The key under which the loop of `UnAliasedColumns` files a column: `right`
when `LeftRight` answers ok, `left` otherwise. -/
def Column.mapKey (c : Column) : Str :=
  if c.LeftRight.1.2.2 then c.LeftRight.1.2.1 else c.LeftRight.1.1

/-- The last column of a projection list, in list order, that produces the key
`k`. -/
def lastWithKey (k : Str) : List Column → Option Column
  | [] => none
  | c :: rest =>
    match lastWithKey k rest with
    | some d => some d
    | none => if c.mapKey = k then some c else none

/-! ### Construction of the join operator -/

/-- The fields of `SourceJoin` that `NewSourceJoin` sets: the two statements and
the two scanners (`conf` is left nil by the constructor). -/
structure SourceJoin (V : Type) where
  leftStmt : SqlSource
  rightStmt : SqlSource
  leftSource : V
  rightSource : V

/-- The text `"Must Implement Scanner"`. -/
def mustImplementScanner : Str := "Must Implement Scanner".toList

/-- One side of `NewSourceJoin`: the name is resolved through `Conn` and the
result is asserted to be a `datasource.Scanner` (`isScanner`; the assertion
fails on nil).  The scanner if there is one, or the panic of `Conn`, and the
configuration afterwards. -/
def resolveScanner {V : Type} (lc : Char → Char) (dsOpen : V → Str → Option V × Option Str)
    (isScanner : V → Bool) (conf : RuntimeConfig V) (name : Str) :
    Outcome (Option V) × RuntimeConfig V :=
  let r := conf.Conn lc dsOpen name
  match r.1 with
  | Outcome.ret (some source) =>
    if isScanner source then (Outcome.ret (some source), r.2.1) else (Outcome.ret none, r.2.1)
  | Outcome.ret none => (Outcome.ret none, r.2.1)
  | Outcome.nilDereference => (Outcome.nilDereference, r.2.1)
  | Outcome.indexOutOfRange => (Outcome.indexOutOfRange, r.2.1)

/-- The function `NewSourceJoin`: the operator and the error returned, or the
panic of `Conn`, and the configuration afterwards. -/
def NewSourceJoin {V : Type} (lc : Char → Char) (dsOpen : V → Str → Option V × Option Str)
    (isScanner : V → Bool) (leftFrom rightFrom : SqlSource) (conf : RuntimeConfig V) :
    Outcome (Option (SourceJoin V) × Option Str) × RuntimeConfig V :=
  let l := resolveScanner lc dsOpen isScanner conf leftFrom.Name
  match l.1 with
  | Outcome.nilDereference => (Outcome.nilDereference, l.2)
  | Outcome.indexOutOfRange => (Outcome.indexOutOfRange, l.2)
  | Outcome.ret none => (Outcome.ret (none, some mustImplementScanner), l.2)
  | Outcome.ret (some leftScanner) =>
    let r := resolveScanner lc dsOpen isScanner l.2 rightFrom.Name
    match r.1 with
    | Outcome.nilDereference => (Outcome.nilDereference, r.2)
    | Outcome.indexOutOfRange => (Outcome.indexOutOfRange, r.2)
    | Outcome.ret none => (Outcome.ret (none, some mustImplementScanner), r.2)
    | Outcome.ret (some rightScanner) =>
      let op : SourceJoin V :=
        { leftStmt := leftFrom, rightStmt := rightFrom, leftSource := leftScanner,
          rightSource := rightScanner }
      (Outcome.ret (some op, none), r.2)

/-- A registry with the tables `users` and `orders`, which can be scanned, and
`config`, which cannot. -/
def tableSources : Str → Option Nat := fun s =>
  if s = "users".toList then some 1
  else if s = "orders".toList then some 2
  else if s = "config".toList then some 3
  else none

/-- The configuration of the table registry, without override. -/
def tableConf : RuntimeConfig Nat :=
  { Sources := tableSources, singleConn := [], db := [], DisableRecover := false }

/-- The sources 1 and 2 implement `datasource.Scanner`. -/
def tableIsScanner : Nat → Bool := fun v => decide (v = 1) || decide (v = 2)

/-- A user row whose `user_id` is the integer 1, held by a context reader. -/
def intKeyRow : Message :=
  { Id := 0,
    Body := MsgBody.OtherReader
      [("user_id".toList, Value.IntValue 1), ("name".toList, Value.StringValue "carol".toList)] }

/-- The FROM entry `orders AS o`, finalized, with the predicate `o.user_id = 5`
(the second operand is a number, not an identity). -/
def ordersOnNumber : SqlSource :=
  { mkSource "orders".toList "o".toList
      (some (Node.BinaryNode { T := TokenType.TokenEqual, V := "=".toList }
        (Node.IdentityNode "o.user_id".toList) (Node.OtherNode 0))) with
    alias_ := "o".toList }

/-- The FROM entry `users`, finalized, which no join predicate names. -/
def usersAlone : SqlSource :=
  { mkSource "users".toList [] none with alias_ := "users".toList }

/-! ### Cancellation of `SourceJoin.Run`

The goroutines of `SourceJoin.Run` as a step relation.  A state holds the
signal channel, the two input channels (the messages waiting in them and
whether their producer has closed them), the two drain goroutines, the counter
of the `sync.WaitGroup`, the two hash tables, and where the body of `Run`
stands.  A goroutine in a `select` takes any case that is ready. -/

/-- Where a drain goroutine stands: in its `select` loop, returned after
`wg.Done()` because its channel was closed, or returned from the signal case. -/
inductive DrainState where
  | Reading
  | Drained
  | Cancelled
  deriving DecidableEq, Repr

/-- Where the body of `Run` stands: blocked in `wg.Wait()`, in the loop that
sends the remaining matches, or returned (the deferred `close` has then closed
the outbox). -/
inductive RunPhase where
  | Waiting
  | Sending (rest : List Message)
  | Returned
  deriving DecidableEq, Repr

/-- A state of one execution of `SourceJoin.Run`. -/
structure JoinRun where
  sigClosed : Bool
  leftIn : List Message
  leftClosed : Bool
  rightIn : List Message
  rightClosed : Bool
  leftDrain : DrainState
  rightDrain : DrainState
  wg : Nat
  lh : StrMap (List Message)
  rh : StrMap (List Message)
  phase : RunPhase
  outbox : List Message

/-- The state when `Run` reaches `wg.Wait()` (line 279): both drain goroutines
are started, each after its `wg.Add(1)`. -/
def JoinRun.start : JoinRun :=
  { sigClosed := false, leftIn := [], leftClosed := false, rightIn := [],
    rightClosed := false, leftDrain := DrainState.Reading,
    rightDrain := DrainState.Reading, wg := 2, lh := [], rh := [],
    phase := RunPhase.Waiting, outbox := [] }

/-- The steps of an execution of `SourceJoin.Run`: those of its surroundings (the
signal channel is closed; a producer sends a message or closes its channel),
those of the two drain goroutines (lines 229-278: the signal case, a message
received, the channel found closed) and those of the body of `Run` (lines
279-291: `wg.Wait()` returns, a match is sent, `Run` returns). -/
inductive JoinStep (vmEval : MsgBody → Node → Option Value) (lhExpr rhExpr : Node)
    (cols : StrMap Column) : JoinRun → JoinRun → Prop where
  | closeSignal (s : JoinRun) : JoinStep vmEval lhExpr rhExpr cols s { s with sigClosed := true }
  | leftSend (s : JoinRun) (m : Message) (h : s.leftClosed = false) :
      JoinStep vmEval lhExpr rhExpr cols s { s with leftIn := s.leftIn ++ [m] }
  | leftClose (s : JoinRun) :
      JoinStep vmEval lhExpr rhExpr cols s { s with leftClosed := true }
  | rightSend (s : JoinRun) (m : Message) (h : s.rightClosed = false) :
      JoinStep vmEval lhExpr rhExpr cols s { s with rightIn := s.rightIn ++ [m] }
  | rightClose (s : JoinRun) :
      JoinStep vmEval lhExpr rhExpr cols s { s with rightClosed := true }
  | leftSignal (s : JoinRun) (hd : s.leftDrain = DrainState.Reading)
      (hs : s.sigClosed = true) :
      JoinStep vmEval lhExpr rhExpr cols s { s with leftDrain := DrainState.Cancelled }
  | leftReceive (s : JoinRun) (m : Message) (rest : List Message)
      (hd : s.leftDrain = DrainState.Reading) (hin : s.leftIn = m :: rest) :
      JoinStep vmEval lhExpr rhExpr cols s
        { s with leftIn := rest, lh := drainStep vmEval lhExpr s.lh m }
  | leftDone (s : JoinRun) (hd : s.leftDrain = DrainState.Reading) (hin : s.leftIn = [])
      (hc : s.leftClosed = true) :
      JoinStep vmEval lhExpr rhExpr cols s
        { s with leftDrain := DrainState.Drained, wg := s.wg - 1 }
  | rightSignal (s : JoinRun) (hd : s.rightDrain = DrainState.Reading)
      (hs : s.sigClosed = true) :
      JoinStep vmEval lhExpr rhExpr cols s { s with rightDrain := DrainState.Cancelled }
  | rightReceive (s : JoinRun) (m : Message) (rest : List Message)
      (hd : s.rightDrain = DrainState.Reading) (hin : s.rightIn = m :: rest) :
      JoinStep vmEval lhExpr rhExpr cols s
        { s with rightIn := rest, rh := drainStep vmEval rhExpr s.rh m }
  | rightDone (s : JoinRun) (hd : s.rightDrain = DrainState.Reading) (hin : s.rightIn = [])
      (hc : s.rightClosed = true) :
      JoinStep vmEval lhExpr rhExpr cols s
        { s with rightDrain := DrainState.Drained, wg := s.wg - 1 }
  | waitReturns (s : JoinRun) (hp : s.phase = RunPhase.Waiting) (hw : s.wg = 0) :
      JoinStep vmEval lhExpr rhExpr cols s
        { s with phase := RunPhase.Sending (joinMatches cols s.lh s.rh) }
  | sendMatch (s : JoinRun) (m : Message) (rest : List Message)
      (hp : s.phase = RunPhase.Sending (m :: rest)) :
      JoinStep vmEval lhExpr rhExpr cols s
        { s with phase := RunPhase.Sending rest, outbox := s.outbox ++ [m] }
  | runReturns (s : JoinRun) (hp : s.phase = RunPhase.Sending []) :
      JoinStep vmEval lhExpr rhExpr cols s { s with phase := RunPhase.Returned }

/-- The drain goroutines that have not called `wg.Done()`. -/
def JoinRun.notDone (s : JoinRun) : Nat :=
  (if s.leftDrain = DrainState.Drained then 0 else 1) +
  (if s.rightDrain = DrainState.Drained then 0 else 1)

/-- The state after the signal channel is closed at the start. -/
def JoinRun.cancelled : JoinRun := { JoinRun.start with sigClosed := true }

/-- The state after the left drain goroutine has taken the signal case. -/
def JoinRun.leftGone : JoinRun :=
  { JoinRun.cancelled with leftDrain := DrainState.Cancelled }

/-! ## Facts about `strings.Index` -/
namespace strings

theorem indexOpt_split (sep : Str) : ∀ (s : Str) (i : Nat), indexOpt sep s = some i →
    s = s.take i ++ sep ++ s.drop (i + sep.length)
  | [], i, h => by
    unfold indexOpt at h
    split at h
    · rename_i he
      have : sep = [] := by simpa using he
      subst this
      simp
    · cases h
  | c :: cs, i, h => by
    unfold indexOpt at h
    split at h
    · rename_i hp
      injection h with h
      subst h
      have hp2 : sep <+: c :: cs := List.isPrefixOf_iff_prefix.mp hp
      have := List.prefix_iff_eq_append.mp hp2
      simpa using this.symm
    · cases hj : indexOpt sep cs with
      | none => rw [hj] at h; cases h
      | some j =>
        rw [hj] at h
        simp only [Option.map_some', Option.some.injEq] at h
        subst h
        have ih := indexOpt_split sep cs j hj
        simp only [List.take_succ_cons, List.cons_append, List.cons.injEq, true_and]
        have e : j + 1 + sep.length = (j + sep.length) + 1 := by omega
        rw [e, List.drop_succ_cons]
        exact ih

theorem indexOpt_first (sep : Str) : ∀ (s : Str) (i : Nat), indexOpt sep s = some i →
    ∀ q r : Str, s = q ++ sep ++ r → i ≤ q.length
  | [], i, h, q, r, hs => by
    unfold indexOpt at h
    split at h
    · injection h with h; omega
    · cases h
  | c :: cs, i, h, q, r, hs => by
    unfold indexOpt at h
    split at h
    · injection h with h; omega
    · rename_i hp
      cases hj : indexOpt sep cs with
      | none => rw [hj] at h; cases h
      | some j =>
        rw [hj] at h
        simp only [Option.map_some', Option.some.injEq] at h
        subst h
        cases q with
        | nil =>
          exfalso
          apply hp
          apply List.isPrefixOf_iff_prefix.mpr
          rw [hs]
          simp
        | cons a q1 =>
          simp only [List.cons_append, List.cons.injEq] at hs
          have := indexOpt_first sep cs j hj q1 r (by simpa using hs.2)
          simp
          omega

theorem indexOpt_take (sep : Str) (hsep : sep ≠ []) : ∀ (s : Str) (i : Nat),
    indexOpt sep s = some i → indexOpt sep (s.take i) = none
  | [], i, h => by
    simp [indexOpt, hsep]
  | c :: cs, i, h => by
    unfold indexOpt at h
    split at h
    · injection h with h
      subst h
      simp [indexOpt, hsep]
    · rename_i hp
      cases hj : indexOpt sep cs with
      | none => rw [hj] at h; cases h
      | some j =>
        rw [hj] at h
        simp only [Option.map_some', Option.some.injEq] at h
        subst h
        have ih := indexOpt_take sep hsep cs j hj
        rw [List.take_succ_cons]
        unfold indexOpt
        have hnp : ¬ sep.isPrefixOf (c :: List.take j cs) = true := by
          intro hq
          apply hp
          have h1 : sep <+: c :: List.take j cs := List.isPrefixOf_iff_prefix.mp hq
          have h2 : c :: List.take j cs <+: c :: cs := by
            rw [← List.take_succ_cons]
            exact List.take_prefix _ _
          exact List.isPrefixOf_iff_prefix.mpr (h1.trans h2)
        rw [if_neg hnp, ih]
        rfl


theorem indexOpt_append_schemeSep : ∀ (p d : Str), indexOpt schemeSep p = none →
    indexOpt schemeSep (p ++ schemeSep ++ d) = some p.length
  | [], d, _ => by
    simp [indexOpt, schemeSep, List.isPrefixOf]
  | c :: cs, d, h => by
    unfold indexOpt at h
    split at h
    · cases h
    · rename_i hp
      cases hj : indexOpt schemeSep cs with
      | some j => rw [hj] at h; cases h
      | none =>
        have ih := indexOpt_append_schemeSep cs d hj
        have hnp : ¬ schemeSep.isPrefixOf (c :: cs ++ schemeSep ++ d) = true := by
          intro hq
          apply hp
          match cs, hq with
          | [], hq => simp [schemeSep, List.isPrefixOf] at hq
          | [a], hq => simp [schemeSep, List.isPrefixOf] at hq
          | a :: b :: t, hq =>
            simp only [schemeSep, List.isPrefixOf, List.cons_append, Bool.and_true] at hq ⊢
            exact hq
        simp only [List.cons_append, List.append_assoc] at hnp ih ⊢
        unfold indexOpt
        rw [if_neg hnp, ih]
        rfl

theorem contains_iff (s sep : Str) : Contains s sep = true ↔ ∃ i, indexOpt sep s = some i := by
  unfold Contains Index
  cases h : indexOpt sep s with
  | none => simp
  | some i => simp

theorem contains_false_iff (s sep : Str) : Contains s sep = false ↔ indexOpt sep s = none := by
  unfold Contains Index
  cases h : indexOpt sep s with
  | none => simp
  | some i => simp

theorem index_toNat (s sep : Str) (i : Nat) (h : indexOpt sep s = some i) :
    (Index s sep).toNat = i := by
  simp [Index, h]

theorem hasPrefix_csv_index (s : Str) (h : HasPrefix s csvScheme = true) :
    indexOpt schemeSep s = some 3 ∧ s.take 3 = ['c', 's', 'v'] := by
  unfold HasPrefix at h
  obtain ⟨t, ht⟩ := List.isPrefixOf_iff_prefix.mp h
  subst ht
  constructor
  · simp [indexOpt, schemeSep, csvScheme, List.isPrefixOf]
  · rfl

end strings

/-- What lines 61-78 compute, read off the first occurrence of `"://"`. -/
theorem RuntimeConfig.sourceType_eq {V : Type} (lc : Char → Char) (m : RuntimeConfig V)
    (connInfo : Str) :
    m.sourceType lc connInfo =
      match strings.indexOpt schemeSep connInfo with
      | some i => (strings.ToLower lc (connInfo.take i), { m with db := connInfo.drop (i + 3) })
      | none => (strings.ToLower lc connInfo, m) := by
  unfold RuntimeConfig.sourceType
  by_cases h0 : 0 < connInfo.length
  · simp only [h0, if_true]
    by_cases hc : strings.HasPrefix connInfo csvScheme = true
    · obtain ⟨h3, ht⟩ := strings.hasPrefix_csv_index connInfo hc
      simp only [hc, if_true, h3, ← ht]
      rfl
    · simp only [hc]
      cases hi : strings.indexOpt schemeSep connInfo with
      | none =>
        have := (strings.contains_false_iff connInfo schemeSep).mpr hi
        simp [this]
      | some i =>
        have := (strings.contains_iff connInfo schemeSep).mpr ⟨i, hi⟩
        simp [this, strings.index_toNat _ _ _ hi]
  · have : connInfo = [] := by
      cases connInfo with
      | nil => rfl
      | cons a t => simp at h0
    subst this
    simp [strings.indexOpt, schemeSep]


theorem RuntimeConfig.sourceType_sources {V : Type} (lc : Char → Char) (m : RuntimeConfig V)
    (connInfo : Str) : (m.sourceType lc connInfo).2.Sources = m.Sources := by
  rw [RuntimeConfig.sourceType_eq]
  cases strings.indexOpt schemeSep connInfo <;> rfl

theorem RuntimeConfig.DataSource_fst {V : Type} (lc : Char → Char) (m : RuntimeConfig V)
    (connInfo : Str) :
    (m.DataSource lc connInfo).1 = m.Sources (m.sourceType lc connInfo).1 := by
  unfold RuntimeConfig.DataSource
  simp only [RuntimeConfig.sourceType_sources]
  cases m.Sources (m.sourceType lc connInfo).1 <;> rfl

theorem RuntimeConfig.DataSource_conf {V : Type} (lc : Char → Char) (m : RuntimeConfig V)
    (connInfo : Str) :
    (m.DataSource lc connInfo).2.1 = (m.sourceType lc connInfo).2 := by
  unfold RuntimeConfig.DataSource
  simp only [RuntimeConfig.sourceType_sources]
  cases m.Sources (m.sourceType lc connInfo).1 <;> rfl

theorem RuntimeConfig.DataSource_logs {V : Type} (lc : Char → Char) (m : RuntimeConfig V)
    (connInfo : Str) :
    (m.DataSource lc connInfo).2.2 =
      if (m.Sources (m.sourceType lc connInfo).1).isSome then [LogLevel.Debug]
      else [LogLevel.Error] := by
  unfold RuntimeConfig.DataSource
  simp only [RuntimeConfig.sourceType_sources]
  cases m.Sources (m.sourceType lc connInfo).1 <;> rfl

/-- With a scheme part `p` free of `"://"`, the string `p ++ "://" ++ d` is cut
at the end of `p`. -/
theorem RuntimeConfig.sourceType_qualified {V : Type} (lc : Char → Char) (m : RuntimeConfig V)
    (p d : Str) (hp : strings.Contains p schemeSep = false) :
    m.sourceType lc (p ++ schemeSep ++ d) = (strings.ToLower lc p, { m with db := d }) := by
  have hi := strings.indexOpt_append_schemeSep p d ((strings.contains_false_iff _ _).mp hp)
  rw [RuntimeConfig.sourceType_eq, hi]
  simp [schemeSep]

/-- A string without `"://"` is its own scheme and leaves the configuration alone. -/
theorem RuntimeConfig.sourceType_bare {V : Type} (lc : Char → Char) (m : RuntimeConfig V)
    (p : Str) (hp : strings.Contains p schemeSep = false) :
    m.sourceType lc p = (strings.ToLower lc p, m) := by
  rw [RuntimeConfig.sourceType_eq, (strings.contains_false_iff _ _).mp hp]

/-- C1: a connection string that contains `"://"` is cut at the first `"://"`;
the lowercased part before it is the scheme looked up in the registry and the
part after it is stored as the database name, and scheme part, `"://"` and the
stored name put together give the connection string back. -/
theorem DataSource_splits_at_first_separator {V : Type} (lc : Char → Char)
    (m : RuntimeConfig V) (connInfo : Str)
    (h : strings.Contains connInfo schemeSep = true) :
    ∃ scheme db : Str,
      connInfo = scheme ++ schemeSep ++ db ∧
      (∀ q r : Str, connInfo = q ++ schemeSep ++ r → scheme.length ≤ q.length) ∧
      (m.sourceType lc connInfo).1 = strings.ToLower lc scheme ∧
      (m.DataSource lc connInfo).1 = m.Sources (strings.ToLower lc scheme) ∧
      (m.DataSource lc connInfo).2.1.db = db := by
  obtain ⟨i, hi⟩ := (strings.contains_iff _ _).mp h
  have hst := RuntimeConfig.sourceType_eq lc m connInfo
  rw [hi] at hst
  refine ⟨connInfo.take i, connInfo.drop (i + 3), ?_, ?_, ?_, ?_, ?_⟩
  · exact strings.indexOpt_split schemeSep connInfo i hi
  · intro q r hqr
    have := strings.indexOpt_first schemeSep connInfo i hi q r hqr
    simp only [List.length_take]
    omega
  · rw [hst]
  · rw [RuntimeConfig.DataSource_fst, hst]
  · rw [RuntimeConfig.DataSource_conf, hst]

/-- C2: a connection string without `"://"` (the empty one included) is looked
up whole, lowercased, and the configuration, its database name included, is
left as it was. -/
theorem DataSource_bare_scheme {V : Type} (lc : Char → Char)
    (m : RuntimeConfig V) (connInfo : Str)
    (h : strings.Contains connInfo schemeSep = false) :
    (m.sourceType lc connInfo).1 = strings.ToLower lc connInfo ∧
    (m.DataSource lc connInfo).1 = m.Sources (strings.ToLower lc connInfo) ∧
    (m.DataSource lc connInfo).2.1 = m ∧
    (m.DataSource lc connInfo).2.1.db = m.db := by
  have hst := RuntimeConfig.sourceType_bare lc m connInfo h
  refine ⟨?_, ?_, ?_, ?_⟩
  · rw [hst]
  · rw [RuntimeConfig.DataSource_fst, hst]
  · rw [RuntimeConfig.DataSource_conf, hst]
  · rw [RuntimeConfig.DataSource_conf, hst]

/-- C3: two connection strings whose scheme parts `p1`, `p2` have the same
lowercase form and that agree after the scheme part (nothing, or `"://"` and a
database name) look up the same registry key, get the same data source and
store the same database name. -/
theorem DataSource_scheme_case_insensitive {V : Type} (lc : Char → Char)
    (m : RuntimeConfig V) (p1 p2 rest : Str)
    (hcase : strings.ToLower lc p1 = strings.ToLower lc p2)
    (h1 : strings.Contains p1 schemeSep = false)
    (h2 : strings.Contains p2 schemeSep = false)
    (hrest : rest = [] ∨ ∃ d : Str, rest = schemeSep ++ d) :
    (m.sourceType lc (p1 ++ rest)).1 = (m.sourceType lc (p2 ++ rest)).1 ∧
    (m.DataSource lc (p1 ++ rest)).1 = (m.DataSource lc (p2 ++ rest)).1 ∧
    (m.DataSource lc (p1 ++ rest)).2.1.db = (m.DataSource lc (p2 ++ rest)).2.1.db := by
  rcases hrest with hr | ⟨d, hr⟩
  · subst hr
    simp only [List.append_nil, RuntimeConfig.DataSource_fst, RuntimeConfig.DataSource_conf,
      RuntimeConfig.sourceType_bare lc m p1 h1, RuntimeConfig.sourceType_bare lc m p2 h2, hcase,
      and_self]
  · subst hr
    simp only [← List.append_assoc, RuntimeConfig.DataSource_fst, RuntimeConfig.DataSource_conf,
      RuntimeConfig.sourceType_qualified lc m p1 d h1,
      RuntimeConfig.sourceType_qualified lc m p2 d h2, hcase, and_self]

/-- C5: without a single-connection override `Conn(db)` returns the registry
entry of the lowercased name, nil when there is none, and does not change the
configuration. -/
theorem Conn_without_override {V : Type} (lc : Char → Char)
    (dsOpen : V → Str → Option V × Option Str) (m : RuntimeConfig V) (db : Str)
    (h : m.singleConn = []) :
    (m.Conn lc dsOpen db).1 = Outcome.ret (m.Sources (strings.ToLower lc db)) ∧
    (m.Conn lc dsOpen db).2.1 = m ∧
    (m.Conn lc dsOpen db).2.1.singleConn = m.singleConn ∧
    (m.Conn lc dsOpen db).2.1.db = m.db := by
  unfold RuntimeConfig.Conn
  rw [if_pos h]
  cases m.Sources (strings.ToLower lc db) <;> simp

/-- With an override whose scheme the registry does not know, `Conn` calls
`Open` on the nil data source. -/
theorem Conn_unknown_override {V : Type} (lc : Char → Char)
    (dsOpen : V → Str → Option V × Option Str) (m : RuntimeConfig V) (db : Str)
    (h : m.singleConn ≠ [])
    (hnone : m.Sources (m.sourceType lc m.singleConn).1 = none) :
    (m.Conn lc dsOpen db).1 = Outcome.nilDereference := by
  unfold RuntimeConfig.Conn
  rw [if_neg h]
  have := RuntimeConfig.DataSource_fst lc m m.singleConn
  rw [hnone] at this
  simp only [this]

theorem DataSource_splits_at_first_separator_witness :
    strings.Contains "mysql://host:3306/app".toList schemeSep = true ∧
    ∃ scheme db : Str,
      "mysql://host:3306/app".toList = scheme ++ schemeSep ++ db ∧
      (∀ q r : Str, "mysql://host:3306/app".toList = q ++ schemeSep ++ r →
        scheme.length ≤ q.length) ∧
      (sampleConf.sourceType Char.toLower "mysql://host:3306/app".toList).1
        = strings.ToLower Char.toLower scheme ∧
      (sampleConf.DataSource Char.toLower "mysql://host:3306/app".toList).1
        = sampleConf.Sources (strings.ToLower Char.toLower scheme) ∧
      (sampleConf.DataSource Char.toLower "mysql://host:3306/app".toList).2.1.db = db :=
  ⟨by decide,
   DataSource_splits_at_first_separator Char.toLower sampleConf
     "mysql://host:3306/app".toList (by decide)⟩

/-- Scenario C of the specification, evaluated. -/
theorem DataSource_scenario_C :
    (sampleConf.sourceType Char.toLower "csv:///dev/stdin".toList).1 = "csv".toList ∧
    (sampleConf.DataSource Char.toLower "csv:///dev/stdin".toList).2.1.db
      = "/dev/stdin".toList ∧
    (sampleConf.sourceType Char.toLower "mysql://host:3306/app".toList).1 = "mysql".toList ∧
    (sampleConf.DataSource Char.toLower "mysql://host:3306/app".toList).2.1.db
      = "host:3306/app".toList ∧
    (sampleConf.DataSource Char.toLower "mysql://host:3306/app".toList).1 = some 2 ∧
    (sampleConf.sourceType Char.toLower "mockcsv".toList).1 = "mockcsv".toList ∧
    (sampleConf.DataSource Char.toLower "mockcsv".toList).2.1.db = "old".toList := by
  decide

theorem DataSource_bare_scheme_witness :
    strings.Contains "mockcsv".toList schemeSep = false ∧
    (sampleConf.sourceType Char.toLower "mockcsv".toList).1
      = strings.ToLower Char.toLower "mockcsv".toList ∧
    (sampleConf.DataSource Char.toLower "mockcsv".toList).1
      = sampleConf.Sources (strings.ToLower Char.toLower "mockcsv".toList) ∧
    (sampleConf.DataSource Char.toLower "mockcsv".toList).2.1 = sampleConf ∧
    (sampleConf.DataSource Char.toLower "mockcsv".toList).2.1.db = sampleConf.db :=
  ⟨by decide, DataSource_bare_scheme Char.toLower sampleConf "mockcsv".toList (by decide)⟩

theorem DataSource_scheme_case_insensitive_witness :
    (sampleConf.sourceType Char.toLower ("CSV".toList ++ ":///dev/stdin".toList)).1
      = (sampleConf.sourceType Char.toLower ("csv".toList ++ ":///dev/stdin".toList)).1 ∧
    (sampleConf.DataSource Char.toLower ("CSV".toList ++ ":///dev/stdin".toList)).1
      = (sampleConf.DataSource Char.toLower ("csv".toList ++ ":///dev/stdin".toList)).1 ∧
    (sampleConf.DataSource Char.toLower ("CSV".toList ++ ":///dev/stdin".toList)).2.1.db
      = (sampleConf.DataSource Char.toLower ("csv".toList ++ ":///dev/stdin".toList)).2.1.db :=
  DataSource_scheme_case_insensitive Char.toLower sampleConf "CSV".toList "csv".toList
    ":///dev/stdin".toList (by decide) (by decide) (by decide)
    (Or.inr ⟨"/dev/stdin".toList, by decide⟩)

/-- C4: with the override `nosuch://x` and a registry without the scheme
`nosuch`, `Conn("users")` does not return nil: it calls `Open` on the nil data
source that `DataSource` handed back, which is a runtime panic. -/
theorem Conn_unknown_override_panics :
    (unknownOverrideConf.DataSource Char.toLower unknownOverrideConf.singleConn).1 = none ∧
    (unknownOverrideConf.Conn Char.toLower sampleOpen "users".toList).1
      = Outcome.nilDereference := by
  decide

theorem Conn_without_override_witness :
    sampleConf.singleConn = [] ∧
    (sampleConf.Conn Char.toLower sampleOpen "MySQL".toList).1 = Outcome.ret (some 2) ∧
    (sampleConf.Conn Char.toLower sampleOpen "nosuch".toList).1 = Outcome.ret none ∧
    (sampleConf.Conn Char.toLower sampleOpen "MySQL".toList).2.1 = sampleConf :=
  ⟨rfl,
   (Conn_without_override Char.toLower sampleOpen sampleConf "MySQL".toList rfl).1.trans
     (by decide),
   by decide,
   (Conn_without_override Char.toLower sampleOpen sampleConf "MySQL".toList rfl).2.1⟩

/-! ## Facts about maps -/

theorem mapKeys_nil {β : Type} : mapKeys ([] : StrMap β) = [] := rfl

theorem mapKeys_cons {β : Type} (a : Str) (b : β) (t : StrMap β) :
    mapKeys ((a, b) :: t) = a :: mapKeys t := rfl

theorem mapGet_mapSet {β : Type} (m : StrMap β) (k : Str) (v : β) (k1 : Str) :
    mapGet (mapSet m k v) k1 = if k = k1 then some v else mapGet m k1 := by
  induction m with
  | nil => simp [mapSet, mapGet]
  | cons hd t ih =>
    obtain ⟨a, b⟩ := hd
    by_cases h : a = k
    · by_cases h1 : k = k1
      · simp [mapSet, mapGet, h, h1]
      · simp [mapSet, mapGet, h, h1]
    · by_cases h1 : a = k1
      · subst h1
        have h2 : ¬ k = a := fun e => h e.symm
        simp [mapSet, mapGet, h, h2]
      · simp [mapSet, mapGet, h, h1, ih]

theorem mapSet_length_le {β : Type} (m : StrMap β) (k : Str) (v : β) :
    (mapSet m k v).length ≤ m.length + 1 := by
  induction m with
  | nil => simp [mapSet]
  | cons hd t ih =>
    obtain ⟨a, b⟩ := hd
    by_cases h : a = k
    · simp [mapSet, h]
    · simp only [mapSet, h, if_false, List.length_cons]
      omega

theorem mapKeys_mapSet_mem {β : Type} (m : StrMap β) (k : Str) (v : β) (k1 : Str) :
    k1 ∈ mapKeys (mapSet m k v) ↔ k1 = k ∨ k1 ∈ mapKeys m := by
  induction m with
  | nil => simp only [mapSet, mapKeys_cons, mapKeys_nil, List.mem_cons]
  | cons hd t ih =>
    obtain ⟨a, b⟩ := hd
    by_cases h : a = k
    · subst h
      simp only [mapSet, if_true, mapKeys_cons, List.mem_cons]
      tauto
    · simp only [mapSet, h, if_false, mapKeys_cons, List.mem_cons, ih]
      tauto

theorem mapKeys_mapSet_nodup {β : Type} (m : StrMap β) (k : Str) (v : β)
    (h : (mapKeys m).Nodup) : (mapKeys (mapSet m k v)).Nodup := by
  induction m with
  | nil => simp only [mapSet, mapKeys_cons, mapKeys_nil, List.nodup_cons, List.not_mem_nil,
      not_false_eq_true, List.nodup_nil, and_self]
  | cons hd t ih =>
    obtain ⟨a, b⟩ := hd
    have h2 : a ∉ mapKeys t ∧ (mapKeys t).Nodup := by
      simpa only [mapKeys_cons, List.nodup_cons] using h
    by_cases h1 : a = k
    · subst h1
      simp only [mapSet, if_true, mapKeys_cons, List.nodup_cons]
      exact h2
    · simp only [mapSet, h1, if_false, mapKeys_cons, List.nodup_cons]
      refine ⟨?_, ih h2.2⟩
      rw [mapKeys_mapSet_mem]
      intro hc
      rcases hc with hc | hc
      · exact h1 hc
      · exact h2.1 hc

theorem mapGet_isSome_iff {β : Type} (m : StrMap β) (k : Str) :
    (mapGet m k).isSome = true ↔ k ∈ mapKeys m := by
  induction m with
  | nil => simp only [mapGet, mapKeys_nil, Option.isSome_none, List.not_mem_nil]
           simp
  | cons hd t ih =>
    obtain ⟨a, b⟩ := hd
    by_cases h : a = k
    · subst h
      simp only [mapGet, if_true, mapKeys_cons, List.mem_cons, Option.isSome_some, true_or]
    · have h1 : ¬ k = a := fun e => h e.symm
      simp only [mapGet, h, if_false, ih, mapKeys_cons, List.mem_cons, h1, false_or]

/-! ## `UnAliasedColumns` -/

theorem unAliasedLoop_length (cs : List Column) : ∀ acc : StrMap Column,
    (unAliasedLoop cs acc).1.length ≤ acc.length + cs.length := by
  induction cs with
  | nil => intro acc; simp [unAliasedLoop]
  | cons c rest ih =>
    intro acc
    simp only [unAliasedLoop, List.length_cons]
    split
    · have h1 := ih (mapSet acc c.LeftRight.1.2.1 c.LeftRight.2)
      have h2 := mapSet_length_le acc c.LeftRight.1.2.1 c.LeftRight.2
      omega
    · have h1 := ih (mapSet acc c.LeftRight.1.1 c.LeftRight.2)
      have h2 := mapSet_length_le acc c.LeftRight.1.1 c.LeftRight.2
      omega

theorem unAliasedLoop_nodup (cs : List Column) : ∀ acc : StrMap Column,
    (mapKeys acc).Nodup → (mapKeys (unAliasedLoop cs acc).1).Nodup := by
  induction cs with
  | nil => intro acc h; simpa [unAliasedLoop] using h
  | cons c rest ih =>
    intro acc h
    simp only [unAliasedLoop]
    split
    · exact ih _ (mapKeys_mapSet_nodup _ _ _ h)
    · exact ih _ (mapKeys_mapSet_nodup _ _ _ h)

/-- C8: the map returned by `UnAliasedColumns` has pairwise different keys and
at most as many entries as the SELECT has projected columns. -/
theorem UnAliasedColumns_size_le (m : SqlSelect) :
    (mapKeys m.UnAliasedColumns.1).Nodup ∧
    m.UnAliasedColumns.1.length ≤ m.Columns.length := by
  constructor
  · exact unAliasedLoop_nodup m.Columns [] List.nodup_nil
  · simpa [SqlSelect.UnAliasedColumns] using unAliasedLoop_length m.Columns []

/-- A column whose alias splits into `l` and `r` with `l` not empty is keyed by
`r` (the qualified half of the rule of `UnAliasedColumns`). -/
theorem UnAliasedColumns_qualified_key (m : SqlSelect) (c : Column) (l r : Str)
    (hc : m.Columns = [c]) (hleft : c.left = [])
    (hsplit : strings.Split c.As ['.'] = [l, r]) (hl : l ≠ []) :
    mapKeys m.UnAliasedColumns.1 = [r] := by
  simp [SqlSelect.UnAliasedColumns, hc, unAliasedLoop, Column.LeftRight, hleft, hsplit, hl,
    mapSet, mapKeys]

/-- C6: for `SELECT name FROM users` the column `name` is not keyed by its
alias: `LeftRight` answers `("", "name", false)` and `UnAliasedColumns` then
files the column under `left`, the empty string. -/
theorem UnAliasedColumns_unqualified_key :
    (mkColumn "name".toList).LeftRight.1 = ([], "name".toList, false) ∧
    mapKeys selectName.UnAliasedColumns.1 = [[]] ∧
    (mapGet selectName.UnAliasedColumns.1 "name".toList).isNone = true ∧
    (mapGet selectName.UnAliasedColumns.1 []).map (fun c => c.As) = some "name".toList := by
  decide

/-- C7: in `SELECT u.name, age FROM users AS u` every column has a non-empty
alias, and the map of `UnAliasedColumns` has the empty string among its keys. -/
theorem UnAliasedColumns_empty_key :
    (∀ c ∈ selectNameAge.Columns, c.As ≠ []) ∧
    mapKeys selectNameAge.UnAliasedColumns.1 = ["name".toList, []] ∧
    ([] : Str) ∈ mapKeys selectNameAge.UnAliasedColumns.1 := by
  refine ⟨?_, by decide, by decide⟩
  intro c hc
  simp only [selectNameAge, mkSelect, List.mem_cons, List.mem_singleton, List.not_mem_nil,
    or_false] at hc
  rcases hc with h | h <;> subst h <;> decide

/-! ## `Finalize` -/

theorem toLower_eq_nil (lc : Char → Char) (s : Str) : strings.ToLower lc s = [] ↔ s = [] := by
  simp [strings.ToLower]

theorem SqlSource.prepare_alias (lc : Char → Char) (cols : StrMap Column) (s : SqlSource) :
    (s.prepare lc cols).alias_ =
      if s.Alias = [] then strings.ToLower lc s.Name else strings.ToLower lc s.Alias := by
  unfold SqlSource.prepare SqlSource.Finalize
  by_cases h : s.Alias = []
  · simp [h, strings.ToLower]
  · have : ¬ strings.ToLower lc s.Alias = [] := fun e => h ((toLower_eq_nil lc _).mp e)
    simp [h, this]

theorem SqlSource.prepare_fields (lc : Char → Char) (cols : StrMap Column) (s : SqlSource) :
    (s.prepare lc cols).Name = s.Name ∧ (s.prepare lc cols).Alias = s.Alias ∧
    (s.prepare lc cols).JoinExpr = s.JoinExpr ∧ (s.prepare lc cols).cols = cols := by
  unfold SqlSource.prepare SqlSource.Finalize
  by_cases h : strings.ToLower lc s.Alias = [] <;> simp [h]

theorem shareJoin_fields (exprs : StrMap Node) (s : SqlSource) :
    (shareJoin exprs s).alias_ = s.alias_ ∧ (shareJoin exprs s).Name = s.Name ∧
    (shareJoin exprs s).Alias = s.Alias ∧ (shareJoin exprs s).cols = s.cols := by
  unfold shareJoin
  cases s.JoinExpr with
  | some e => simp
  | none =>
    cases mapGet exprs s.alias_ with
    | none => simp
    | some e => simp

theorem finalizeRecord_snd (lc : Char → Char) (identLR : Str → Str × Str × Bool)
    (cols : StrMap Column) (l : List SqlSource) : ∀ acc : StrMap Node,
    (finalizeRecord lc identLR cols l acc).2 = l.map (SqlSource.prepare lc cols) := by
  induction l with
  | nil => intro acc; rfl
  | cons s rest ih =>
    intro acc
    simp only [finalizeRecord, List.map_cons, ih]

theorem finalizeRecord_fst (lc : Char → Char) (identLR : Str → Str × Str × Bool)
    (cols : StrMap Column) (l : List SqlSource) : ∀ acc : StrMap Node,
    (finalizeRecord lc identLR cols l acc).1
      = (l.map (SqlSource.prepare lc cols)).foldl (recordJoin identLR) acc := by
  induction l with
  | nil => intro acc; rfl
  | cons s rest ih =>
    intro acc
    simp only [finalizeRecord, List.map_cons, List.foldl_cons, ih]

theorem finalizeShare_eq_map (exprs : StrMap Node) (l : List SqlSource) :
    finalizeShare exprs l = l.map (shareJoin exprs) := by
  induction l with
  | nil => rfl
  | cons s rest ih => simp only [finalizeShare, List.map_cons, ih]

/-- The FROM list after `Finalize`, for a statement that has one. -/
theorem SqlSelect.Finalize_from (lc : Char → Char) (identLR : Str → Str × Str × Bool)
    (m : SqlSelect) (h : m.From ≠ []) :
    (m.Finalize lc identLR).2.From =
      (m.From.map (SqlSource.prepare lc m.UnAliasedColumns.1)).map
        (shareJoin ((m.From.map (SqlSource.prepare lc m.UnAliasedColumns.1)).foldl
          (recordJoin identLR) [])) := by
  have h0 : ¬ m.From.length = 0 := by
    intro e
    exact h (List.length_eq_zero.mp e)
  unfold SqlSelect.Finalize
  rw [if_neg h0]
  simp only [finalizeShare_eq_map, finalizeRecord_snd, finalizeRecord_fst]
  rfl

/-- C10 (amended): after `Finalize` the canonical alias of every FROM source is
the lowercased `Alias`, or the lowercased `Name` when `Alias` is empty; it is
non-empty for every source that has an `Alias` or a `Name`. -/
theorem Finalize_canonical_alias (lc : Char → Char) (identLR : Str → Str × Str × Bool)
    (m : SqlSelect) (hfrom : m.From ≠ []) :
    (m.Finalize lc identLR).2.From.map (fun src => src.alias_) =
      m.From.map (fun src =>
        if src.Alias = [] then strings.ToLower lc src.Name
        else strings.ToLower lc src.Alias) ∧
    ∀ src ∈ (m.Finalize lc identLR).2.From,
      (src.alias_ = if src.Alias = [] then strings.ToLower lc src.Name
        else strings.ToLower lc src.Alias) ∧
      ((src.Alias ≠ [] ∨ src.Name ≠ []) → src.alias_ ≠ []) := by
  rw [SqlSelect.Finalize_from lc identLR m hfrom]
  constructor
  · simp only [List.map_map]
    apply List.map_congr_left
    intro s _
    simp only [Function.comp, (shareJoin_fields _ _).1, SqlSource.prepare_alias]
  · intro src hsrc
    simp only [List.map_map, List.mem_map, Function.comp] at hsrc
    obtain ⟨s, _, rfl⟩ := hsrc
    obtain ⟨ha, hn, hal, _⟩ := shareJoin_fields
      ((m.From.map (SqlSource.prepare lc m.UnAliasedColumns.1)).foldl (recordJoin identLR) [])
      (s.prepare lc m.UnAliasedColumns.1)
    obtain ⟨pn, pal, _, _⟩ := SqlSource.prepare_fields lc m.UnAliasedColumns.1 s
    rw [ha, hn, hal, pn, pal, SqlSource.prepare_alias]
    refine ⟨rfl, ?_⟩
    intro hne
    by_cases h : s.Alias = []
    · rw [if_pos h]
      rcases hne with h1 | h1
      · exact absurd h h1
      · exact fun e => h1 ((toLower_eq_nil lc _).mp e)
    · rw [if_neg h]
      exact fun e => h ((toLower_eq_nil lc _).mp e)

theorem Finalize_canonical_alias_witness :
    (selectJoin.Finalize Char.toLower identLeftRight).2.From.map (fun src => src.alias_)
      = ["u".toList, "o".toList] ∧
    ∀ src ∈ (selectJoin.Finalize Char.toLower identLeftRight).2.From,
      (src.alias_ = if src.Alias = [] then strings.ToLower Char.toLower src.Name
        else strings.ToLower Char.toLower src.Alias) ∧
      ((src.Alias ≠ [] ∨ src.Name ≠ []) → src.alias_ ≠ []) :=
  ⟨(Finalize_canonical_alias Char.toLower identLeftRight selectJoin
      (by simp [selectJoin, mkSelect])).1.trans
      (by decide),
   (Finalize_canonical_alias Char.toLower identLeftRight selectJoin
      (by simp [selectJoin, mkSelect])).2⟩

/-- C10 fails as stated: the FROM list of `selectAnonymous` is not empty, and
after `Finalize` its source, which has neither `Alias` nor `Name`, has the
empty canonical alias. -/
theorem Finalize_empty_alias :
    selectAnonymous.From.length = 1 ∧
    (selectAnonymous.Finalize Char.toLower identLeftRight).2.From.map (fun src => src.alias_)
      = [[]] := by
  decide

/-! ## `Finalize` twice -/

theorem Column.LeftRight_cached (c : Column) (h : c.left ≠ []) :
    c.LeftRight = ((c.left, c.right, true), c) := by
  simp [Column.LeftRight, h]

theorem Column.LeftRight_one (c : Column) (x : Str) (h : c.left = [])
    (hs : strings.Split c.As ['.'] = [x]) :
    c.LeftRight = (([], c.As, false), { c with right := c.As }) := by
  simp [Column.LeftRight, h, hs]

theorem Column.LeftRight_two (c : Column) (v0 v1 : Str) (h : c.left = [])
    (hs : strings.Split c.As ['.'] = [v0, v1]) :
    c.LeftRight = ((v0, v1, decide (v0 ≠ [])), { c with left := v0, right := v1 }) := by
  simp [Column.LeftRight, h, hs]

theorem Column.LeftRight_many (c : Column) (h : c.left = [])
    (h1 : ∀ x, strings.Split c.As ['.'] ≠ [x])
    (h2 : ∀ v0 v1, strings.Split c.As ['.'] ≠ [v0, v1]) :
    c.LeftRight = (([], c.As, false), c) := by
  unfold Column.LeftRight
  rw [if_pos h]
  split
  · rename_i x hx
    exact absurd hx (h1 _)
  · rename_i v0 v1 hx
    exact absurd hx (h2 v0 v1)
  · rfl

theorem Column.LeftRight_idem (c : Column) : c.LeftRight.2.LeftRight = c.LeftRight := by
  by_cases h : c.left = []
  · match hs : strings.Split c.As ['.'] with
    | [] =>
      have e := Column.LeftRight_many c h (by simp [hs]) (by simp [hs])
      rw [e]
      exact e
    | [x] =>
      have e := Column.LeftRight_one c x h hs
      rw [e]
      exact Column.LeftRight_one _ x h hs
    | [v0, v1] =>
      have e := Column.LeftRight_two c v0 v1 h hs
      rw [e]
      by_cases hv : v0 = []
      · subst hv
        exact Column.LeftRight_two _ [] v1 rfl hs
      · rw [Column.LeftRight_cached _ hv]
        simp [hv]
    | a :: b :: d :: t =>
      have e := Column.LeftRight_many c h (by simp [hs]) (by simp [hs])
      rw [e]
      exact e
  · rw [Column.LeftRight_cached c h]
    exact Column.LeftRight_cached c h

theorem unAliasedLoop_idem (cs : List Column) : ∀ acc : StrMap Column,
    unAliasedLoop (unAliasedLoop cs acc).2 acc = unAliasedLoop cs acc := by
  induction cs with
  | nil => intro acc; rfl
  | cons c rest ih =>
    intro acc
    simp only [unAliasedLoop, Column.LeftRight_idem, ih]

theorem recordJoin_keys (identLR : Str → Str × Str × Bool) (exprs : StrMap Node)
    (s : SqlSource) (k : Str) :
    k ∈ mapKeys (recordJoin identLR exprs s) ↔
      k ∈ mapKeys exprs ∨ ∃ e, s.JoinExpr = some e ∧
        (k = (s.findFromAliases identLR).1 ∨ k = (s.findFromAliases identLR).2) := by
  unfold recordJoin
  cases h : s.JoinExpr with
  | none => simp
  | some e =>
    simp only [mapKeys_mapSet_mem, Option.some.injEq, exists_eq_left']
    tauto

theorem foldl_recordJoin_keys (identLR : Str → Str × Str × Bool) (l : List SqlSource) :
    ∀ (exprs : StrMap Node) (k : Str),
    k ∈ mapKeys (l.foldl (recordJoin identLR) exprs) ↔
      k ∈ mapKeys exprs ∨ ∃ s ∈ l, ∃ e, s.JoinExpr = some e ∧
        (k = (s.findFromAliases identLR).1 ∨ k = (s.findFromAliases identLR).2) := by
  induction l with
  | nil => intro exprs k; simp
  | cons s rest ih =>
    intro exprs k
    simp only [List.foldl_cons, ih, recordJoin_keys, List.mem_cons, exists_eq_or_imp]
    exact or_assoc

theorem recordJoin_value (identLR : Str → Str × Str × Bool) (exprs : StrMap Node)
    (s : SqlSource) (k : Str) (e : Node) (h : mapGet (recordJoin identLR exprs s) k = some e) :
    mapGet exprs k = some e ∨ s.JoinExpr = some e := by
  unfold recordJoin at h
  cases hj : s.JoinExpr with
  | none =>
    rw [hj] at h
    exact Or.inl h
  | some e1 =>
    rw [hj] at h
    simp only [mapGet_mapSet] at h
    split at h
    · exact Or.inr h
    · split at h
      · exact Or.inr h
      · exact Or.inl h

theorem foldl_recordJoin_value (identLR : Str → Str × Str × Bool) (l : List SqlSource) :
    ∀ (exprs : StrMap Node) (k : Str) (e : Node),
    mapGet (l.foldl (recordJoin identLR) exprs) k = some e →
      mapGet exprs k = some e ∨ ∃ s ∈ l, s.JoinExpr = some e := by
  induction l with
  | nil => intro exprs k e h; exact Or.inl h
  | cons s rest ih =>
    intro exprs k e h
    rcases ih _ k e h with h1 | ⟨t, ht, hte⟩
    · rcases recordJoin_value identLR exprs s k e h1 with h2 | h2
      · exact Or.inl h2
      · exact Or.inr ⟨s, List.mem_cons_self _ _, h2⟩
    · exact Or.inr ⟨t, List.mem_cons_of_mem _ ht, hte⟩

theorem findFromAliases_snd (identLR : Str → Str × Str × Bool) (s t : SqlSource)
    (h : s.JoinExpr = t.JoinExpr) :
    (s.findFromAliases identLR).2 = (t.findFromAliases identLR).2 := by
  unfold SqlSource.findFromAliases
  rw [h]
  split <;> rfl

theorem findFromAliases_fst (identLR : Str → Str × Str × Bool) (s t : SqlSource)
    (h : s.JoinExpr = t.JoinExpr) :
    (s.findFromAliases identLR).1 = (t.findFromAliases identLR).1 ∨
    (s.findFromAliases identLR).1 = s.alias_ := by
  unfold SqlSource.findFromAliases
  rw [h]
  split
  · rename_i op a0 a1 _
    cases operandAlias identLR a0 with
    | some l => exact Or.inl rfl
    | none => exact Or.inr rfl
  · exact Or.inr rfl

/-- Every alias under which a source of the finalized FROM list would record its
join expression is already a key of the map of recorded expressions. -/
theorem shared_aliases_recorded (identLR : Str → Str × Str × Bool) (l : List SqlSource)
    (q : SqlSource)
    (hq : q ∈ l.map (shareJoin (l.foldl (recordJoin identLR) [])))
    (e : Node) (he : q.JoinExpr = some e) :
    (q.findFromAliases identLR).1 ∈ mapKeys (l.foldl (recordJoin identLR) []) ∧
    (q.findFromAliases identLR).2 ∈ mapKeys (l.foldl (recordJoin identLR) []) := by
  obtain ⟨p, hp, rfl⟩ := List.mem_map.mp hq
  cases hpe : p.JoinExpr with
  | some e0 =>
    have hsame : shareJoin (l.foldl (recordJoin identLR) []) p = p := by
      simp [shareJoin, hpe]
    rw [hsame]
    constructor
    · exact (foldl_recordJoin_keys identLR l [] _).mpr (Or.inr ⟨p, hp, e0, hpe, Or.inl rfl⟩)
    · exact (foldl_recordJoin_keys identLR l [] _).mpr (Or.inr ⟨p, hp, e0, hpe, Or.inr rfl⟩)
  | none =>
    cases hg : mapGet (l.foldl (recordJoin identLR) []) p.alias_ with
    | none =>
      have hsame : shareJoin (l.foldl (recordJoin identLR) []) p = p := by
        simp [shareJoin, hpe, hg]
      rw [hsame, hpe] at he
      cases he
    | some e1 =>
      have hsame : shareJoin (l.foldl (recordJoin identLR) []) p
          = { p with JoinExpr := some e1 } := by
        simp [shareJoin, hpe, hg]
      rw [hsame] at he ⊢
      rcases foldl_recordJoin_value identLR l [] p.alias_ e1 hg with h0 | ⟨p0, hp0, hp0e⟩
      · simp [mapGet] at h0
      · have hk1 := (foldl_recordJoin_keys identLR l [] (p0.findFromAliases identLR).1).mpr
          (Or.inr ⟨p0, hp0, e1, hp0e, Or.inl rfl⟩)
        have hk2 := (foldl_recordJoin_keys identLR l [] (p0.findFromAliases identLR).2).mpr
          (Or.inr ⟨p0, hp0, e1, hp0e, Or.inr rfl⟩)
        have hje : ({ p with JoinExpr := some e1 } : SqlSource).JoinExpr = p0.JoinExpr := by
          rw [hp0e]
        constructor
        · rcases findFromAliases_fst identLR _ p0 hje with h1 | h1
          · rw [h1]; exact hk1
          · rw [h1]
            apply (mapGet_isSome_iff _ _).mp
            show (mapGet (l.foldl (recordJoin identLR) []) p.alias_).isSome = true
            rw [hg]
            rfl
        · rw [findFromAliases_snd identLR _ p0 hje]
          exact hk2

/-- Sharing a second time, with the map recorded from the finalized FROM list,
changes no source. -/
theorem shareJoin_again (identLR : Str → Str × Str × Bool) (l : List SqlSource)
    (q : SqlSource)
    (hq : q ∈ l.map (shareJoin (l.foldl (recordJoin identLR) []))) :
    shareJoin ((l.map (shareJoin (l.foldl (recordJoin identLR) []))).foldl
      (recordJoin identLR) []) q = q := by
  cases hqe : q.JoinExpr with
  | some e => simp [shareJoin, hqe]
  | none =>
    cases hg : mapGet ((l.map (shareJoin (l.foldl (recordJoin identLR) []))).foldl
        (recordJoin identLR) []) q.alias_ with
    | none => simp [shareJoin, hqe, hg]
    | some e2 =>
      exfalso
      have hk : q.alias_ ∈ mapKeys ((l.map (shareJoin (l.foldl (recordJoin identLR) []))).foldl
          (recordJoin identLR) []) := by
        apply (mapGet_isSome_iff _ _).mp
        rw [hg]
        rfl
      rcases (foldl_recordJoin_keys identLR _ [] _).mp hk with h0 | ⟨q1, hq1, e, hq1e, hor⟩
      · simp [mapKeys_nil] at h0
      · have hrec := shared_aliases_recorded identLR l q1 hq1 e hq1e
        have hk1 : q.alias_ ∈ mapKeys (l.foldl (recordJoin identLR) []) := by
          rcases hor with h1 | h1
          · rw [h1]; exact hrec.1
          · rw [h1]; exact hrec.2
        obtain ⟨p, hp, hpq⟩ := List.mem_map.mp hq
        have hal : q.alias_ = p.alias_ := by
          rw [← hpq]
          exact (shareJoin_fields _ p).1
        have hsome := (mapGet_isSome_iff _ _).mpr hk1
        rw [hal] at hsome
        cases hpe : p.JoinExpr with
        | some e0 =>
          have : shareJoin (l.foldl (recordJoin identLR) []) p = p := by
            simp [shareJoin, hpe]
          rw [this] at hpq
          rw [← hpq, hpe] at hqe
          cases hqe
        | none =>
          cases hg1 : mapGet (l.foldl (recordJoin identLR) []) p.alias_ with
          | none =>
            rw [hg1] at hsome
            cases hsome
          | some e1 =>
            have : shareJoin (l.foldl (recordJoin identLR) []) p
                = { p with JoinExpr := some e1 } := by
              simp [shareJoin, hpe, hg1]
            rw [this] at hpq
            rw [← hpq] at hqe
            cases hqe

theorem SqlSource.prepare_fixed (lc : Char → Char) (cols : StrMap Column) (t : SqlSource)
    (hc : t.cols = cols)
    (ha : t.alias_ = if t.Alias = [] then strings.ToLower lc t.Name
      else strings.ToLower lc t.Alias) :
    t.prepare lc cols = t := by
  obtain ⟨al, raw, name, ali, op, lor, jt, je, tc, into, star, columns⟩ := t
  simp only at hc ha
  subst hc
  unfold SqlSource.prepare SqlSource.Finalize
  by_cases h : ali = []
  · subst h
    simp only [if_true] at ha
    subst ha
    simp [strings.ToLower]
  · rw [if_neg h] at ha
    subst ha
    have : ¬ strings.ToLower lc ali = [] := fun e => h ((toLower_eq_nil lc _).mp e)
    simp [this]

theorem SqlSource.prepare_shareJoin (lc : Char → Char) (cols : StrMap Column)
    (exprs : StrMap Node) (s : SqlSource) :
    (shareJoin exprs (s.prepare lc cols)).prepare lc cols = shareJoin exprs (s.prepare lc cols) := by
  obtain ⟨ha, hn, hal, hc⟩ := shareJoin_fields exprs (s.prepare lc cols)
  obtain ⟨pn, pal, _, pc⟩ := SqlSource.prepare_fields lc cols s
  apply SqlSource.prepare_fixed
  · rw [hc, pc]
  · rw [ha, hn, hal, pn, pal, SqlSource.prepare_alias]

/-- What `Finalize` returns for a statement with a FROM list. -/
theorem SqlSelect.Finalize_eq (lc : Char → Char) (identLR : Str → Str × Str × Bool)
    (m : SqlSelect) (h : m.From ≠ []) :
    m.Finalize lc identLR = (none,
      { m.UnAliasedColumns.2 with
        From := (m.From.map (SqlSource.prepare lc m.UnAliasedColumns.1)).map
          (shareJoin ((m.From.map (SqlSource.prepare lc m.UnAliasedColumns.1)).foldl
            (recordJoin identLR) [])) }) := by
  have h0 : ¬ m.From.length = 0 := by
    intro e
    exact h (List.length_eq_zero.mp e)
  unfold SqlSelect.Finalize
  rw [if_neg h0]
  simp only [finalizeShare_eq_map, finalizeRecord_snd, finalizeRecord_fst]
  rfl

theorem SqlSelect.UnAliasedColumns_again (m : SqlSelect) (l : List SqlSource) :
    ({ m.UnAliasedColumns.2 with From := l } : SqlSelect).UnAliasedColumns
      = (m.UnAliasedColumns.1, { m.UnAliasedColumns.2 with From := l }) := by
  simp only [SqlSelect.UnAliasedColumns, unAliasedLoop_idem]

/-- C9: `Finalize` is idempotent.  A second call returns the statement the
first call returned, so every FROM source keeps its canonical alias, its
column map and its join expression. -/
theorem Finalize_idempotent (lc : Char → Char) (identLR : Str → Str × Str × Bool)
    (m : SqlSelect) :
    ((m.Finalize lc identLR).2.Finalize lc identLR).2 = (m.Finalize lc identLR).2 ∧
    ((m.Finalize lc identLR).2.Finalize lc identLR).2.From.map
        (fun src => (src.alias_, src.cols, src.JoinExpr))
      = (m.Finalize lc identLR).2.From.map
        (fun src => (src.alias_, src.cols, src.JoinExpr)) := by
  have key : ((m.Finalize lc identLR).2.Finalize lc identLR).2 = (m.Finalize lc identLR).2 := by
    by_cases h : m.From = []
    · have e : m.Finalize lc identLR = (none, m) := by
        simp [SqlSelect.Finalize, h]
      rw [e]
      simp only []
      rw [e]
    · rw [SqlSelect.Finalize_eq lc identLR m h]
      simp only []
      have hne : ({ m.UnAliasedColumns.2 with
          From := (m.From.map (SqlSource.prepare lc m.UnAliasedColumns.1)).map
            (shareJoin ((m.From.map (SqlSource.prepare lc m.UnAliasedColumns.1)).foldl
              (recordJoin identLR) [])) } : SqlSelect).From ≠ [] := by
        simpa using h
      rw [SqlSelect.Finalize_eq lc identLR _ hne]
      simp only [SqlSelect.UnAliasedColumns_again]
      have hprep : ((m.From.map (SqlSource.prepare lc m.UnAliasedColumns.1)).map
            (shareJoin ((m.From.map (SqlSource.prepare lc m.UnAliasedColumns.1)).foldl
              (recordJoin identLR) []))).map (SqlSource.prepare lc m.UnAliasedColumns.1)
          = (m.From.map (SqlSource.prepare lc m.UnAliasedColumns.1)).map
            (shareJoin ((m.From.map (SqlSource.prepare lc m.UnAliasedColumns.1)).foldl
              (recordJoin identLR) [])) := by
        simp only [List.map_map]
        apply List.map_congr_left
        intro s _
        exact SqlSource.prepare_shareJoin lc _ _ s
      rw [hprep]
      have hshare : ((m.From.map (SqlSource.prepare lc m.UnAliasedColumns.1)).map
            (shareJoin ((m.From.map (SqlSource.prepare lc m.UnAliasedColumns.1)).foldl
              (recordJoin identLR) []))).map
            (shareJoin (((m.From.map (SqlSource.prepare lc m.UnAliasedColumns.1)).map
              (shareJoin ((m.From.map (SqlSource.prepare lc m.UnAliasedColumns.1)).foldl
                (recordJoin identLR) []))).foldl (recordJoin identLR) []))
          = (m.From.map (SqlSource.prepare lc m.UnAliasedColumns.1)).map
            (shareJoin ((m.From.map (SqlSource.prepare lc m.UnAliasedColumns.1)).foldl
              (recordJoin identLR) [])) := by
        conv_rhs => rw [← List.map_id ((m.From.map
          (SqlSource.prepare lc m.UnAliasedColumns.1)).map
            (shareJoin ((m.From.map (SqlSource.prepare lc m.UnAliasedColumns.1)).foldl
              (recordJoin identLR) [])))]
        apply List.map_congr_left
        intro q hq
        exact shareJoin_again identLR _ q hq
      rw [hshare]
  exact ⟨key, by rw [key]⟩

/-- The join of Scenario A, finalized: the predicate attached to `orders AS o`
is shared with `users AS u`, and a second `Finalize` changes neither the aliases
nor the shared predicate. -/
theorem Finalize_selectJoin :
    (selectJoin.Finalize Char.toLower identLeftRight).2.From.map
        (fun src => (src.alias_, src.JoinExpr))
      = [("u".toList, some joinOnUserId), ("o".toList, some joinOnUserId)] ∧
    mapKeys (selectJoin.Finalize Char.toLower identLeftRight).2.UnAliasedColumns.1
      = ["name".toList, "item".toList] := by
  constructor
  · rfl
  · decide

/-! ## Sharing of join expressions -/

theorem mapGet_recordJoin (identLR : Str → Str × Str × Bool) (exprs : StrMap Node)
    (s : SqlSource) (k : Str) :
    mapGet (recordJoin identLR exprs s) k =
      if s.recordsFor identLR k then s.JoinExpr else mapGet exprs k := by
  unfold recordJoin SqlSource.recordsFor
  cases h : s.JoinExpr with
  | none => simp
  | some e =>
    simp only [mapGet_mapSet, Option.isSome_some, Bool.true_and, Bool.or_eq_true,
      decide_eq_true_eq]
    by_cases h2 : (s.findFromAliases identLR).2 = k
    · simp [h2]
    · by_cases h1 : (s.findFromAliases identLR).1 = k
      · simp [h1, h2]
      · have h1' : ¬ k = (s.findFromAliases identLR).1 := fun e => h1 e.symm
        have h2' : ¬ k = (s.findFromAliases identLR).2 := fun e => h2 e.symm
        simp [h1, h2, h1', h2']

theorem mapGet_foldl_recordJoin (identLR : Str → Str × Str × Bool) (l : List SqlSource) :
    ∀ (exprs : StrMap Node) (k : Str),
    mapGet (l.foldl (recordJoin identLR) exprs) k =
      match lastRecorded identLR k l with
      | some e => some e
      | none => mapGet exprs k := by
  induction l with
  | nil => intro exprs k; rfl
  | cons s rest ih =>
    intro exprs k
    simp only [List.foldl_cons, ih, lastRecorded]
    cases hr : lastRecorded identLR k rest with
    | some e => rfl
    | none =>
      simp only [mapGet_recordJoin]
      by_cases hs : s.recordsFor identLR k = true
      · simp only [hs, if_true]
        have : (s.JoinExpr).isSome = true := by
          unfold SqlSource.recordsFor at hs
          simp only [Bool.and_eq_true] at hs
          exact hs.1
        obtain ⟨e, he⟩ := Option.isSome_iff_exists.mp this
        rw [he]
      · simp only [hs]
        rfl

/-- No expression is recorded for `k` exactly when no source records one. -/
theorem lastRecorded_eq_none (identLR : Str → Str × Str × Bool) (k : Str)
    (l : List SqlSource) :
    lastRecorded identLR k l = none ↔ ∀ s ∈ l, s.recordsFor identLR k = false := by
  induction l with
  | nil => simp [lastRecorded]
  | cons s rest ih =>
    simp only [lastRecorded, List.mem_cons, forall_eq_or_imp]
    cases hr : lastRecorded identLR k rest with
    | some e =>
      have : ¬ ∀ s ∈ rest, s.recordsFor identLR k = false := fun hc => by
        have := ih.mpr hc
        rw [hr] at this
        cases this
      simp [this]
    | none =>
      have hall := ih.mp hr
      by_cases hs : s.recordsFor identLR k = true
      · have : (s.JoinExpr).isSome = true := by
          unfold SqlSource.recordsFor at hs
          simp only [Bool.and_eq_true] at hs
          exact hs.1
        obtain ⟨e, he⟩ := Option.isSome_iff_exists.mp this
        simp [hs, he]
      · simp only [Bool.not_eq_true] at hs
        simp only [hs, Bool.false_eq_true, if_false, true_and, true_iff]
        exact hall

/-- The expression recorded for `k` is that of a source which records under `k`
and after which no source of the list does. -/
theorem lastRecorded_eq_some (identLR : Str → Str × Str × Bool) (k : Str) (e : Node)
    (l : List SqlSource) (h : lastRecorded identLR k l = some e) :
    ∃ l1 s l2, l = l1 ++ s :: l2 ∧ s.JoinExpr = some e ∧ s.recordsFor identLR k = true ∧
      ∀ t ∈ l2, t.recordsFor identLR k = false := by
  induction l with
  | nil => simp [lastRecorded] at h
  | cons s rest ih =>
    simp only [lastRecorded] at h
    cases hr : lastRecorded identLR k rest with
    | some e1 =>
      rw [hr] at h
      simp only [Option.some.injEq] at h
      subst h
      obtain ⟨l1, t, l2, hl, h1, h2, h3⟩ := ih hr
      exact ⟨s :: l1, t, l2, by rw [hl]; rfl, h1, h2, h3⟩
    | none =>
      rw [hr] at h
      simp only at h
      by_cases hs : s.recordsFor identLR k = true
      · rw [if_pos hs] at h
        exact ⟨[], s, rest, rfl, h, hs, (lastRecorded_eq_none identLR k rest).mp hr⟩
      · rw [if_neg hs] at h
        cases h

theorem shareJoin_joinExpr (exprs : StrMap Node) (s : SqlSource) :
    (shareJoin exprs s).JoinExpr =
      match s.JoinExpr with
      | some e => some e
      | none => mapGet exprs s.alias_ := by
  unfold shareJoin
  cases h : s.JoinExpr with
  | some e => simp [h]
  | none =>
    cases h1 : mapGet exprs s.alias_ with
    | none => simp [h]
    | some e => simp

theorem SqlSource.prepare_alias_canonical (lc : Char → Char) (cols : StrMap Column)
    (s : SqlSource) : (s.prepare lc cols).alias_ = s.canonicalAlias lc :=
  SqlSource.prepare_alias lc cols s

/-- C11: after `Finalize` a source that had a join expression keeps it, and a
source that had none carries the expression recorded for its canonical alias:
that of the last source in FROM order that recorded one under this alias, and
none when no source did. -/
theorem Finalize_shares_join_expr (lc : Char → Char) (identLR : Str → Str × Str × Bool)
    (m : SqlSelect) (hfrom : m.From ≠ []) :
    (m.Finalize lc identLR).2.From.map (fun src => src.JoinExpr) =
      m.From.map (fun src =>
        match src.JoinExpr with
        | some e => some e
        | none => lastRecorded identLR (src.canonicalAlias lc)
            (m.From.map (SqlSource.prepare lc m.UnAliasedColumns.1))) := by
  rw [SqlSelect.Finalize_from lc identLR m hfrom]
  simp only [List.map_map]
  apply List.map_congr_left
  intro s _
  simp only [Function.comp, shareJoin_joinExpr, (SqlSource.prepare_fields lc _ s).2.2.1,
    SqlSource.prepare_alias_canonical, mapGet_foldl_recordJoin]
  cases s.JoinExpr with
  | some e => rfl
  | none =>
    simp only
    cases lastRecorded identLR (s.canonicalAlias lc)
      (m.From.map (SqlSource.prepare lc m.UnAliasedColumns.1)) with
    | none => rfl
    | some e => rfl

theorem Finalize_shares_join_expr_witness :
    (selectJoin.Finalize Char.toLower identLeftRight).2.From.map (fun src => src.JoinExpr) =
      selectJoin.From.map (fun src =>
        match src.JoinExpr with
        | some e => some e
        | none => lastRecorded identLeftRight (src.canonicalAlias Char.toLower)
            (selectJoin.From.map (SqlSource.prepare Char.toLower selectJoin.UnAliasedColumns.1)))
    ∧ lastRecorded identLeftRight "u".toList
        (selectJoin.From.map (SqlSource.prepare Char.toLower selectJoin.UnAliasedColumns.1))
      = some joinOnUserId :=
  ⟨Finalize_shares_join_expr Char.toLower identLeftRight selectJoin
      (by simp [selectJoin, mkSelect]), by rfl⟩

/-! ## `JoinValueExpr` -/

/-- On a source that holds the predicate `a.x = b.y`, `JoinValueExpr` returns
the field of the operand qualified by the source's alias. -/
theorem JoinValueExpr_of_equi_join (identLR : Str → Str × Str × Bool)
    (isSimple : Token → Node → Node → Bool) (nodeString : Node → Str)
    (src : SqlSource) (op : Token) (ta tb a x b y : Str)
    (hexpr : src.JoinExpr =
      some (Node.BinaryNode op (Node.IdentityNode ta) (Node.IdentityNode tb)))
    (hsimple : isSimple op (Node.IdentityNode ta) (Node.IdentityNode tb) = true)
    (hta : identLR ta = (a, x, true)) (htb : identLR tb = (b, y, true))
    (hx : x ≠ []) (hy : y ≠ []) (hab : a ≠ b) :
    (src.alias_ = a → src.JoinValueExpr identLR isSimple nodeString
      = Outcome.ret (some (Node.IdentityNode x), none)) ∧
    (src.alias_ = b → src.JoinValueExpr identLR isSimple nodeString
      = Outcome.ret (some (Node.IdentityNode y), none)) := by
  constructor
  · intro ha
    simp [SqlSource.JoinValueExpr, hexpr, hsimple, joinOperand, hta, ha, hx]
  · intro hb
    simp [SqlSource.JoinValueExpr, hexpr, hsimple, joinOperand, hta, htb, hb, hy, hab]

theorem findFromAliases_equi_join (identLR : Str → Str × Str × Bool)
    (src : SqlSource) (op : Token) (ta tb a x b y : Str)
    (hexpr : src.JoinExpr =
      some (Node.BinaryNode op (Node.IdentityNode ta) (Node.IdentityNode tb)))
    (hta : identLR ta = (a, x, true)) (htb : identLR tb = (b, y, true)) :
    src.findFromAliases identLR = (a, b) := by
  simp [SqlSource.findFromAliases, hexpr, operandAlias, hta, htb]

/-- The join value expressions when the qualifiers of the predicate are the
canonical aliases: in a SELECT with two FROM sources and the predicate
`a.x = b.y` attached to one of them, after `Finalize` the source whose canonical
alias is `a` has the join value expression `x` and the one whose canonical alias
is `b` has `y`, both returned without error. -/
theorem JoinValueExpr_two_source_equi_join (lc : Char → Char)
    (identLR : Str → Str × Str × Bool) (isSimple : Token → Node → Node → Bool)
    (nodeString : Node → Str) (m : SqlSelect) (s1 s2 : SqlSource) (op : Token)
    (ta tb a x b y : Str)
    (hfrom : m.From = [s1, s2])
    (hattached :
      (s1.JoinExpr = some (Node.BinaryNode op (Node.IdentityNode ta) (Node.IdentityNode tb))
        ∧ s2.JoinExpr = none) ∨
      (s1.JoinExpr = none ∧
        s2.JoinExpr = some (Node.BinaryNode op (Node.IdentityNode ta) (Node.IdentityNode tb))))
    (hsimple : isSimple op (Node.IdentityNode ta) (Node.IdentityNode tb) = true)
    (hta : identLR ta = (a, x, true)) (htb : identLR tb = (b, y, true))
    (hx : x ≠ []) (hy : y ≠ []) (hab : a ≠ b)
    (haliases : (s1.canonicalAlias lc = a ∧ s2.canonicalAlias lc = b) ∨
      (s1.canonicalAlias lc = b ∧ s2.canonicalAlias lc = a)) :
    (∃ src ∈ (m.Finalize lc identLR).2.From, src.alias_ = a) ∧
    (∃ src ∈ (m.Finalize lc identLR).2.From, src.alias_ = b) ∧
    ∀ src ∈ (m.Finalize lc identLR).2.From,
      (src.alias_ = a → src.JoinValueExpr identLR isSimple nodeString
        = Outcome.ret (some (Node.IdentityNode x), none)) ∧
      (src.alias_ = b → src.JoinValueExpr identLR isSimple nodeString
        = Outcome.ret (some (Node.IdentityNode y), none)) := by
  have hne : m.From ≠ [] := by rw [hfrom]; simp
  have hF := SqlSelect.Finalize_from lc identLR m hne
  rw [hfrom] at hF
  simp only [List.map_cons, List.map_nil, List.foldl_cons, List.foldl_nil] at hF
  rw [hF]
  -- the two sources with their canonical alias set
  generalize hp1 : s1.prepare lc m.UnAliasedColumns.1 = p1 at *
  generalize hp2 : s2.prepare lc m.UnAliasedColumns.1 = p2 at *
  have hp1a : p1.alias_ = s1.canonicalAlias lc := by
    rw [← hp1]; exact SqlSource.prepare_alias_canonical lc _ s1
  have hp2a : p2.alias_ = s2.canonicalAlias lc := by
    rw [← hp2]; exact SqlSource.prepare_alias_canonical lc _ s2
  have hp1e : p1.JoinExpr = s1.JoinExpr := by
    rw [← hp1]; exact (SqlSource.prepare_fields lc _ s1).2.2.1
  have hp2e : p2.JoinExpr = s2.JoinExpr := by
    rw [← hp2]; exact (SqlSource.prepare_fields lc _ s2).2.2.1
  -- every alias among a, b has the predicate recorded
  have hrec : ∀ k, (k = a ∨ k = b) →
      mapGet (recordJoin identLR (recordJoin identLR [] p1) p2) k
        = some (Node.BinaryNode op (Node.IdentityNode ta) (Node.IdentityNode tb)) := by
    intro k hk
    rcases hattached with ⟨h1, h2⟩ | ⟨h1, h2⟩
    · have e2 : p2.recordsFor identLR k = false := by
        simp [SqlSource.recordsFor, hp2e, h2]
      have e1 : p1.recordsFor identLR k = true := by
        have := findFromAliases_equi_join identLR p1 op ta tb a x b y (hp1e.trans h1) hta htb
        simp only [SqlSource.recordsFor, hp1e, h1, this, Option.isSome_some, Bool.true_and,
          Bool.or_eq_true, decide_eq_true_eq]
        exact hk
      simp [mapGet_recordJoin, e1, e2, hp1e, h1]
    · have e2 : p2.recordsFor identLR k = true := by
        have := findFromAliases_equi_join identLR p2 op ta tb a x b y (hp2e.trans h2) hta htb
        simp only [SqlSource.recordsFor, hp2e, h2, this, Option.isSome_some, Bool.true_and,
          Bool.or_eq_true, decide_eq_true_eq]
        exact hk
      simp [mapGet_recordJoin, e2, hp2e, h2]
  have hshare : ∀ p : SqlSource, (p = p1 ∨ p = p2) → (p.alias_ = a ∨ p.alias_ = b) →
      (shareJoin (recordJoin identLR (recordJoin identLR [] p1) p2) p).JoinExpr
        = some (Node.BinaryNode op (Node.IdentityNode ta) (Node.IdentityNode tb)) := by
    intro p hp hal
    rw [shareJoin_joinExpr]
    cases hpe : p.JoinExpr with
    | none => exact hrec _ hal
    | some e =>
      simp only
      rcases hp with rfl | rfl
      · rcases hattached with ⟨h1, _⟩ | ⟨h1, _⟩
        · rw [← hpe, hp1e, h1]
        · rw [hp1e, h1] at hpe; cases hpe
      · rcases hattached with ⟨_, h2⟩ | ⟨_, h2⟩
        · rw [hp2e, h2] at hpe; cases hpe
        · rw [← hpe, hp2e, h2]
  have hal1 : p1.alias_ = a ∨ p1.alias_ = b := by
    rcases haliases with ⟨h, _⟩ | ⟨h, _⟩
    · exact Or.inl (hp1a.trans h)
    · exact Or.inr (hp1a.trans h)
  have hal2 : p2.alias_ = a ∨ p2.alias_ = b := by
    rcases haliases with ⟨_, h⟩ | ⟨_, h⟩
    · exact Or.inr (hp2a.trans h)
    · exact Or.inl (hp2a.trans h)
  refine ⟨?_, ?_, ?_⟩
  · rcases haliases with ⟨h, _⟩ | ⟨_, h⟩
    · exact ⟨_, List.mem_cons_self _ _, ((shareJoin_fields _ p1).1.trans hp1a).trans h⟩
    · exact ⟨_, List.mem_cons_of_mem _ (List.mem_cons_self _ _),
        ((shareJoin_fields _ p2).1.trans hp2a).trans h⟩
  · rcases haliases with ⟨_, h⟩ | ⟨h, _⟩
    · exact ⟨_, List.mem_cons_of_mem _ (List.mem_cons_self _ _),
        ((shareJoin_fields _ p2).1.trans hp2a).trans h⟩
    · exact ⟨_, List.mem_cons_self _ _, ((shareJoin_fields _ p1).1.trans hp1a).trans h⟩
  · intro src hsrc
    simp only [List.mem_cons, List.mem_singleton, List.not_mem_nil, or_false] at hsrc
    rcases hsrc with rfl | rfl
    · have hal : (shareJoin (recordJoin identLR (recordJoin identLR [] p1) p2) p1).alias_
          = p1.alias_ := (shareJoin_fields _ p1).1
      have := JoinValueExpr_of_equi_join identLR isSimple nodeString
        (shareJoin (recordJoin identLR (recordJoin identLR [] p1) p2) p1) op ta tb a x b y
        (hshare p1 (Or.inl rfl) hal1) hsimple hta htb hx hy hab
      exact this
    · have := JoinValueExpr_of_equi_join identLR isSimple nodeString
        (shareJoin (recordJoin identLR (recordJoin identLR [] p1) p2) p2) op ta tb a x b y
        (hshare p2 (Or.inr rfl) hal2) hsimple hta htb hx hy hab
      exact this

theorem JoinValueExpr_two_source_equi_join_witness :
    (∃ src ∈ (selectJoin.Finalize Char.toLower identLeftRight).2.From,
      src.alias_ = "u".toList) ∧
    (∃ src ∈ (selectJoin.Finalize Char.toLower identLeftRight).2.From,
      src.alias_ = "o".toList) ∧
    ∀ src ∈ (selectJoin.Finalize Char.toLower identLeftRight).2.From,
      (src.alias_ = "u".toList →
        src.JoinValueExpr identLeftRight isSimpleEquality sampleNodeString
          = Outcome.ret (some (Node.IdentityNode "user_id".toList), none)) ∧
      (src.alias_ = "o".toList →
        src.JoinValueExpr identLeftRight isSimpleEquality sampleNodeString
          = Outcome.ret (some (Node.IdentityNode "user_id".toList), none)) :=
  JoinValueExpr_two_source_equi_join Char.toLower identLeftRight isSimpleEquality
    sampleNodeString selectJoin
    (mkSource "users".toList "u".toList none)
    (mkSource "orders".toList "o".toList (some joinOnUserId))
    { T := TokenType.TokenEqual, V := "=".toList }
    "u.user_id".toList "o.user_id".toList "u".toList "user_id".toList "o".toList
    "user_id".toList
    rfl (Or.inr ⟨rfl, rfl⟩) rfl rfl rfl (by decide) (by decide) (by decide)
    (Or.inl ⟨by decide, by decide⟩)

/-- C12: for `SELECT U.name, O.item FROM users AS U INNER JOIN orders AS O ON
U.user_id = O.user_id` the predicate is a simple equality whose operands are
qualified by the aliases `U` and `O` of the two sources.  `Finalize` returns no
error, gives the sources the canonical aliases `u` and `o` and shares nothing:
`users AS U` is left without join expression, so `JoinValueExpr` on it
dereferences nil, and `JoinValueExpr` on `orders AS O` returns the whole
predicate, not the identity `user_id`. -/
theorem JoinValueExpr_upper_case_aliases :
    selectUpperJoin.From.map (fun src => (src.Name, src.Alias, src.JoinExpr))
      = [("users".toList, "U".toList, none),
         ("orders".toList, "O".toList,
          some (Node.BinaryNode { T := TokenType.TokenEqual, V := "=".toList }
            (Node.IdentityNode "U.user_id".toList) (Node.IdentityNode "O.user_id".toList)))] ∧
    isSimpleEquality { T := TokenType.TokenEqual, V := "=".toList }
      (Node.IdentityNode "U.user_id".toList) (Node.IdentityNode "O.user_id".toList) = true ∧
    identLeftRight "U.user_id".toList = ("U".toList, "user_id".toList, true) ∧
    identLeftRight "O.user_id".toList = ("O".toList, "user_id".toList, true) ∧
    (selectUpperJoin.Finalize Char.toLower identLeftRight).1 = none ∧
    (selectUpperJoin.Finalize Char.toLower identLeftRight).2.From.map
        (fun src => (src.alias_, src.JoinExpr,
          src.JoinValueExpr identLeftRight isSimpleEquality sampleNodeString))
      = [("u".toList, none, Outcome.nilDereference),
         ("o".toList, some joinOnUpperUserId,
          Outcome.ret (some joinOnUpperUserId, none))] :=
  ⟨rfl, rfl, rfl, rfl, rfl, rfl⟩

/-- C13 fails as stated: for the binary node `LOWER(u.email) < LOWER(o.email)`,
which is not a simple equality, `JoinValueExpr` returns the whole join
expression and no error. -/
theorem JoinValueExpr_not_simple_returns_expr :
    isSimpleEquality { T := TokenType.TokenOther 0, V := "<".toList }
      (Node.FuncNode "LOWER".toList [Node.IdentityNode "u.email".toList])
      (Node.FuncNode "LOWER".toList [Node.IdentityNode "o.email".toList]) = false ∧
    ordersOnLowerEmail.JoinExpr = some joinOnLowerEmail ∧
    ordersOnLowerEmail.JoinValueExpr identLeftRight isSimpleEquality sampleNodeString
      = Outcome.ret (some joinOnLowerEmail, none) :=
  ⟨by decide, rfl, rfl⟩

/-- C13 (amended): when the join expression is present and is not a binary
node, `JoinValueExpr` returns an error and no expression; when it is a binary
node that is not simple, `JoinValueExpr` returns the whole join expression and
no error. -/
theorem JoinValueExpr_not_simple (identLR : Str → Str × Str × Bool)
    (isSimple : Token → Node → Node → Bool) (nodeString : Node → Str)
    (src : SqlSource) (e : Node) (he : src.JoinExpr = some e) :
    ((∀ op a0 a1, e ≠ Node.BinaryNode op a0 a1) →
      src.JoinValueExpr identLR isSimple nodeString
        = Outcome.ret (none, some (couldNotEvaluate ++ nodeString e))) ∧
    (∀ op a0 a1, e = Node.BinaryNode op a0 a1 → isSimple op a0 a1 = false →
      src.JoinValueExpr identLR isSimple nodeString = Outcome.ret (some e, none)) := by
  constructor
  · intro hnb
    unfold SqlSource.JoinValueExpr
    rw [he]
    cases e with
    | BinaryNode op a0 a1 => exact absurd rfl (hnb op a0 a1)
    | IdentityNode t => rfl
    | FuncNode n args => rfl
    | OtherNode k => rfl
    | NilNode => rfl
  · intro op a0 a1 hb hs
    subst hb
    simp [SqlSource.JoinValueExpr, he, hs]

theorem JoinValueExpr_not_simple_witness :
    ordersOnFunc.JoinValueExpr identLeftRight isSimpleEquality sampleNodeString
      = Outcome.ret (none, some couldNotEvaluate) :=
  (JoinValueExpr_not_simple identLeftRight isSimpleEquality sampleNodeString ordersOnFunc
    (Node.FuncNode "LOWER".toList [Node.IdentityNode "o.email".toList]) rfl).1
    (by intro op a0 a1 h; cases h)

/-! ## `Rewrite` -/

theorem rewriteLoop_fst (identLR : Str → Str × Str × Bool) (m : SqlSource)
    (cols : List Column) : ∀ acc : List Column,
    (rewriteLoop identLR m cols acc).1
      = acc ++ cols.filterMap (fun c => (rewriteColumn identLR m c).1) := by
  induction cols with
  | nil => intro acc; simp [rewriteLoop]
  | cons c rest ih =>
    intro acc
    simp only [rewriteLoop, ih, List.filterMap_cons]
    cases (rewriteColumn identLR m c).1 with
    | none => rfl
    | some x => simp

theorem columnsFromNode_nil (identLR : Str → Str × Str × Bool) (m : SqlSource)
    (cols : List Column) : columnsFromNode identLR m Node.NilNode cols = cols := by
  simp [columnsFromNode]

/-- The columns of the statement `Rewrite` returns for a parent that is not
`SELECT *`. -/
theorem SqlSource.Rewrite_columns (identLR : Str → Str × Str × Bool) (m : SqlSource)
    (stmt : SqlSelect) (hstar : stmt.Star = false) :
    (m.Rewrite identLR stmt).1.Columns =
      columnsFromNode identLR
        { m with Columns := stmt.Columns.filterMap (fun c => (rewriteColumn identLR m c).1) }
        (Node.ofOption m.JoinExpr)
        (stmt.Columns.filterMap (fun c => (rewriteColumn identLR m c).1)) := by
  simp [SqlSource.Rewrite, hstar, rewriteLoop_fst]

theorem Column.LeftRight_right (c : Column) (h : c.LeftRight.1.2.2 = true) :
    c.LeftRight.2.right = c.LeftRight.1.2.1 ∧ c.LeftRight.2.left = c.LeftRight.1.1 := by
  by_cases hl : c.left = []
  · match hs : strings.Split c.As ['.'] with
    | [] =>
      rw [Column.LeftRight_many c hl (by simp [hs]) (by simp [hs])] at h
      simp at h
    | [x] =>
      rw [Column.LeftRight_one c x hl hs] at h
      simp at h
    | [v0, v1] =>
      rw [Column.LeftRight_two c v0 v1 hl hs]
      exact ⟨rfl, rfl⟩
    | a :: b :: d :: t =>
      rw [Column.LeftRight_many c hl (by simp [hs]) (by simp [hs])] at h
      simp at h
  · rw [Column.LeftRight_cached c hl]
    exact ⟨rfl, rfl⟩

theorem Column.LeftRight_fields (c : Column) :
    c.LeftRight.2.As = c.As ∧ c.LeftRight.2.Expr = c.Expr ∧
    c.LeftRight.2.SourceField = c.SourceField := by
  unfold Column.LeftRight
  split
  · split <;> simp
  · simp

/-- C14 fails as stated: for `SELECT name, u.age FROM users AS u` the statement
rewritten for `users AS u`, which has no join predicate, has the columns `name`
and `age`, and the parent column `name` has no qualifier. -/
theorem Rewrite_keeps_unqualified :
    ((finalizedFirst selectNameUAge).1.map (fun src => (src.Alias, src.JoinExpr.isSome)))
      = some ("u".toList, false) ∧
    (finalizedFirst selectNameUAge).2.Star = false ∧
    (mkColumn "name".toList).LeftRight.1 = ([], "name".toList, false) ∧
    (rewrittenFirst selectNameUAge).map (fun c => c.1) = ["name".toList, "age".toList] := by
  decide

/-- C14 (amended): for a source whose `Alias` is its canonical alias (the field
`alias` that `Finalize` sets), without join predicate, and a parent that is not
`SELECT *`, every column of the statement `Rewrite` returns is either a parent
column without qualifier, taken as it is, or is built from a parent column
whose qualifier equals the alias of the source: it is named by the right part
of that column, has its source field and the expression `rewriteNode` gives. -/
theorem Rewrite_column_origin (identLR : Str → Str × Str × Bool) (m : SqlSource)
    (stmt : SqlSelect) (hstar : stmt.Star = false) (hjoin : m.JoinExpr = none)
    (halias : m.Alias = m.alias_) :
    ∀ c ∈ (m.Rewrite identLR stmt).1.Columns, ∃ pc ∈ stmt.Columns,
      (pc.LeftRight.1.2.2 = false ∧ c = pc.LeftRight.2) ∨
      (pc.LeftRight.1.2.2 = true ∧ pc.LeftRight.1.1 = m.alias_ ∧
        c.As = pc.LeftRight.1.2.1 ∧ c.SourceField = pc.SourceField ∧
        c.Expr = (rewriteNode identLR m (Node.ofOption pc.Expr)).toOption) := by
  intro c hc
  rw [SqlSource.Rewrite_columns identLR m stmt hstar, hjoin] at hc
  simp only [Node.ofOption, columnsFromNode_nil, List.mem_filterMap] at hc
  obtain ⟨pc, hpc, hsome⟩ := hc
  refine ⟨pc, hpc, ?_⟩
  unfold rewriteColumn at hsome
  by_cases hok : pc.LeftRight.1.2.2 = false
  · left
    simp only [hok, if_true, Option.some.injEq] at hsome
    exact ⟨hok, hsome.symm⟩
  · have hok1 : pc.LeftRight.1.2.2 = true := by simpa using hok
    right
    simp only [hok1, Bool.true_eq_false, if_false] at hsome
    by_cases hal : pc.LeftRight.1.1 = m.Alias
    · simp only [hal, if_true] at hsome
      obtain ⟨_, hexpr, hsf⟩ := Column.LeftRight_fields pc
      obtain ⟨hright, _⟩ := Column.LeftRight_right pc hok1
      rw [hexpr] at hsome
      cases hn : (rewriteNode identLR m (Node.ofOption pc.Expr)).toOption with
      | none =>
        rw [hn] at hsome
        simp only [Option.some.injEq] at hsome
        subst hsome
        exact ⟨hok1, hal.trans halias, hright, hsf, rfl⟩
      | some n =>
        rw [hn] at hsome
        simp only [Option.some.injEq] at hsome
        subst hsome
        exact ⟨hok1, hal.trans halias, hright, hsf, rfl⟩
    · simp [hal] at hsome

theorem Rewrite_column_origin_witness :
    selectNameUAge.Star = false ∧
    (SqlSource.Finalize Char.toLower (mkSource "users".toList "u".toList none)).2.JoinExpr
      = none ∧
    (SqlSource.Finalize Char.toLower (mkSource "users".toList "u".toList none)).2.Alias
      = (SqlSource.Finalize Char.toLower (mkSource "users".toList "u".toList none)).2.alias_ ∧
    ∀ c ∈ ((SqlSource.Finalize Char.toLower
        (mkSource "users".toList "u".toList none)).2.Rewrite identLeftRight
        selectNameUAge).1.Columns,
      ∃ pc ∈ selectNameUAge.Columns,
        (pc.LeftRight.1.2.2 = false ∧ c = pc.LeftRight.2) ∨
        (pc.LeftRight.1.2.2 = true ∧ pc.LeftRight.1.1 = "u".toList ∧
          c.As = pc.LeftRight.1.2.1 ∧ c.SourceField = pc.SourceField ∧
          c.Expr = (rewriteNode identLeftRight
            (SqlSource.Finalize Char.toLower (mkSource "users".toList "u".toList none)).2
            (Node.ofOption pc.Expr)).toOption) :=
  ⟨rfl, rfl, rfl, Rewrite_column_origin identLeftRight
    (SqlSource.Finalize Char.toLower (mkSource "users".toList "u".toList none)).2
    selectNameUAge rfl rfl rfl⟩

/-- C15: for `SELECT users.name FROM users` the finalized source has the
canonical alias `users` and no `Alias`; the parent column `users.name` is
qualified by `users`, and the statement `Rewrite` returns has no column. -/
theorem Rewrite_drops_name_qualified :
    ((finalizedFirst selectUsersName).1.map (fun src => (src.alias_, src.Alias)))
      = some ("users".toList, []) ∧
    (finalizedFirst selectUsersName).2.Star = false ∧
    (mkColumn "users.name".toList).LeftRight.1 = ("users".toList, "name".toList, true) ∧
    rewrittenFirst selectUsersName = [] := by
  decide

/-- C16: for `SELECT U.name FROM users AS U` the finalized source has `Alias`
`U` and canonical alias `u`; `Rewrite` includes the column `U.name`, named
`name`, and the result has no expression: `rewriteNode` compares the qualifier
`U` of the identity with the canonical alias and returns nil. -/
theorem Rewrite_loses_expression :
    ((finalizedFirst selectUpperAlias).1.map (fun src => (src.alias_, src.Alias)))
      = some ("u".toList, "U".toList) ∧
    (finalizedFirst selectUpperAlias).2.Star = false ∧
    (mkColumn "U.name".toList).LeftRight.1 = ("U".toList, "name".toList, true) ∧
    rewrittenFirst selectUpperAlias = [("name".toList, false)] := by
  decide

/-- C17: for the join of `users AS u` and `orders AS o` on
`u.user_id = o.user_id` with the parent projecting `u.user_id`, the statement
rewritten for `users AS u` has two columns named `user_id`: the rewritten parent
column and the one appended for the join predicate. -/
theorem Rewrite_duplicates_join_column :
    ((finalizedFirst selectJoinKey).1.map (fun src => src.alias_)) = some "u".toList ∧
    ((finalizedFirst selectJoinKey).1.map (fun src => src.JoinExpr))
      = some (some joinOnUserId) ∧
    (finalizedFirst selectJoinKey).2.Star = false ∧
    (rewrittenFirst selectJoinKey).map (fun c => c.1)
      = ["user_id".toList, "user_id".toList] ∧
    ((rewrittenFirst selectJoinKey).filter (fun c => c.1 = "user_id".toList)).length = 2 :=
  ⟨by decide, rfl, by decide, by decide, by decide⟩

/-! ## Columns of the join predicate -/

theorem genSplit_of_not_found (sep s : Str) (n : Nat) (h : strings.indexOpt sep s = none) :
    strings.genSplit sep n s = [s] := by
  cases n with
  | zero => rfl
  | succ k => simp [strings.genSplit, h]

/-- A column that holds no split yet and whose name has no `.` is not
qualified. -/
theorem Column.LeftRight_plain (c : Column) (hl : c.left = [])
    (hp : strings.Contains c.As ['.'] = false) : c.LeftRight.1.2.2 = false := by
  have hs : strings.Split c.As ['.'] = [c.As] :=
    genSplit_of_not_found _ _ _ ((strings.contains_false_iff _ _).mp hp)
  rw [Column.LeftRight_one c c.As hl hs]

theorem qualifiedLoop_snd (left : Str) (cols : List Column) : ∀ found : Bool,
    (qualifiedLoop left cols found).2 = cols.map (fun c => c.LeftRight.2) := by
  induction cols with
  | nil => intro found; rfl
  | cons c rest ih =>
    intro found
    simp only [qualifiedLoop, ih, List.map_cons]

theorem qualifiedLoop_not_found (left : Str) (cols : List Column)
    (h : ∀ c ∈ cols, c.LeftRight.1.2.2 = false) :
    (qualifiedLoop left cols false).1 = false := by
  induction cols with
  | nil => rfl
  | cons c rest ih =>
    have hc := h c (List.mem_cons_self _ _)
    simp only [qualifiedLoop, hc, Bool.false_eq_true, if_false]
    exact ih (fun d hd => h d (List.mem_cons_of_mem _ hd))

theorem joinColumn_plain (right : Str) (hp : strings.Contains right ['.'] = false) :
    (joinColumn right).LeftRight.1.2.2 = false :=
  Column.LeftRight_plain (joinColumn right) rfl hp

/-- What `columnsFromNode` does to a list of columns none of which is
qualified: none of the resulting columns is qualified, every name is kept, and
every identity of the predicate that is qualified by the alias of the source
has a column named by its right part. -/
theorem columnsFromNode_spec (identLR : Str → Str × Str × Bool) (src : SqlSource)
    (e : Node) (hshape : JoinShape e) :
    (∀ t ∈ joinIdentities e, (identLR t).2.2 = true → (identLR t).1 = src.alias_ →
      strings.Contains (identLR t).2.1 ['.'] = false) →
    ∀ cols : List Column, (∀ c ∈ cols, c.LeftRight.1.2.2 = false) →
      (∀ c ∈ columnsFromNode identLR src e cols, c.LeftRight.1.2.2 = false) ∧
      (∀ c ∈ cols, ∃ d ∈ columnsFromNode identLR src e cols, d.As = c.As) ∧
      (∀ t ∈ joinIdentities e, (identLR t).2.2 = true → (identLR t).1 = src.alias_ →
        ∃ d ∈ columnsFromNode identLR src e cols, d.As = (identLR t).2.1) := by
  induction hshape with
  | identity t =>
    intro hplain cols hcols
    by_cases hok : (identLR t).2.2 = true
    · by_cases hal : (identLR t).1 = src.alias_
      · have hp := hplain t (by simp [joinIdentities]) hok hal
        have hnf := qualifiedLoop_not_found (identLR t).1 cols hcols
        have hout : columnsFromNode identLR src (Node.IdentityNode t) cols
            = cols.map (fun c => c.LeftRight.2) ++ [joinColumn (identLR t).2.1] := by
          simp [columnsFromNode, hok, hal, qualifiedLoop_snd]
          rw [← hal, hnf]
        rw [hout]
        refine ⟨?_, ?_, ?_⟩
        · intro c hc
          rcases List.mem_append.mp hc with h1 | h1
          · obtain ⟨d, hd, rfl⟩ := List.mem_map.mp h1
            rw [Column.LeftRight_idem]
            exact hcols d hd
          · simp only [List.mem_singleton] at h1
            subst h1
            exact joinColumn_plain _ hp
        · intro c hc
          exact ⟨c.LeftRight.2, List.mem_append_left _ (List.mem_map.mpr ⟨c, hc, rfl⟩),
            (Column.LeftRight_fields c).1⟩
        · intro t1 ht1 _ _
          simp only [joinIdentities, List.mem_singleton] at ht1
          subst ht1
          exact ⟨joinColumn (identLR t1).2.1, List.mem_append_right _ (List.mem_singleton_self _),
            rfl⟩
      · have hout : columnsFromNode identLR src (Node.IdentityNode t) cols = cols := by
          simp [columnsFromNode, hok, hal]
        rw [hout]
        refine ⟨hcols, fun c hc => ⟨c, hc, rfl⟩, ?_⟩
        intro t1 ht1 _ hal1
        simp only [joinIdentities, List.mem_singleton] at ht1
        subst ht1
        exact absurd hal1 hal
    · have hout : columnsFromNode identLR src (Node.IdentityNode t) cols = cols := by
        simp [columnsFromNode, hok]
      rw [hout]
      refine ⟨hcols, fun c hc => ⟨c, hc, rfl⟩, ?_⟩
      intro t1 ht1 hok1 _
      simp only [joinIdentities, List.mem_singleton] at ht1
      subst ht1
      exact absurd hok1 hok
  | binary op a0 a1 hop _ _ ih0 ih1 =>
    intro hplain cols hcols
    have hout : columnsFromNode identLR src (Node.BinaryNode op a0 a1) cols
        = columnsFromNode identLR src a1 (columnsFromNode identLR src a0 cols) := by
      rcases hop with h | h | h | h <;> simp [columnsFromNode, h]
    rw [hout]
    have hp0 : ∀ t ∈ joinIdentities a0, (identLR t).2.2 = true → (identLR t).1 = src.alias_ →
        strings.Contains (identLR t).2.1 ['.'] = false := fun t ht =>
      hplain t (by simp [joinIdentities, ht])
    have hp1 : ∀ t ∈ joinIdentities a1, (identLR t).2.2 = true → (identLR t).1 = src.alias_ →
        strings.Contains (identLR t).2.1 ['.'] = false := fun t ht =>
      hplain t (by simp [joinIdentities, ht])
    obtain ⟨h0a, h0b, h0c⟩ := ih0 hp0 cols hcols
    obtain ⟨h1a, h1b, h1c⟩ := ih1 hp1 (columnsFromNode identLR src a0 cols) h0a
    refine ⟨h1a, ?_, ?_⟩
    · intro c hc
      obtain ⟨d, hd, hda⟩ := h0b c hc
      obtain ⟨d1, hd1, hd1a⟩ := h1b d hd
      exact ⟨d1, hd1, hd1a.trans hda⟩
    · intro t ht hok hal
      simp only [joinIdentities, List.mem_append] at ht
      rcases ht with ht | ht
      · obtain ⟨d, hd, hda⟩ := h0c t ht hok hal
        obtain ⟨d1, hd1, hd1a⟩ := h1b d hd
        exact ⟨d1, hd1, hd1a.trans hda⟩
      · exact h1c t ht hok hal

theorem SqlSource.Rewrite_columns_star (identLR : Str → Str × Str × Bool) (m : SqlSource)
    (stmt : SqlSelect) (hstar : stmt.Star = true) :
    (m.Rewrite identLR stmt).1.Columns =
      columnsFromNode identLR { m with Star := true } (Node.ofOption m.JoinExpr) m.Columns := by
  simp [SqlSource.Rewrite, hstar]

theorem rewriteColumn_not_qualified (identLR : Str → Str × Str × Bool) (m : SqlSource)
    (pc c : Column)
    (hplain : pc.LeftRight.1.2.2 = true → strings.Contains pc.LeftRight.1.2.1 ['.'] = false)
    (hc : (rewriteColumn identLR m pc).1 = some c) : c.LeftRight.1.2.2 = false := by
  unfold rewriteColumn at hc
  by_cases hok : pc.LeftRight.1.2.2 = false
  · simp only [hok, if_true, Option.some.injEq] at hc
    subst hc
    rw [Column.LeftRight_idem]
    exact hok
  · have hok1 : pc.LeftRight.1.2.2 = true := by simpa using hok
    simp only [hok1, Bool.true_eq_false, if_false] at hc
    have hp := hplain hok1
    rw [← (Column.LeftRight_right pc hok1).1] at hp
    by_cases hal : pc.LeftRight.1.1 = m.Alias
    · simp only [hal, if_true] at hc
      cases hn : (rewriteNode identLR m (Node.ofOption pc.LeftRight.2.Expr)).toOption with
      | none =>
        rw [hn] at hc
        simp only [Option.some.injEq] at hc
        subst hc
        exact Column.LeftRight_plain _ rfl hp
      | some n =>
        rw [hn] at hc
        simp only [Option.some.injEq] at hc
        subst hc
        exact Column.LeftRight_plain _ rfl hp
    · simp [hal] at hc

theorem columnsFromNode_has_join_columns (identLR : Str → Str × Str × Bool)
    (src : SqlSource) (a : Str) (ha : src.alias_ = a) (e : Node) (hshape : JoinShape e)
    (hplain : ∀ t ∈ joinIdentities e, (identLR t).2.2 = true → (identLR t).1 = a →
      strings.Contains (identLR t).2.1 ['.'] = false)
    (cols : List Column) (hcols : ∀ c ∈ cols, c.LeftRight.1.2.2 = false) :
    ∀ t ∈ joinIdentities e, (identLR t).2.2 = true → (identLR t).1 = a →
      ∃ d ∈ columnsFromNode identLR src e cols, d.As = (identLR t).2.1 := by
  subst ha
  exact (columnsFromNode_spec identLR src e hshape hplain cols hcols).2.2

/-- C18: for a source with no previously rewritten columns whose join predicate
is built from identities combined by `=`, `==`, AND and OR, and for every
parent SELECT, the statement `Rewrite` returns has, for each identity of the
predicate that is qualified by the alias of the source, a column named by the
right part of the identity.  Right parts are plain names: those of the
qualified parent columns and of the identities in question contain no `.`. -/
theorem Rewrite_has_join_columns (identLR : Str → Str × Str × Bool) (m : SqlSource)
    (stmt : SqlSelect) (e : Node)
    (hjoin : m.JoinExpr = some e) (hshape : JoinShape e) (hcols : m.Columns = [])
    (hplainId : ∀ t ∈ joinIdentities e, (identLR t).2.2 = true → (identLR t).1 = m.alias_ →
      strings.Contains (identLR t).2.1 ['.'] = false)
    (hplainCol : ∀ pc ∈ stmt.Columns, pc.LeftRight.1.2.2 = true →
      strings.Contains pc.LeftRight.1.2.1 ['.'] = false) :
    ∀ t ∈ joinIdentities e, (identLR t).2.2 = true → (identLR t).1 = m.alias_ →
      ∃ c ∈ (m.Rewrite identLR stmt).1.Columns, c.As = (identLR t).2.1 := by
  have he : Node.ofOption m.JoinExpr = e := by rw [hjoin]; rfl
  by_cases hstar : stmt.Star = true
  · rw [SqlSource.Rewrite_columns_star identLR m stmt hstar, he, hcols]
    refine columnsFromNode_has_join_columns identLR _ m.alias_ ?_ e hshape hplainId [] ?_
    · rfl
    · simp
  · have hstar1 : stmt.Star = false := by simpa using hstar
    rw [SqlSource.Rewrite_columns identLR m stmt hstar1, he]
    refine columnsFromNode_has_join_columns identLR _ m.alias_ ?_ e hshape hplainId _ ?_
    · rfl
    intro c hc
    obtain ⟨pc, hpc, hsome⟩ := List.mem_filterMap.mp hc
    exact rewriteColumn_not_qualified identLR m pc c (hplainCol pc hpc) hsome

theorem Rewrite_has_join_columns_witness :
    usersJoined.JoinExpr = some joinOnUserId ∧ usersJoined.Columns = [] ∧
    identLeftRight "u.user_id".toList = (usersJoined.alias_, "user_id".toList, true) ∧
    ∃ c ∈ (usersJoined.Rewrite identLeftRight selectJoin).1.Columns,
      c.As = "user_id".toList :=
  ⟨rfl, rfl, by decide,
   Rewrite_has_join_columns identLeftRight usersJoined selectJoin joinOnUserId rfl
    (JoinShape.binary _ _ _ (Or.inr (Or.inr (Or.inl rfl)))
      (JoinShape.identity _) (JoinShape.identity _))
    rfl
    (by
      intro t ht _ _
      simp only [joinOnUserId, joinIdentities, List.cons_append, List.nil_append,
        List.mem_cons, List.mem_singleton, List.not_mem_nil, or_false] at ht
      rcases ht with h | h <;> subst h <;> decide)
    (by
      intro pc hpc _
      simp only [selectJoin, mkSelect, List.mem_cons, List.mem_singleton, List.not_mem_nil,
        or_false] at hpc
      rcases hpc with h | h <;> subst h <;> decide)
    "u.user_id".toList (by simp [joinOnUserId, joinIdentities]) (by decide) (by decide)⟩

/-! ## The hash join -/

theorem mapGet_of_mem {β : Type} (m : StrMap β) (k : Str) (v : β)
    (hnd : (mapKeys m).Nodup) (h : (k, v) ∈ m) : mapGet m k = some v := by
  induction m with
  | nil => cases h
  | cons hd t ih =>
    obtain ⟨a, b⟩ := hd
    have h2 : a ∉ mapKeys t ∧ (mapKeys t).Nodup := by
      simpa only [mapKeys_cons, List.nodup_cons] using hnd
    rcases List.mem_cons.mp h with h1 | h1
    · cases h1
      simp [mapGet]
    · have hk : k ∈ mapKeys t := List.mem_map.mpr ⟨(k, v), h1, rfl⟩
      have hne : ¬ a = k := fun e => h2.1 (e ▸ hk)
      simp only [mapGet, hne, if_false]
      exact ih h2.2 h1

theorem joinKey_drainStep (vmEval : MsgBody → Node → Option Value) (expr : Node)
    (h : StrMap (List Message)) (msg : Message) :
    drainStep vmEval expr h msg =
      match joinKey vmEval expr msg with
      | some jv => mapSet h jv ((mapGet h jv).getD [] ++ [msg])
      | none => h := by
  unfold drainStep joinKey
  cases joinValue vmEval expr (some msg) with
  | nilDereference => rfl
  | indexOutOfRange => rfl
  | ret p =>
    obtain ⟨jv, ok⟩ := p
    cases ok <;> rfl

theorem drain_keys_nodup (vmEval : MsgBody → Node → Option Value) (expr : Node)
    (msgs : List Message) : ∀ acc : StrMap (List Message), (mapKeys acc).Nodup →
    (mapKeys (msgs.foldl (drainStep vmEval expr) acc)).Nodup := by
  induction msgs with
  | nil => intro acc h; exact h
  | cons m rest ih =>
    intro acc h
    simp only [List.foldl_cons]
    apply ih
    rw [joinKey_drainStep]
    cases joinKey vmEval expr m with
    | none => exact h
    | some jv => exact mapKeys_mapSet_nodup _ _ _ h

/-- The entry of the hash table for the key `k`: the rows with this key, in the
order they were read. -/
theorem drain_get (vmEval : MsgBody → Node → Option Value) (expr : Node) (k : Str)
    (msgs : List Message) : ∀ acc : StrMap (List Message),
    mapGet (msgs.foldl (drainStep vmEval expr) acc) k =
      if rowsWithKey vmEval expr k msgs = [] then mapGet acc k
      else some ((mapGet acc k).getD [] ++ rowsWithKey vmEval expr k msgs) := by
  induction msgs with
  | nil => intro acc; simp [rowsWithKey]
  | cons m rest ih =>
    intro acc
    simp only [List.foldl_cons, ih, joinKey_drainStep]
    cases hk : joinKey vmEval expr m with
    | none =>
      have hr : rowsWithKey vmEval expr k (m :: rest) = rowsWithKey vmEval expr k rest := by
        simp [rowsWithKey, hk]
      rw [hr]
    | some jv =>
      by_cases hjk : jv = k
      · subst hjk
        have hr : rowsWithKey vmEval expr jv (m :: rest)
            = m :: rowsWithKey vmEval expr jv rest := by
          simp [rowsWithKey, hk]
        rw [hr]
        simp only [mapGet_mapSet, if_true, Option.getD_some, List.append_assoc,
          List.singleton_append]
        by_cases hre : rowsWithKey vmEval expr jv rest = []
        · simp [hre]
        · simp [hre]
      · have hr : rowsWithKey vmEval expr k (m :: rest) = rowsWithKey vmEval expr k rest := by
          have : ¬ (some jv = some k) := fun e => hjk (Option.some.inj e)
          simp [rowsWithKey, hk, hjk]
        rw [hr]
        simp only [mapGet_mapSet, hjk, if_false]

theorem drain_get_nil (vmEval : MsgBody → Node → Option Value) (expr : Node) (k : Str)
    (msgs : List Message) :
    mapGet (msgs.foldl (drainStep vmEval expr) []) k =
      if rowsWithKey vmEval expr k msgs = [] then none
      else some (rowsWithKey vmEval expr k msgs) := by
  rw [drain_get]
  simp [mapGet]

theorem rowsWithKey_eq_nil (vmEval : MsgBody → Node → Option Value) (expr : Node) (k : Str)
    (msgs : List Message) :
    rowsWithKey vmEval expr k msgs = [] ↔ k ∉ msgs.filterMap (joinKey vmEval expr) := by
  simp only [rowsWithKey, List.filter_eq_nil_iff, decide_eq_true_eq, List.mem_filterMap,
    not_exists, not_and]

theorem drain_keys (vmEval : MsgBody → Node → Option Value) (expr : Node) (k : Str)
    (msgs : List Message) :
    k ∈ mapKeys (msgs.foldl (drainStep vmEval expr) []) ↔
      k ∈ msgs.filterMap (joinKey vmEval expr) := by
  rw [← mapGet_isSome_iff, drain_get_nil]
  by_cases h : rowsWithKey vmEval expr k msgs = []
  · have := (rowsWithKey_eq_nil vmEval expr k msgs).mp h
    simp [h, this]
  · have := (rowsWithKey_eq_nil vmEval expr k msgs).not.mp h
    simp only [not_not] at this
    simp [h, this]

theorem mergeUvMsgs_length (lmsgs rmsgs : List Message) (cols : StrMap Column) :
    (mergeUvMsgs lmsgs rmsgs cols).length =
      (lmsgs.filter Message.isUrlValues).length * (rmsgs.filter Message.isUrlValues).length := by
  have hr : ∀ ld : UrlValues, (rmsgs.filterMap (fun rm =>
      match rm.Body with
      | MsgBody.ContextUrlValues rdata => some (reAlias (reAlias [] ld cols) rdata cols)
      | _ => none)).length = (rmsgs.filter Message.isUrlValues).length := by
    intro ld
    induction rmsgs with
    | nil => rfl
    | cons r rest ih =>
      obtain ⟨rid, rb⟩ := r
      cases rb <;> simp [List.filterMap_cons, List.filter_cons, Message.isUrlValues, ih]
  induction lmsgs with
  | nil => simp [mergeUvMsgs]
  | cons l rest ih =>
    obtain ⟨lid, lb⟩ := l
    unfold mergeUvMsgs at ih ⊢
    cases lb with
    | ContextUrlValues ld =>
      simp only [List.flatMap_cons, List.length_append, hr, ih, List.filter_cons,
        Message.isUrlValues, if_true, List.length_cons]
      ring
    | OtherReader d =>
      simp only [List.flatMap_cons, List.length_append, ih, List.filter_cons,
        Message.isUrlValues, List.length_nil]
      simp
    | NotReader d =>
      simp only [List.flatMap_cons, List.length_append, ih, List.filter_cons,
        Message.isUrlValues, List.length_nil]
      simp

open Finset in
/-- The number of rows the match phase sends, for the hash tables the two drain
loops build. -/
theorem joinMatches_length (vmEval : MsgBody → Node → Option Value) (lhExpr rhExpr : Node)
    (cols : StrMap Column) (leftIn rightIn : List Message) :
    (joinMatches cols (leftIn.foldl (drainStep vmEval lhExpr) [])
        (rightIn.foldl (drainStep vmEval rhExpr) [])).length =
      ∑ k ∈ (leftIn.filterMap (joinKey vmEval lhExpr)).toFinset ∩
          (rightIn.filterMap (joinKey vmEval rhExpr)).toFinset,
        ((rowsWithKey vmEval lhExpr k leftIn).filter Message.isUrlValues).length *
        ((rowsWithKey vmEval rhExpr k rightIn).filter Message.isUrlValues).length := by
  have hnd := drain_keys_nodup vmEval lhExpr leftIn [] List.nodup_nil
  rw [← Finset.sum_ite_mem]
  have hkeys : (leftIn.filterMap (joinKey vmEval lhExpr)).toFinset
      = (mapKeys (leftIn.foldl (drainStep vmEval lhExpr) [])).toFinset := by
    ext k
    simp only [List.mem_toFinset]
    exact (drain_keys vmEval lhExpr k leftIn).symm
  rw [hkeys, List.sum_toFinset _ hnd]
  unfold joinMatches mapKeys
  rw [List.length_flatMap, List.map_map]
  congr 1
  apply List.map_congr_left
  intro kv hkv
  obtain ⟨k, v⟩ := kv
  have hget := mapGet_of_mem _ k v hnd hkv
  rw [drain_get_nil] at hget
  have hv : rowsWithKey vmEval lhExpr k leftIn = v := by
    by_cases hl : rowsWithKey vmEval lhExpr k leftIn = []
    · rw [if_pos hl] at hget
      cases hget
    · rw [if_neg hl] at hget
      exact Option.some.inj hget
  simp only [Function.comp, drain_get_nil, List.mem_toFinset]
  by_cases hr : rowsWithKey vmEval rhExpr k rightIn = []
  · have hnot := (rowsWithKey_eq_nil vmEval rhExpr k rightIn).mp hr
    simp [hr, hnot]
  · have hmem : k ∈ rightIn.filterMap (joinKey vmEval rhExpr) := by
      have := (rowsWithKey_eq_nil vmEval rhExpr k rightIn).not.mp hr
      simpa using this
    simp only [hr, if_false, List.length_map, mergeUvMsgs_length, hmem, if_true, hv]

/-- C19 fails as stated: with the left row `readerRow`, whose body is a context
reader but no `ContextUrlValues`, the key `1` is on both sides with one left row
and two right rows, so the sum of the claim is 2, and the join, which runs
without error, sends no row. -/
theorem SourceJoin_skips_other_readers :
    joinKey sampleEval (Node.IdentityNode "user_id".toList) readerRow = some "1".toList ∧
    claimedRowCount sampleEval (Node.IdentityNode "user_id".toList)
      (Node.IdentityNode "user_id".toList) [readerRow] ordersRows = 2 ∧
    scenarioReader.1 = Outcome.ret none ∧
    scenarioReader.2.length = 0 := by
  refine ⟨by decide, ?_, by decide, by decide⟩
  decide

/-- C19 (amended): a join that gets past `JoinValueExpr` returns no error, and
the number of rows it sends is the sum, over the join keys `k` present on both
sides, of the number of left rows with key `k` whose body is a
`ContextUrlValues` times the number of such right rows; it sends no row when
the two sides share no key. -/
theorem SourceJoin_row_count (identLR : Str → Str × Str × Bool)
    (isSimple : Token → Node → Node → Bool) (nodeString : Node → Str)
    (vmEval : MsgBody → Node → Option Value) (leftStmt rightStmt : SqlSource)
    (lhExpr rhExpr : Node) (leftIn rightIn : List Message)
    (hl : leftStmt.JoinValueExpr identLR isSimple nodeString
      = Outcome.ret (some lhExpr, none))
    (hr : rightStmt.JoinValueExpr identLR isSimple nodeString
      = Outcome.ret (some rhExpr, none)) :
    (SourceJoin.Run identLR isSimple nodeString vmEval leftStmt rightStmt leftIn rightIn).1
      = Outcome.ret none ∧
    (SourceJoin.Run identLR isSimple nodeString vmEval leftStmt rightStmt leftIn rightIn).2.length
      = ∑ k ∈ (leftIn.filterMap (joinKey vmEval lhExpr)).toFinset ∩
          (rightIn.filterMap (joinKey vmEval rhExpr)).toFinset,
        ((rowsWithKey vmEval lhExpr k leftIn).filter Message.isUrlValues).length *
        ((rowsWithKey vmEval rhExpr k rightIn).filter Message.isUrlValues).length ∧
    ((∀ k, k ∈ leftIn.filterMap (joinKey vmEval lhExpr) →
        k ∉ rightIn.filterMap (joinKey vmEval rhExpr)) →
      (SourceJoin.Run identLR isSimple nodeString vmEval leftStmt rightStmt leftIn rightIn).2
        = []) := by
  have hrun : SourceJoin.Run identLR isSimple nodeString vmEval leftStmt rightStmt leftIn rightIn
      = (Outcome.ret none, joinMatches leftStmt.UnAliasedColumns
          (leftIn.foldl (drainStep vmEval lhExpr) [])
          (rightIn.foldl (drainStep vmEval rhExpr) [])) := by
    simp [SourceJoin.Run, hl, hr, Node.ofOption]
  rw [hrun]
  refine ⟨rfl, joinMatches_length vmEval lhExpr rhExpr _ leftIn rightIn, ?_⟩
  intro hdisj
  apply List.eq_nil_of_length_eq_zero
  rw [joinMatches_length vmEval lhExpr rhExpr _ leftIn rightIn]
  have hempty : (leftIn.filterMap (joinKey vmEval lhExpr)).toFinset ∩
      (rightIn.filterMap (joinKey vmEval rhExpr)).toFinset = ∅ := by
    ext k
    simp only [Finset.mem_inter, List.mem_toFinset, Finset.not_mem_empty, iff_false, not_and]
    exact hdisj k
  rw [hempty, Finset.sum_empty]

theorem SourceJoin_row_count_witness :
    (SourceJoin.Run identLeftRight isSimpleEquality sampleNodeString sampleEval scenarioLeft
      scenarioRight usersRows ordersRows).1 = Outcome.ret none ∧
    (SourceJoin.Run identLeftRight isSimpleEquality sampleNodeString sampleEval scenarioLeft
      scenarioRight usersRows ordersRows).2.length = 2 :=
  ⟨(SourceJoin_row_count identLeftRight isSimpleEquality sampleNodeString sampleEval
      scenarioLeft scenarioRight (Node.IdentityNode "user_id".toList)
      (Node.IdentityNode "user_id".toList) usersRows ordersRows rfl rfl).1,
   (SourceJoin_row_count identLeftRight isSimpleEquality sampleNodeString sampleEval
      scenarioLeft scenarioRight (Node.IdentityNode "user_id".toList)
      (Node.IdentityNode "user_id".toList) usersRows ordersRows rfl rfl).2.1.trans
      (by decide)⟩

/-! ## Re-aliasing of joined rows -/

theorem reAlias_get (cols : StrMap Column) (n : Str) (vals : UrlValues) :
    ∀ m : UrlValues, mapGet (reAlias m vals cols) n =
      match lastAliased cols n vals with
      | some w => some w
      | none => mapGet m n := by
  induction vals with
  | nil => intro m; rfl
  | cons kv rest ih =>
    intro m
    have hstep : reAlias m (kv :: rest) cols
        = reAlias (match mapGet cols kv.1 with
            | none => m
            | some col => mapSet m col.As kv.2) rest cols := rfl
    rw [hstep, ih]
    simp only [lastAliased]
    cases lastAliased cols n rest with
    | some w => rfl
    | none =>
      cases hc : mapGet cols kv.1 with
      | none => rfl
      | some col =>
        simp only [mapGet_mapSet]
        by_cases hn : col.As = n <;> simp [hn]

theorem lastAliased_eq_none (cols : StrMap Column) (n : Str) (vals : UrlValues) :
    lastAliased cols n vals = none ↔
      ∀ k v col, (k, v) ∈ vals → mapGet cols k = some col → col.As ≠ n := by
  induction vals with
  | nil => simp [lastAliased]
  | cons kv rest ih =>
    obtain ⟨k0, v0⟩ := kv
    simp only [lastAliased]
    constructor
    · intro h k v col hmem hcol
      cases hr : lastAliased cols n rest with
      | some w => rw [hr] at h; cases h
      | none =>
        rw [hr] at h
        rcases List.mem_cons.mp hmem with h1 | h1
        · cases h1
          simp only [hcol] at h
          intro hn
          simp [hn] at h
        · exact ih.mp hr k v col h1 hcol
    · intro h
      have hrest : lastAliased cols n rest = none :=
        ih.mpr (fun k v col hmem hcol => h k v col (List.mem_cons_of_mem _ hmem) hcol)
      rw [hrest]
      cases hc : mapGet cols k0 with
      | none => rfl
      | some col =>
        have := h k0 v0 col (List.mem_cons_self _ _) hc
        simp [this]

theorem lastAliased_eq_some (cols : StrMap Column) (n : Str) (vals : UrlValues)
    (w : List Str) (h : lastAliased cols n vals = some w) :
    ∃ k col, (k, w) ∈ vals ∧ mapGet cols k = some col ∧ col.As = n := by
  induction vals with
  | nil => simp [lastAliased] at h
  | cons kv rest ih =>
    obtain ⟨k0, v0⟩ := kv
    simp only [lastAliased] at h
    cases hr : lastAliased cols n rest with
    | some w1 =>
      rw [hr] at h
      simp only [Option.some.injEq] at h
      subst h
      obtain ⟨k, col, hmem, hcol, hn⟩ := ih hr
      exact ⟨k, col, List.mem_cons_of_mem _ hmem, hcol, hn⟩
    | none =>
      rw [hr] at h
      cases hc : mapGet cols k0 with
      | none => rw [hc] at h; cases h
      | some col =>
        rw [hc] at h
        by_cases hn : col.As = n
        · simp only [hn, if_true, Option.some.injEq] at h
          subst h
          exact ⟨k0, col, List.mem_cons_self _ _, hc, hn⟩
        · simp [hn] at h

/-- The values a joined row holds under the name `n`: those of the last field of
the right row re-aliased to `n`, else those of the last such field of the left
row. -/
theorem merged_get (cols : StrMap Column) (ldata rdata : UrlValues) (n : Str) :
    mapGet (reAlias (reAlias [] ldata cols) rdata cols) n =
      match lastAliased cols n rdata with
      | some w => some w
      | none => lastAliased cols n ldata := by
  rw [reAlias_get, reAlias_get]
  cases lastAliased cols n rdata with
  | some w => rfl
  | none =>
    cases lastAliased cols n ldata with
    | some w => rfl
    | none => rfl

/-- C20 fails as stated: with the column map of `SELECT u.name, o.name ...` the
field `name` is a key of the map, re-aliased to `o.name`; for a left row with
`name = alice` and a right row with `name = widget` the emitted row holds only
`widget` under `o.name`, and the values of the left row's field are not in it. -/
theorem mergeUvMsgs_right_overwrites_left :
    (mapGet selectTwoNames.UnAliasedColumns.1 "name".toList).map (fun c => c.As)
      = some "o.name".toList ∧
    mergeUvMsgs [uvRow [("name", "alice")]] [uvRow [("name", "widget")]]
        selectTwoNames.UnAliasedColumns.1
      = [[("o.name".toList, ["widget".toList])]] := by
  decide

theorem Message.urlValues_eq_some (m : Message) (d : UrlValues) :
    m.urlValues = some d ↔ m.Body = MsgBody.ContextUrlValues d := by
  obtain ⟨i, b⟩ := m
  cases b <;> simp [Message.urlValues]

/-- The rows `mergeUvMsgs` builds: one for every pair of a left and a right
message with bodies `ContextUrlValues`, left rows first, in the order of the
two lists. -/
theorem mergeUvMsgs_pairs (lmsgs rmsgs : List Message) (cols : StrMap Column) :
    mergeUvMsgs lmsgs rmsgs cols =
      (lmsgs.filterMap Message.urlValues).flatMap (fun ld =>
        (rmsgs.filterMap Message.urlValues).map (fun rd =>
          reAlias (reAlias [] ld cols) rd cols)) := by
  have hr : ∀ ld : UrlValues, rmsgs.filterMap (fun rm =>
      match rm.Body with
      | MsgBody.ContextUrlValues rdata => some (reAlias (reAlias [] ld cols) rdata cols)
      | _ => none) = (rmsgs.filterMap Message.urlValues).map (fun rd =>
          reAlias (reAlias [] ld cols) rd cols) := by
    intro ld
    induction rmsgs with
    | nil => rfl
    | cons r rest ih =>
      obtain ⟨rid, rb⟩ := r
      cases rb <;> simp [List.filterMap_cons, Message.urlValues, ih]
  unfold mergeUvMsgs
  simp only [hr]
  induction lmsgs with
  | nil => rfl
  | cons l rest ih =>
    obtain ⟨lid, lb⟩ := l
    cases lb with
    | ContextUrlValues ld =>
      simp only [List.flatMap_cons, ih, List.filterMap_cons, Message.urlValues]
    | OtherReader d =>
      simp only [List.flatMap_cons, ih, List.filterMap_cons, Message.urlValues,
        List.nil_append]
    | NotReader d =>
      simp only [List.flatMap_cons, ih, List.filterMap_cons, Message.urlValues,
        List.nil_append]

/-- The rows the match phase sends for the hash tables the two drain loops
build: key by key, in the order of the keys of the left table, a row for every
pair of a left and a right row with that key. -/
theorem joinMatches_pairs (vmEval : MsgBody → Node → Option Value) (lhExpr rhExpr : Node)
    (cols : StrMap Column) (leftIn rightIn : List Message) :
    joinMatches cols (leftIn.foldl (drainStep vmEval lhExpr) [])
        (rightIn.foldl (drainStep vmEval rhExpr) []) =
      (mapKeys (leftIn.foldl (drainStep vmEval lhExpr) [])).flatMap (fun k =>
        ((rowsWithKey vmEval lhExpr k leftIn).filterMap Message.urlValues).flatMap (fun ld =>
          ((rowsWithKey vmEval rhExpr k rightIn).filterMap Message.urlValues).map (fun rd =>
            Message.mk 0 (MsgBody.ContextUrlValues (reAlias (reAlias [] ld cols) rd cols))))) := by
  have hnd := drain_keys_nodup vmEval lhExpr leftIn [] List.nodup_nil
  unfold joinMatches mapKeys
  rw [List.flatMap_map]
  apply List.flatMap_congr
  intro kv hkv
  obtain ⟨k, v⟩ := kv
  have hget := mapGet_of_mem _ k v hnd hkv
  rw [drain_get_nil] at hget
  have hv : rowsWithKey vmEval lhExpr k leftIn = v := by
    by_cases hl : rowsWithKey vmEval lhExpr k leftIn = []
    · rw [if_pos hl] at hget
      cases hget
    · rw [if_neg hl] at hget
      exact Option.some.inj hget
  simp only [drain_get_nil]
  by_cases hr : rowsWithKey vmEval rhExpr k rightIn = []
  · simp [hr]
  · simp only [hr, if_false, mergeUvMsgs_pairs, hv, List.map_flatMap, List.map_map]
    rfl

theorem rowsWithKey_urlValues_mem (vmEval : MsgBody → Node → Option Value) (expr : Node)
    (k : Str) (msgs : List Message) (d : UrlValues) :
    d ∈ (rowsWithKey vmEval expr k msgs).filterMap Message.urlValues ↔
      ∃ m ∈ msgs, joinKey vmEval expr m = some k ∧ m.Body = MsgBody.ContextUrlValues d := by
  simp only [rowsWithKey, List.mem_filterMap, List.mem_filter, decide_eq_true_eq,
    Message.urlValues_eq_some, and_assoc]

/-- C20 (amended): a join that gets past `JoinValueExpr` sends, for an
enumeration without repetition of the join keys of the left side, key by key,
one row for every pair of a left row and a right row that have this key and
bodies `ContextUrlValues`, left rows first, in input order; so a row is sent if
and only if it is built from such a pair.  `mergeUvMsgs` builds one row for
every pair of its two lists.  The row of a pair is the re-aliasing of both rows
against `cols`: its fields are exactly the names `cols[k].As` of the fields `k`
of either row that are keys of `cols`; under `cols[k].As` it holds the values
of a field `k` of the right row, and those of a field `k` of the left row when
no field of the right row is re-aliased to the same name (as long as the fields
of one row that are re-aliased to one name carry the same values).  For
Scenario A the rows sent are `(alice, book)` and `(alice, pen)`. -/
theorem mergeUvMsgs_reAliases (identLR : Str → Str × Str × Bool)
    (isSimple : Token → Node → Node → Bool) (nodeString : Node → Str)
    (vmEval : MsgBody → Node → Option Value) (leftStmt rightStmt : SqlSource)
    (lhExpr rhExpr : Node) (leftIn rightIn : List Message)
    (hl : leftStmt.JoinValueExpr identLR isSimple nodeString
      = Outcome.ret (some lhExpr, none))
    (hr : rightStmt.JoinValueExpr identLR isSimple nodeString
      = Outcome.ret (some rhExpr, none)) :
    (∃ keys : List Str, keys.Nodup ∧
      (∀ k, k ∈ keys ↔ k ∈ leftIn.filterMap (joinKey vmEval lhExpr)) ∧
      (SourceJoin.Run identLR isSimple nodeString vmEval leftStmt rightStmt leftIn rightIn).2
        = keys.flatMap (fun k =>
          ((rowsWithKey vmEval lhExpr k leftIn).filterMap Message.urlValues).flatMap (fun ld =>
            ((rowsWithKey vmEval rhExpr k rightIn).filterMap Message.urlValues).map (fun rd =>
              Message.mk 0 (MsgBody.ContextUrlValues
                (reAlias (reAlias [] ld leftStmt.UnAliasedColumns) rd
                  leftStmt.UnAliasedColumns)))))) ∧
    (∀ msg, msg ∈ (SourceJoin.Run identLR isSimple nodeString vmEval leftStmt rightStmt
        leftIn rightIn).2 ↔
      ∃ lm ∈ leftIn, ∃ rm ∈ rightIn, ∃ k ld rd,
        joinKey vmEval lhExpr lm = some k ∧ joinKey vmEval rhExpr rm = some k ∧
        lm.Body = MsgBody.ContextUrlValues ld ∧ rm.Body = MsgBody.ContextUrlValues rd ∧
        msg = Message.mk 0 (MsgBody.ContextUrlValues
          (reAlias (reAlias [] ld leftStmt.UnAliasedColumns) rd leftStmt.UnAliasedColumns))) ∧
    (∀ (cols : StrMap Column) (lmsgs rmsgs : List Message),
      mergeUvMsgs lmsgs rmsgs cols =
        (lmsgs.filterMap Message.urlValues).flatMap (fun ld =>
          (rmsgs.filterMap Message.urlValues).map (fun rd =>
            reAlias (reAlias [] ld cols) rd cols))) ∧
    (∀ (cols : StrMap Column) (ldata rdata : UrlValues),
      (∀ n, n ∈ mapKeys (reAlias (reAlias [] ldata cols) rdata cols) ↔
        ∃ k v col, ((k, v) ∈ ldata ∨ (k, v) ∈ rdata) ∧ mapGet cols k = some col ∧
          col.As = n) ∧
      (∀ k v col, (k, v) ∈ rdata → mapGet cols k = some col →
        (∀ k1 v1 col1, (k1, v1) ∈ rdata → mapGet cols k1 = some col1 → col1.As = col.As →
          v1 = v) →
        mapGet (reAlias (reAlias [] ldata cols) rdata cols) col.As = some v) ∧
      (∀ k v col, (k, v) ∈ ldata → mapGet cols k = some col →
        (∀ k1 v1 col1, (k1, v1) ∈ rdata → mapGet cols k1 = some col1 → col1.As ≠ col.As) →
        (∀ k1 v1 col1, (k1, v1) ∈ ldata → mapGet cols k1 = some col1 → col1.As = col.As →
          v1 = v) →
        mapGet (reAlias (reAlias [] ldata cols) rdata cols) col.As = some v)) ∧
    scenarioA = (Outcome.ret none,
      [Message.mk 0 (MsgBody.ContextUrlValues
        [("u.name".toList, ["alice".toList]), ("o.item".toList, ["book".toList])]),
       Message.mk 0 (MsgBody.ContextUrlValues
        [("u.name".toList, ["alice".toList]), ("o.item".toList, ["pen".toList])])]) := by
  have hrun : SourceJoin.Run identLR isSimple nodeString vmEval leftStmt rightStmt leftIn rightIn
      = (Outcome.ret none, joinMatches leftStmt.UnAliasedColumns
          (leftIn.foldl (drainStep vmEval lhExpr) [])
          (rightIn.foldl (drainStep vmEval rhExpr) [])) := by
    simp [SourceJoin.Run, hl, hr, Node.ofOption]
  rw [hrun]
  refine ⟨⟨mapKeys (leftIn.foldl (drainStep vmEval lhExpr) []),
      drain_keys_nodup vmEval lhExpr leftIn [] List.nodup_nil,
      fun k => drain_keys vmEval lhExpr k leftIn,
      joinMatches_pairs vmEval lhExpr rhExpr _ leftIn rightIn⟩, ?_,
    fun cols lmsgs rmsgs => mergeUvMsgs_pairs lmsgs rmsgs cols, ?_, by decide⟩
  · intro msg
    simp only [joinMatches_pairs, List.mem_flatMap, List.mem_map, drain_keys,
      rowsWithKey_urlValues_mem]
    constructor
    · rintro ⟨k, _, ld, ⟨lm, hlm, hlk, hlb⟩, rd, ⟨rm, hrm, hrk, hrb⟩, hmsg⟩
      exact ⟨lm, hlm, rm, hrm, k, ld, rd, hlk, hrk, hlb, hrb, hmsg.symm⟩
    · rintro ⟨lm, hlm, rm, hrm, k, ld, rd, hlk, hrk, hlb, hrb, hmsg⟩
      exact ⟨k, List.mem_filterMap.mpr ⟨lm, hlm, hlk⟩, ld, ⟨lm, hlm, hlk, hlb⟩, rd,
        ⟨rm, hrm, hrk, hrb⟩, hmsg.symm⟩
  · intro cols ldata rdata
    refine ⟨?_, ?_, ?_⟩
    · intro n
      rw [← mapGet_isSome_iff, merged_get]
      constructor
      · intro h
        cases hr : lastAliased cols n rdata with
        | some w =>
          obtain ⟨k, col, hmem, hcol, hn⟩ := lastAliased_eq_some cols n rdata w hr
          exact ⟨k, w, col, Or.inr hmem, hcol, hn⟩
        | none =>
          rw [hr] at h
          simp only at h
          obtain ⟨w, hw⟩ := Option.isSome_iff_exists.mp h
          obtain ⟨k, col, hmem, hcol, hn⟩ := lastAliased_eq_some cols n ldata w hw
          exact ⟨k, w, col, Or.inl hmem, hcol, hn⟩
      · rintro ⟨k, v, col, hmem, hcol, hn⟩
        cases hr : lastAliased cols n rdata with
        | some w => rfl
        | none =>
          simp only
          rcases hmem with hmem | hmem
          · cases hl : lastAliased cols n ldata with
            | some w => rfl
            | none =>
              exact absurd hn ((lastAliased_eq_none cols n ldata).mp hl k v col hmem hcol)
          · exact absurd hn ((lastAliased_eq_none cols n rdata).mp hr k v col hmem hcol)
    · intro k v col hmem hcol huniq
      rw [merged_get]
      cases hr : lastAliased cols col.As rdata with
      | some w =>
        obtain ⟨k1, col1, hmem1, hcol1, hn1⟩ := lastAliased_eq_some cols col.As rdata w hr
        rw [huniq k1 w col1 hmem1 hcol1 hn1]
      | none =>
        exact absurd rfl ((lastAliased_eq_none cols col.As rdata).mp hr k v col hmem hcol)
    · intro k v col hmem hcol hright huniq
      rw [merged_get]
      have hr : lastAliased cols col.As rdata = none :=
        (lastAliased_eq_none cols col.As rdata).mpr hright
      rw [hr]
      simp only
      cases hl : lastAliased cols col.As ldata with
      | some w =>
        obtain ⟨k1, col1, hmem1, hcol1, hn1⟩ := lastAliased_eq_some cols col.As ldata w hl
        rw [huniq k1 w col1 hmem1 hcol1 hn1]
      | none =>
        exact absurd rfl ((lastAliased_eq_none cols col.As ldata).mp hl k v col hmem hcol)

theorem mergeUvMsgs_reAliases_witness :
    scenarioLeft.JoinValueExpr identLeftRight isSimpleEquality sampleNodeString
      = Outcome.ret (some (Node.IdentityNode "user_id".toList), none) ∧
    scenarioRight.JoinValueExpr identLeftRight isSimpleEquality sampleNodeString
      = Outcome.ret (some (Node.IdentityNode "user_id".toList), none) ∧
    Message.mk 0 (MsgBody.ContextUrlValues
        [("u.name".toList, ["carol".toList]), ("o.item".toList, ["pen".toList])])
      ∈ (SourceJoin.Run identLeftRight isSimpleEquality sampleNodeString sampleEval
          scenarioLeft scenarioRight usersRowsShared ordersRows).2 :=
  ⟨rfl, rfl,
   ((mergeUvMsgs_reAliases identLeftRight isSimpleEquality sampleNodeString sampleEval
      scenarioLeft scenarioRight (Node.IdentityNode "user_id".toList)
      (Node.IdentityNode "user_id".toList) usersRowsShared ordersRows rfl rfl).2.1 _).mpr
    ⟨uvRow [("user_id", "1"), ("name", "carol")], by decide,
     uvRow [("user_id", "1"), ("item", "pen")], by decide,
     "1".toList, [("user_id".toList, ["1".toList]), ("name".toList, ["carol".toList])],
     [("user_id".toList, ["1".toList]), ("item".toList, ["pen".toList])],
     by decide, by decide, rfl, rfl, by rfl⟩⟩

/-- The join of Scenario A with a second user under the id 1: every left row
with the key 1 is paired with every right row with the key 1. -/
theorem SourceJoin_two_left_rows :
    SourceJoin.Run identLeftRight isSimpleEquality sampleNodeString sampleEval
        scenarioLeft scenarioRight usersRowsShared ordersRows
      = (Outcome.ret none,
        [Message.mk 0 (MsgBody.ContextUrlValues
          [("u.name".toList, ["alice".toList]), ("o.item".toList, ["book".toList])]),
         Message.mk 0 (MsgBody.ContextUrlValues
          [("u.name".toList, ["alice".toList]), ("o.item".toList, ["pen".toList])]),
         Message.mk 0 (MsgBody.ContextUrlValues
          [("u.name".toList, ["carol".toList]), ("o.item".toList, ["book".toList])]),
         Message.mk 0 (MsgBody.ContextUrlValues
          [("u.name".toList, ["carol".toList]), ("o.item".toList, ["pen".toList])])]) := by
  decide

/-- With the lowercase alias of Scenario A the two comparisons of `Rewrite`
agree: the statement rewritten for `users AS u` has the column `name` with its
expression, and the column `user_id` of the join predicate. -/
theorem Rewrite_selectJoin :
    rewrittenFirst selectJoin = [("name".toList, true), ("user_id".toList, true)] := by
  decide

/-! ## Sequence ids, join keys and construction of the join -/

/-- Every message the match phase sends has the id 0. -/
theorem joinMatches_ids (cols : StrMap Column) (lh rh : StrMap (List Message)) :
    ∀ msg ∈ joinMatches cols lh rh, msg.Id = 0 := by
  intro msg hmsg
  unfold joinMatches at hmsg
  obtain ⟨kv, _, hin⟩ := List.mem_flatMap.mp hmsg
  cases hr : mapGet rh kv.1 with
  | none => rw [hr] at hin; cases hin
  | some valRight =>
    rw [hr] at hin
    obtain ⟨d, _, rfl⟩ := List.mem_map.mp hin
    rfl

/-- C21: Scenario A emits two rows and both carry the sequence id 0: the
counter `i` of `SourceJoin.Run` is passed to every message and never
incremented. -/
theorem SourceJoin_ids_not_incremented :
    scenarioA.1 = Outcome.ret none ∧
    scenarioA.2.length = 2 ∧
    scenarioA.2.map (fun msg => msg.Id) = [0, 0] := by
  decide

/-- The table a drain loop builds does not change when the rows without join
key are left out. -/
theorem drain_filter (vmEval : MsgBody → Node → Option Value) (expr : Node)
    (msgs : List Message) : ∀ acc : StrMap (List Message),
    msgs.foldl (drainStep vmEval expr) acc =
      (msgs.filter (fun m => (joinKey vmEval expr m).isSome)).foldl
        (drainStep vmEval expr) acc := by
  induction msgs with
  | nil => intro acc; rfl
  | cons m rest ih =>
    intro acc
    cases hk : joinKey vmEval expr m with
    | none =>
      have hstep : drainStep vmEval expr acc m = acc := by
        rw [joinKey_drainStep, hk]
      simp only [List.foldl_cons, hstep, List.filter_cons, hk, Option.isSome_none,
        Bool.false_eq_true, if_false]
      exact ih acc
    | some jv =>
      simp only [List.foldl_cons, List.filter_cons, hk, Option.isSome_some, if_true]
      exact ih _

/-- C22: for a message that is not nil, `joinValue` yields the key `v` exactly
when the body of the message is a context reader and the VM evaluates the
expression on it to the string `v`; in every other case (evaluation fails, the
value is no string) it yields no key.  A row without key changes neither hash
table, and the join sends the rows it sends without that row. -/
theorem joinValue_key (identLR : Str → Str × Str × Bool)
    (isSimple : Token → Node → Node → Bool) (nodeString : Node → Str)
    (vmEval : MsgBody → Node → Option Value) (node : Node) (msg : Message) :
    (∀ v, joinValue vmEval node (some msg) = Outcome.ret (v, true) ↔
      (msg.Body.isContextReader = true ∧ vmEval msg.Body node = some (Value.StringValue v))) ∧
    ((¬ ∃ v, msg.Body.isContextReader = true ∧
        vmEval msg.Body node = some (Value.StringValue v)) →
      joinValue vmEval node (some msg) = Outcome.ret ([], false)) ∧
    (joinKey vmEval node msg = none →
      (∀ h : StrMap (List Message), drainStep vmEval node h msg = h) ∧
      ∀ (leftStmt rightStmt : SqlSource) (other before after : List Message),
        leftStmt.JoinValueExpr identLR isSimple nodeString = Outcome.ret (some node, none) →
        SourceJoin.Run identLR isSimple nodeString vmEval leftStmt rightStmt
            (before ++ msg :: after) other
          = SourceJoin.Run identLR isSimple nodeString vmEval leftStmt rightStmt
            (before ++ after) other) ∧
    (joinKey vmEval node msg = none →
      ∀ (leftStmt rightStmt : SqlSource) (other before after : List Message),
        rightStmt.JoinValueExpr identLR isSimple nodeString = Outcome.ret (some node, none) →
        SourceJoin.Run identLR isSimple nodeString vmEval leftStmt rightStmt
            other (before ++ msg :: after)
          = SourceJoin.Run identLR isSimple nodeString vmEval leftStmt rightStmt
            other (before ++ after)) := by
  refine ⟨?_, ?_, ?_, ?_⟩
  · intro v
    unfold joinValue
    by_cases hr : msg.Body.isContextReader = true
    · simp only [hr, if_true, true_and]
      cases he : vmEval msg.Body node with
      | none => simp
      | some val =>
        cases val with
        | StringValue w => simp
        | IntValue n => simp
        | OtherValue k => simp
    · simp [hr]
  · intro hno
    unfold joinValue
    by_cases hr : msg.Body.isContextReader = true
    · simp only [hr, if_true]
      cases he : vmEval msg.Body node with
      | none => rfl
      | some val =>
        cases val with
        | StringValue w => exact absurd ⟨w, hr, he⟩ hno
        | IntValue n => rfl
        | OtherValue k => rfl
    · simp [hr]
  · intro hk
    refine ⟨fun h => by rw [joinKey_drainStep, hk], ?_⟩
    intro leftStmt rightStmt other before after hl
    have hfold : ∀ acc : StrMap (List Message),
        (before ++ msg :: after).foldl (drainStep vmEval node) acc
          = (before ++ after).foldl (drainStep vmEval node) acc := by
      intro acc
      simp only [List.foldl_append, List.foldl_cons]
      rw [joinKey_drainStep vmEval node _ msg, hk]
    unfold SourceJoin.Run
    rw [hl]
    simp only [Node.ofOption, hfold]
  · intro hk leftStmt rightStmt other before after hr
    have hfold : ∀ acc : StrMap (List Message),
        (before ++ msg :: after).foldl (drainStep vmEval node) acc
          = (before ++ after).foldl (drainStep vmEval node) acc := by
      intro acc
      simp only [List.foldl_append, List.foldl_cons]
      rw [joinKey_drainStep vmEval node _ msg, hk]
    unfold SourceJoin.Run
    rw [hr]
    simp only [Node.ofOption, hfold]

theorem joinValue_key_witness :
    joinKey sampleEval (Node.IdentityNode "user_id".toList) intKeyRow = none ∧
    scenarioLeft.JoinValueExpr identLeftRight isSimpleEquality sampleNodeString
      = Outcome.ret (some (Node.IdentityNode "user_id".toList), none) ∧
    SourceJoin.Run identLeftRight isSimpleEquality sampleNodeString sampleEval scenarioLeft
        scenarioRight ([] ++ intKeyRow :: usersRows) ordersRows
      = SourceJoin.Run identLeftRight isSimpleEquality sampleNodeString sampleEval scenarioLeft
        scenarioRight ([] ++ usersRows) ordersRows :=
  ⟨by decide, rfl,
   ((joinValue_key identLeftRight isSimpleEquality sampleNodeString sampleEval
      (Node.IdentityNode "user_id".toList) intKeyRow).2.2.1 (by decide)).2
      scenarioLeft scenarioRight ordersRows [] usersRows rfl⟩

/-- Scenario E of the specification: the left row whose join value is the
integer 1 is dropped, and the rows of Scenario A are joined as before. -/
theorem scenario_E :
    (sampleEval intKeyRow.Body (Node.IdentityNode "user_id".toList)) = some (Value.IntValue 1) ∧
    SourceJoin.Run identLeftRight isSimpleEquality sampleNodeString sampleEval scenarioLeft
        scenarioRight (intKeyRow :: usersRows) ordersRows = scenarioA := by
  decide

theorem resolveScanner_without_override {V : Type} (lc : Char → Char)
    (dsOpen : V → Str → Option V × Option Str) (isScanner : V → Bool)
    (conf : RuntimeConfig V) (name : Str) (h : conf.singleConn = []) :
    resolveScanner lc dsOpen isScanner conf name =
      (Outcome.ret
        (match conf.Sources (strings.ToLower lc name) with
          | some v => if isScanner v then some v else none
          | none => none), conf) := by
  unfold resolveScanner RuntimeConfig.Conn
  rw [if_pos h]
  cases conf.Sources (strings.ToLower lc name) with
  | none => rfl
  | some v =>
    by_cases hs : isScanner v = true
    · simp [hs]
    · simp [hs]

/-- C23: without single-connection override `NewSourceJoin` returns the operator
bound to the two scanners, and no error, when both source names resolve through
`Conn` to something that supports scanning, and it returns no operator and the
error `Must Implement Scanner` when the left or the right name does not (in
particular when the registry does not know the name). -/
theorem NewSourceJoin_without_override {V : Type} (lc : Char → Char)
    (dsOpen : V → Str → Option V × Option Str) (isScanner : V → Bool)
    (leftFrom rightFrom : SqlSource) (conf : RuntimeConfig V) (h : conf.singleConn = []) :
    (∀ vl vr, conf.Sources (strings.ToLower lc leftFrom.Name) = some vl → isScanner vl = true →
      conf.Sources (strings.ToLower lc rightFrom.Name) = some vr → isScanner vr = true →
      (NewSourceJoin lc dsOpen isScanner leftFrom rightFrom conf).1
        = Outcome.ret (some (SourceJoin.mk leftFrom rightFrom vl vr), none)) ∧
    (((∀ vl, conf.Sources (strings.ToLower lc leftFrom.Name) = some vl → isScanner vl = false) ∨
      (∀ vr, conf.Sources (strings.ToLower lc rightFrom.Name) = some vr →
        isScanner vr = false)) →
      (NewSourceJoin lc dsOpen isScanner leftFrom rightFrom conf).1
        = Outcome.ret (none, some mustImplementScanner)) ∧
    (NewSourceJoin lc dsOpen isScanner leftFrom rightFrom conf).2 = conf := by
  have hl := resolveScanner_without_override lc dsOpen isScanner conf leftFrom.Name h
  have hr := resolveScanner_without_override lc dsOpen isScanner conf rightFrom.Name h
  refine ⟨?_, ?_, ?_⟩
  · intro vl vr hvl hsl hvr hsr
    unfold NewSourceJoin
    simp [hl, hr, hvl, hsl, hvr, hsr]
  · intro hno
    unfold NewSourceJoin
    cases hvl : conf.Sources (strings.ToLower lc leftFrom.Name) with
    | none => simp [hl, hvl]
    | some vl =>
      by_cases hsl : isScanner vl = true
      · cases hvr : conf.Sources (strings.ToLower lc rightFrom.Name) with
        | none => simp [hl, hr, hvl, hsl, hvr]
        | some vr =>
          by_cases hsr : isScanner vr = true
          · rcases hno with hno | hno
            · have := hno vl hvl
              rw [hsl] at this
              cases this
            · have := hno vr hvr
              rw [hsr] at this
              cases this
          · simp [hl, hr, hvl, hsl, hvr, hsr]
      · simp [hl, hvl, hsl]
  · unfold NewSourceJoin
    cases hvl : conf.Sources (strings.ToLower lc leftFrom.Name) with
    | none => simp [hl, hvl]
    | some vl =>
      by_cases hsl : isScanner vl = true
      · cases hvr : conf.Sources (strings.ToLower lc rightFrom.Name) with
        | none => simp [hl, hr, hvl, hsl, hvr]
        | some vr =>
          by_cases hsr : isScanner vr = true
          · simp [hl, hr, hvl, hsl, hvr, hsr]
          · simp [hl, hr, hvl, hsl, hvr, hsr]
      · simp [hl, hvl, hsl]

theorem NewSourceJoin_without_override_witness :
    tableConf.singleConn = [] ∧
    (NewSourceJoin Char.toLower sampleOpen tableIsScanner (mkSource "users".toList [] none)
        (mkSource "orders".toList [] none) tableConf).1
      = Outcome.ret (some (SourceJoin.mk (mkSource "users".toList [] none)
          (mkSource "orders".toList [] none) 1 2), none) ∧
    (NewSourceJoin Char.toLower sampleOpen tableIsScanner (mkSource "users".toList [] none)
        (mkSource "nonexistent".toList [] none) tableConf).1
      = Outcome.ret (none, some mustImplementScanner) ∧
    (NewSourceJoin Char.toLower sampleOpen tableIsScanner (mkSource "config".toList [] none)
        (mkSource "orders".toList [] none) tableConf).1
      = Outcome.ret (none, some mustImplementScanner) :=
  ⟨rfl,
   (NewSourceJoin_without_override Char.toLower sampleOpen tableIsScanner
      (mkSource "users".toList [] none) (mkSource "orders".toList [] none) tableConf rfl).1
      1 2 (by decide) (by decide) (by decide) (by decide),
   (NewSourceJoin_without_override Char.toLower sampleOpen tableIsScanner
      (mkSource "users".toList [] none) (mkSource "nonexistent".toList [] none) tableConf
      rfl).2.1 (Or.inr (by
        intro vr hvr
        have h0 : tableConf.Sources (strings.ToLower Char.toLower
            (mkSource "nonexistent".toList [] none).Name) = none := by decide
        rw [h0] at hvr
        cases hvr)),
   (NewSourceJoin_without_override Char.toLower sampleOpen tableIsScanner
      (mkSource "config".toList [] none) (mkSource "orders".toList [] none) tableConf
      rfl).2.1 (Or.inl (by
        intro vl hvl
        have h3 : tableConf.Sources (strings.ToLower Char.toLower
            (mkSource "config".toList [] none).Name) = some 3 := by decide
        rw [h3] at hvl
        cases hvl
        decide))⟩

/-! ## `findFromAliases`, key order, totality and `count(*)` -/

/-- C25 fails as stated: for the finalized source `orders AS o` with the
predicate `o.user_id = 5`, whose second operand is no identity, the second
alias `findFromAliases` returns is the empty string, not the canonical alias
`o` of the source. -/
theorem findFromAliases_second_fallback_empty :
    ordersOnNumber.alias_ = "o".toList ∧
    ordersOnNumber.findFromAliases identLeftRight = ("o".toList, []) := by
  decide

/-- C25 (amended): for a source whose join expression is a binary node, the
first alias `findFromAliases` returns is the left qualifier of the first
operand when that is a qualified identity and the alias of the source
otherwise; the second alias is the left qualifier of the second operand when
that is a qualified identity and the empty string otherwise. -/
theorem findFromAliases_binary (identLR : Str → Str × Str × Bool) (m : SqlSource)
    (op : Token) (a0 a1 : Node) (h : m.JoinExpr = some (Node.BinaryNode op a0 a1)) :
    (∀ t, a0 = Node.IdentityNode t → (identLR t).2.2 = true →
      (m.findFromAliases identLR).1 = (identLR t).1) ∧
    ((∀ t, a0 = Node.IdentityNode t → (identLR t).2.2 = false) →
      (m.findFromAliases identLR).1 = m.alias_) ∧
    (∀ t, a1 = Node.IdentityNode t → (identLR t).2.2 = true →
      (m.findFromAliases identLR).2 = (identLR t).1) ∧
    ((∀ t, a1 = Node.IdentityNode t → (identLR t).2.2 = false) →
      (m.findFromAliases identLR).2 = []) := by
  have hno : ∀ a : Node, (∀ t, a = Node.IdentityNode t → (identLR t).2.2 = false) →
      operandAlias identLR a = none := by
    intro a ha
    cases a with
    | IdentityNode t => simp [operandAlias, ha t rfl]
    | BinaryNode o x y => rfl
    | FuncNode n args => rfl
    | OtherNode k => rfl
    | NilNode => rfl
  refine ⟨?_, ?_, ?_, ?_⟩
  · intro t ht hok
    subst ht
    simp [SqlSource.findFromAliases, h, operandAlias, hok]
  · intro ha
    simp [SqlSource.findFromAliases, h, hno a0 ha]
  · intro t ht hok
    subst ht
    simp [SqlSource.findFromAliases, h, operandAlias, hok]
  · intro ha
    simp [SqlSource.findFromAliases, h, hno a1 ha]

theorem findFromAliases_binary_witness :
    (selectJoin.Finalize Char.toLower identLeftRight).2.From.map
        (fun src => src.findFromAliases identLeftRight)
      = [("u".toList, "o".toList), ("u".toList, "o".toList)] ∧
    (scenarioRight.findFromAliases identLeftRight).1 = "u".toList ∧
    (scenarioRight.findFromAliases identLeftRight).2 = "o".toList :=
  ⟨by decide,
   (findFromAliases_binary identLeftRight scenarioRight
      { T := TokenType.TokenEqual, V := "=".toList }
      (Node.IdentityNode "u.user_id".toList) (Node.IdentityNode "o.user_id".toList) rfl).1
      "u.user_id".toList rfl (by decide),
   (findFromAliases_binary identLeftRight scenarioRight
      { T := TokenType.TokenEqual, V := "=".toList }
      (Node.IdentityNode "u.user_id".toList) (Node.IdentityNode "o.user_id".toList) rfl).2.2.1
      "o.user_id".toList rfl (by decide)⟩

theorem unAliasedLoop_get (k : Str) (cs : List Column) : ∀ acc : StrMap Column,
    mapGet (unAliasedLoop cs acc).1 k =
      match lastWithKey k cs with
      | some c => some c.LeftRight.2
      | none => mapGet acc k := by
  induction cs with
  | nil => intro acc; rfl
  | cons c rest ih =>
    intro acc
    simp only [unAliasedLoop, ih, lastWithKey]
    cases lastWithKey k rest with
    | some d => rfl
    | none =>
      simp only [Column.mapKey]
      by_cases hok : c.LeftRight.1.2.2 = true
      · simp only [hok, if_true, mapGet_mapSet]
        by_cases hk : c.LeftRight.1.2.1 = k <;> simp [hk]
      · simp only [hok, Bool.false_eq_true, if_false, mapGet_mapSet]
        by_cases hk : c.LeftRight.1.1 = k <;> simp [hk]

theorem lastWithKey_isSome (k : Str) (cs : List Column) :
    (lastWithKey k cs).isSome = true ↔ ∃ c ∈ cs, c.mapKey = k := by
  induction cs with
  | nil => simp [lastWithKey]
  | cons c rest ih =>
    simp only [lastWithKey, List.mem_cons, exists_eq_or_imp]
    cases hr : lastWithKey k rest with
    | some d =>
      have : ∃ c ∈ rest, c.mapKey = k := ih.mp (by rw [hr]; rfl)
      simp [this]
    | none =>
      have hnone : ¬ ∃ c ∈ rest, c.mapKey = k := fun hc => by
        have := ih.mpr hc
        rw [hr] at this
        cases this
      by_cases hk : c.mapKey = k
      · simp [hk]
      · simp [hk, hnone]

/-- C26: in the map `UnAliasedColumns` returns, the column under a key is the
last column of the projection list, in list order, that produces this key, and
the keys are those that some column produces; for `SELECT u.name, o.name` the
key `name` maps to the column `o.name`. -/
theorem UnAliasedColumns_last_wins (m : SqlSelect) (k : Str) :
    mapGet m.UnAliasedColumns.1 k = (lastWithKey k m.Columns).map (fun c => c.LeftRight.2) ∧
    (k ∈ mapKeys m.UnAliasedColumns.1 ↔ ∃ c ∈ m.Columns, c.mapKey = k) ∧
    (mapGet selectTwoNames.UnAliasedColumns.1 "name".toList).map (fun c => c.As)
      = some "o.name".toList := by
  have hget : mapGet m.UnAliasedColumns.1 k
      = (lastWithKey k m.Columns).map (fun c => c.LeftRight.2) := by
    unfold SqlSelect.UnAliasedColumns
    simp only [unAliasedLoop_get]
    cases lastWithKey k m.Columns with
    | some c => rfl
    | none => rfl
  refine ⟨hget, ?_, by decide⟩
  rw [← mapGet_isSome_iff, hget, ← lastWithKey_isSome]
  cases lastWithKey k m.Columns with
  | some c => simp
  | none => simp

/-- A source without join expression makes `JoinValueExpr` panic: the type
assertion fails on the nil interface value and the error message is built with
`m.JoinExpr.String()`. -/
theorem JoinValueExpr_nil_panics (identLR : Str → Str × Str × Bool)
    (isSimple : Token → Node → Node → Bool) (nodeString : Node → Str) (m : SqlSource)
    (h : m.JoinExpr = none) :
    m.JoinValueExpr identLR isSimple nodeString = Outcome.nilDereference := by
  simp [SqlSource.JoinValueExpr, h]

/-- C27: for the finalized source `users`, which has no join expression,
`JoinValueExpr` does not return an error: it panics on the nil `JoinExpr`, and
`SourceJoin.Run` ends with that panic, which the context recovers, and sends no
row. -/
theorem JoinValueExpr_no_join_panics :
    usersAlone.JoinExpr.isNone = true ∧
    usersAlone.JoinValueExpr identLeftRight isSimpleEquality sampleNodeString
      = Outcome.nilDereference ∧
    SourceJoin.Run identLeftRight isSimpleEquality sampleNodeString sampleEval usersAlone
        scenarioRight usersRows ordersRows = (Outcome.nilDereference, []) :=
  ⟨rfl, rfl, by decide⟩

/-- The two tests agree on a SELECT with one column unless the column is a call
of `count` whose number of arguments is not one. -/
theorem CountStar_agree (lc : Char → Char) (nodeString : Node → Str) (m : SqlSelect)
    (col : Column) (h : m.Columns = [col])
    (hargs : ∀ name args, col.Expr = some (Node.FuncNode name args) →
      strings.ToLower lc name = countName → args.length = 1) :
    col.CountStar lc nodeString = Outcome.ret (m.CountStar lc nodeString) := by
  unfold Column.CountStar SqlSelect.CountStar
  rw [h]
  cases he : col.Expr with
  | none => simp [he]
  | some e =>
    cases e with
    | FuncNode name args =>
      by_cases hn : strings.ToLower lc name = countName
      · have hlen := hargs name args he hn
        match args, hlen with
        | [a], _ =>
          by_cases hs : nodeString a = starText <;> simp [he, hn, hs]
      · simp [he, hn]
    | IdentityNode t => simp [he]
    | BinaryNode o x y => simp [he]
    | OtherNode k => simp [he]
    | NilNode => simp [he]

/-- C28: the two `count(*)` tests do not agree.  For `SELECT count()` the test
of the column panics on `fn.Args[0]` while the test of the statement answers
false; for `SELECT count(*, name)` the test of the column answers true and the
test of the statement false.  For `SELECT count(*)` both answer true. -/
theorem CountStar_disagree :
    selectCountNoArgs.Columns.map (fun c => c.CountStar Char.toLower sampleNodeString)
      = [Outcome.indexOutOfRange] ∧
    selectCountNoArgs.CountStar Char.toLower sampleNodeString = false ∧
    selectCountTwoArgs.Columns.map (fun c => c.CountStar Char.toLower sampleNodeString)
      = [Outcome.ret true] ∧
    selectCountTwoArgs.CountStar Char.toLower sampleNodeString = false ∧
    selectCountStar.Columns.map (fun c => c.CountStar Char.toLower sampleNodeString)
      = [Outcome.ret true] ∧
    selectCountStar.CountStar Char.toLower sampleNodeString = true := by
  decide

/-! ## Cancellation of the join -/

/-- Once a drain goroutine has returned from the signal case, the counter of the
wait group stays above zero and `Run` stays in `wg.Wait()`. -/
theorem JoinStep_keeps_waiting (vmEval : MsgBody → Node → Option Value)
    (lhExpr rhExpr : Node) (cols : StrMap Column) (s t : JoinRun)
    (hstep : JoinStep vmEval lhExpr rhExpr cols s t)
    (hwg : s.wg = s.notDone)
    (hgone : s.leftDrain = DrainState.Cancelled ∨ s.rightDrain = DrainState.Cancelled)
    (hphase : s.phase = RunPhase.Waiting) :
    t.wg = t.notDone ∧
    (t.leftDrain = DrainState.Cancelled ∨ t.rightDrain = DrainState.Cancelled) ∧
    t.phase = RunPhase.Waiting := by
  have hpos : 1 ≤ s.notDone := by
    unfold JoinRun.notDone
    rcases hgone with h | h <;> simp [h]
  cases hstep with
  | closeSignal => exact ⟨hwg, hgone, hphase⟩
  | leftSend m h => exact ⟨hwg, hgone, hphase⟩
  | leftClose => exact ⟨hwg, hgone, hphase⟩
  | rightSend m h => exact ⟨hwg, hgone, hphase⟩
  | rightClose => exact ⟨hwg, hgone, hphase⟩
  | leftSignal hd hs =>
    refine ⟨?_, Or.inl rfl, hphase⟩
    simp only [JoinRun.notDone] at hwg ⊢
    rw [hd] at hwg
    simpa using hwg
  | leftReceive m rest hd hin => exact ⟨hwg, hgone, hphase⟩
  | leftDone hd hin hc =>
    have hr : s.rightDrain = DrainState.Cancelled := by
      rcases hgone with h | h
      · rw [hd] at h; cases h
      · exact h
    refine ⟨?_, Or.inr hr, hphase⟩
    simp only [JoinRun.notDone] at hwg ⊢
    rw [hd, hr] at hwg
    simp only [hr]
    simp at hwg ⊢
    omega
  | rightSignal hd hs =>
    refine ⟨?_, Or.inr rfl, hphase⟩
    simp only [JoinRun.notDone] at hwg ⊢
    rw [hd] at hwg
    simpa using hwg
  | rightReceive m rest hd hin => exact ⟨hwg, hgone, hphase⟩
  | rightDone hd hin hc =>
    have hl : s.leftDrain = DrainState.Cancelled := by
      rcases hgone with h | h
      · exact h
      · rw [hd] at h; cases h
    refine ⟨?_, Or.inl hl, hphase⟩
    simp only [JoinRun.notDone] at hwg ⊢
    rw [hd, hl] at hwg
    simp only [hl]
    simp at hwg ⊢
    omega
  | waitReturns hp hw =>
    rw [hwg] at hw
    omega
  | sendMatch m rest hp =>
    rw [hphase] at hp
    cases hp
  | runReturns hp =>
    rw [hphase] at hp
    cases hp

theorem JoinRun_stays_waiting (vmEval : MsgBody → Node → Option Value)
    (lhExpr rhExpr : Node) (cols : StrMap Column) (s t : JoinRun)
    (hsteps : Relation.ReflTransGen (JoinStep vmEval lhExpr rhExpr cols) s t)
    (hwg : s.wg = s.notDone)
    (hgone : s.leftDrain = DrainState.Cancelled ∨ s.rightDrain = DrainState.Cancelled)
    (hphase : s.phase = RunPhase.Waiting) :
    t.wg = t.notDone ∧
    (t.leftDrain = DrainState.Cancelled ∨ t.rightDrain = DrainState.Cancelled) ∧
    t.phase = RunPhase.Waiting := by
  induction hsteps with
  | refl => exact ⟨hwg, hgone, hphase⟩
  | tail _ hstep ih =>
    exact JoinStep_keeps_waiting vmEval lhExpr rhExpr cols _ _ hstep ih.1 ih.2.1 ih.2.2

/-- C24: `SourceJoin.Run` does not return after a cancellation.  From the start
the signal channel is closed and the left drain goroutine takes the signal
case, which returns without `wg.Done()`; in every state the execution can reach
from there, whatever the inputs do, the body of `Run` is still in `wg.Wait()`:
it has not returned, the outbox is not closed and the wait group counts at
least one goroutine. -/
theorem SourceJoin_cancel_blocks :
    JoinStep sampleEval (Node.IdentityNode "user_id".toList)
      (Node.IdentityNode "user_id".toList) scenarioLeft.UnAliasedColumns
      JoinRun.start JoinRun.cancelled ∧
    JoinStep sampleEval (Node.IdentityNode "user_id".toList)
      (Node.IdentityNode "user_id".toList) scenarioLeft.UnAliasedColumns
      JoinRun.cancelled JoinRun.leftGone ∧
    ∀ t, Relation.ReflTransGen
        (JoinStep sampleEval (Node.IdentityNode "user_id".toList)
          (Node.IdentityNode "user_id".toList) scenarioLeft.UnAliasedColumns)
        JoinRun.leftGone t →
      t.phase = RunPhase.Waiting ∧ t.phase ≠ RunPhase.Returned ∧ 1 ≤ t.wg := by
  refine ⟨JoinStep.closeSignal JoinRun.start,
    JoinStep.leftSignal JoinRun.cancelled rfl rfl, ?_⟩
  intro t ht
  obtain ⟨h1, h2, h3⟩ := JoinRun_stays_waiting _ _ _ _ JoinRun.leftGone t ht rfl
    (Or.inl rfl) rfl
  refine ⟨h3, ?_, ?_⟩
  · rw [h3]
    intro h
    cases h
  · rw [h1]
    unfold JoinRun.notDone
    rcases h2 with h | h <;> simp [h]

end QLBridge
